import Mathlib

/-!
RangeMap.

A verification development for `src/src/RangeMap/RangeMap.h`: a container that
associates half-open key ranges with values by storing, in a `std::map<K,V>`,
only the keys at which the associated value changes.

Embedding:

* The backing `std::map<K,V>` is the list of its nodes in key order.  A
  well-formed `std::map` has strictly increasing keys (`KeysIncreasing`).
* An iterator is the index of its node in that list; `end()` is the length of
  the list and `begin()` is index `0`.
* `std::map` iterators stay attached to their node when another node is
  inserted.  In the index embedding this is `relocate`: an iterator at or after
  the place of a newly inserted node moves one index to the right.
* `operator<` on keys is a linear order, `operator==` on values is decidable
  equality.
* `assert` failures and invalid iterator uses (dereferencing a position that has
  no node, erasing a range whose end precedes its start) make the embedded
  function return `none`.
-/

namespace RangeMap

variable {K V : Type} [LinearOrder K] [DecidableEq V]

/-! ## The `std::map` primitives used by the source -/

/-- `std::map::upper_bound(key)`: position of the first node whose key is
strictly greater than `key`, or `end()`. -/
def upper_bound : List (K × V) → K → Nat
  | [], _ => 0
  | p :: rest, key => if key < p.1 then 0 else upper_bound rest key + 1

/-- `std::map::insert_or_assign(hint, key, val)`: the hint does not change the
outcome.  Returns the new node list, the position of the node that holds `key`,
and whether a node was inserted (as opposed to assigned). -/
def insert_or_assign : List (K × V) → K → V → List (K × V) × Nat × Bool
  | [], key, val => ([(key, val)], 0, true)
  | p :: rest, key, val =>
    if key < p.1 then ((key, val) :: p :: rest, 0, true)
    else if p.1 < key then
      let r := insert_or_assign rest key val
      (p :: r.1, r.2.1 + 1, r.2.2)
    else ((p.1, val) :: rest, 0, false)

/-- `std::map::insert(hint, {key, val})`: inserts only when `key` is absent.
Returns the new node list, the position of the node that holds `key`, and
whether a node was inserted. -/
def insert : List (K × V) → K → V → List (K × V) × Nat × Bool
  | [], key, val => ([(key, val)], 0, true)
  | p :: rest, key, val =>
    if key < p.1 then ((key, val) :: p :: rest, 0, true)
    else if p.1 < key then
      let r := insert rest key val
      (p :: r.1, r.2.1 + 1, r.2.2)
    else (p :: rest, 0, false)

/-- Index, after an insertion, of the node (or `end()`) that an iterator `it`
pointed to before it: a node inserted at position `pos` at or before `it` moves
it one to the right. -/
def relocate (inserted : Bool) (pos it : Nat) : Nat :=
  if inserted = true ∧ pos ≤ it then it + 1 else it

/-- `std::map::erase(first, last)`: removes the nodes in `[first, last)`.  The
range must be valid. -/
def erase (m : List (K × V)) (first last : Nat) : Option (List (K × V)) :=
  if first ≤ last ∧ last ≤ m.length then some (m.take first ++ m.drop last) else none

/-- `it->first` -/
def keyAt (m : List (K × V)) (it : Nat) : Option K :=
  (m[it]?).map Prod.fst

/-- `it->second` -/
def valueAt (m : List (K × V)) (it : Nat) : Option V :=
  (m[it]?).map Prod.snd

/-- `it->second = val` -/
def assignSecond : List (K × V) → Nat → V → List (K × V)
  | [], _, _ => []
  | p :: rest, 0, val => (p.1, val) :: rest
  | p :: rest, it + 1, val => p :: assignSecond rest it val

/-! ## The container -/

end RangeMap

/-- `class RangeMap` (RangeMap.h:40-115): the default value and the map that
stores the range boundaries. -/
structure RangeMap (K V : Type) where
  /-- Default value for keys that fall outside of the ranges. -/
  mDefaultVal : V
  /-- Nodes of the `std::map`, in key order. -/
  mMap : List (K × V)

namespace RangeMap

variable {K V : Type} [LinearOrder K] [DecidableEq V]

/-- `RangeMap::RangeMap(dafaultVal)` (RangeMap.h:50-52). -/
def construct (dafaultVal : V) : RangeMap K V :=
  { mDefaultVal := dafaultVal, mMap := [] }

/-- `RangeMap::data()` (RangeMap.h:262-266). -/
def data (self : RangeMap K V) : List (K × V) :=
  self.mMap

/-- `RangeMap::operator[]` (RangeMap.h:245-258). -/
def get (self : RangeMap K V) (key : K) : Option V :=
  let it := upper_bound self.mMap key
  if it = 0 then some self.mDefaultVal
  else valueAt self.mMap (it - 1)

/-- The `while` loop of `assign` (RangeMap.h:146-161).  The first argument is
the list of nodes from `keyEndPos` to `end()`. -/
def scanKeyEnd (keyEnd : K) : List (K × V) → Nat → Nat
  | [], keyEndPos => keyEndPos
  | p :: rest, keyEndPos =>
    if p.1 < keyEnd then scanKeyEnd keyEnd rest (keyEndPos + 1)
    else if keyEnd < p.1 then keyEndPos
    else scanKeyEnd keyEnd rest (keyEndPos + 1)

/-- `RangeMap::InsertKeyBegin` (RangeMap.h:270-291).  Returns the map, the
iterator `out`, and the caller's iterator `keyEndPos` relocated across the
insertion. -/
def InsertKeyBegin (mMap : List (K × V)) (keyBegin : K) (keyVal : V)
    (keyBeginPos keyEndPos : Nat) : Option (List (K × V) × Nat × Nat) :=
  let r := insert mMap keyBegin keyVal
  let insertionPos := r.2.1
  let hint := relocate r.2.2 insertionPos keyBeginPos
  let endPos := relocate r.2.2 insertionPos keyEndPos
  if insertionPos + 1 = r.1.length ∨ insertionPos + 1 = hint then
    if insertionPos ≠ 0 then
      match valueAt r.1 (insertionPos - 1) with
      | none => none
      | some prevValue =>
        if prevValue = keyVal then some (r.1, insertionPos - 1, endPos)
        else some (assignSecond r.1 insertionPos keyVal, insertionPos, endPos)
    else some (assignSecond r.1 insertionPos keyVal, insertionPos, endPos)
  else none

/-- The value of `beginRangeValueEqualKeyVal` (RangeMap.h:168-174). -/
def beginRangeValueEqualKeyVal (mMap : List (K × V)) (keyVal : V) (keyBeginPos : Nat) :
    Option Bool :=
  if keyBeginPos ≠ 0 ∧ keyBeginPos ≠ mMap.length then
    (valueAt mMap (keyBeginPos - 1)).map (fun curRangeValue => decide (curRangeValue = keyVal))
  else some false

/-- The block "insert 'keyEnd'" of `assign` (RangeMap.h:177-194).  Returns the
map and the iterators `keyBeginPos` and `keyEndPos`. -/
def assignInsertKeyEnd (mDefaultVal : V) (mMap : List (K × V)) (keyEnd : K) (keyVal : V)
    (keyBeginPos keyEndPos : Nat) : Option (List (K × V) × Nat × Nat) :=
  if keyEndPos ≠ 0 ∧ keyEndPos ≠ mMap.length then
    match valueAt mMap (keyEndPos - 1) with
    | none => none
    | some curRangeValue =>
      if curRangeValue = keyVal then some (mMap, keyBeginPos, keyEndPos)
      else
        let r := insert_or_assign mMap keyEnd curRangeValue
        some (r.1, relocate r.2.2 r.2.1 keyBeginPos, r.2.1)
  else
    if mDefaultVal = keyVal then some (mMap, keyBeginPos, keyEndPos)
    else
      let r := insert_or_assign mMap keyEnd mDefaultVal
      some (r.1, relocate r.2.2 r.2.1 keyBeginPos, r.2.1)

/-- The test `keyEndPos != mMap.end() && keyEndPos->first < keyBeginPos->first`
(RangeMap.h:202 and 219). -/
def keyEndPrecedes (mMap : List (K × V)) (keyBeginPos keyEndPos : Nat) : Option Bool :=
  if keyEndPos ≠ mMap.length then
    match keyAt mMap keyEndPos, keyAt mMap keyBeginPos with
    | some ke, some kb => some (decide (ke < kb))
    | _, _ => none
  else some false

/-- The block "insert 'keyBegin'" of `assign` (RangeMap.h:196-226).  Returns the
map and the iterators `keyBeginPos` and `keyEndPos`. -/
def assignInsertKeyBegin (mDefaultVal : V) (mMap : List (K × V)) (keyBegin : K) (keyVal : V)
    (isKeyBeginWithinPreviousRange beginRangeValueEqualKeyVal : Bool)
    (keyBeginPos keyEndPos : Nat) : Option (List (K × V) × Nat × Nat) :=
  if isKeyBeginWithinPreviousRange = true then
    if beginRangeValueEqualKeyVal = false then
      match keyEndPrecedes mMap keyBeginPos keyEndPos with
      | none => none
      | some c =>
        InsertKeyBegin mMap keyBegin keyVal (if c = true then keyEndPos else keyBeginPos) keyEndPos
    else some (mMap, keyBeginPos - 1, keyEndPos)
  else
    if mDefaultVal = keyVal then some (mMap, keyBeginPos, keyEndPos)
    else if keyBeginPos = mMap.length then
      InsertKeyBegin mMap keyBegin keyVal keyEndPos keyEndPos
    else
      match keyEndPrecedes mMap keyBeginPos keyEndPos with
      | none => none
      | some c =>
        InsertKeyBegin mMap keyBegin keyVal (if c = true then keyEndPos else keyBeginPos) keyEndPos

/-- The block "Delete any previous ranges between 'keyBeginPos' and
'keyEndPos'" of `assign` (RangeMap.h:229-240). -/
def assignErase (mDefaultVal : V) (mMap : List (K × V)) (keyVal : V)
    (keyBeginPos keyEndPos : Nat) : Option (List (K × V)) :=
  if keyBeginPos ≠ mMap.length then
    if mDefaultVal = keyVal ∧ keyBeginPos = 0 then erase mMap keyBeginPos keyEndPos
    else if keyBeginPos + 1 ≠ keyEndPos then erase mMap (keyBeginPos + 1) keyEndPos
    else some mMap
  else some mMap

/-- `RangeMap::assign` (RangeMap.h:120-241). -/
def assign (self : RangeMap K V) (keyBegin keyEnd : K) (keyVal : V) : Option (RangeMap K V) :=
  if ¬ (keyBegin < keyEnd) then some self
  else
    let keyBeginPos := upper_bound self.mMap keyBegin
    let keyEndPos := scanKeyEnd keyEnd (self.mMap.drop keyBeginPos) keyBeginPos
    let isKeyBeginWithinPreviousRange : Bool :=
      decide (keyBeginPos ≠ 0 ∧ keyBeginPos ≠ self.mMap.length)
    match beginRangeValueEqualKeyVal self.mMap keyVal keyBeginPos with
    | none => none
    | some beginEq =>
      match assignInsertKeyEnd self.mDefaultVal self.mMap keyEnd keyVal keyBeginPos keyEndPos with
      | none => none
      | some (m1, keyBeginPos1, keyEndPos1) =>
        match assignInsertKeyBegin self.mDefaultVal m1 keyBegin keyVal
            isKeyBeginWithinPreviousRange beginEq keyBeginPos1 keyEndPos1 with
        | none => none
        | some (m2, keyBeginPos2, keyEndPos2) =>
          match assignErase self.mDefaultVal m2 keyVal keyBeginPos2 keyEndPos2 with
          | none => none
          | some m3 => some { self with mMap := m3 }

/-! ## Specification vocabulary -/

/-- A well-formed `std::map`: the keys of its nodes are strictly increasing. -/
def KeysIncreasing (m : List (K × V)) : Prop :=
  m.Pairwise (fun p q => p.1 < q.1)

/-- Invariant I1: entries adjacent in key order hold different values. -/
def I1 (m : List (K × V)) : Prop :=
  m.Chain' (fun p q => p.2 ≠ q.2)

/-- Invariant I2: the first entry, if any, does not hold the default value. -/
def I2 (d : V) (m : List (K × V)) : Prop :=
  ∀ p ∈ m.head?, p.2 ≠ d

/-- A finite sequence of `assign` calls, applied in order. -/
def assignAll : RangeMap K V → List (K × K × V) → Option (RangeMap K V)
  | s, [] => some s
  | s, c :: cs =>
    match assign s c.1 c.2.1 c.2.2 with
    | none => none
    | some s1 => assignAll s1 cs

/-- The states reachable from `construct d` by a finite sequence of `assign`
calls. -/
def Reachable (s : RangeMap K V) : Prop :=
  ∃ calls : List (K × K × V), assignAll (construct s.mDefaultVal) calls = some s

/-- The naive model of one `assign`: a total function from keys to values,
updated pointwise on the half-open range `[keyBegin, keyEnd)`. -/
def naiveAssign (f : K → V) (keyBegin keyEnd : K) (keyVal : V) : K → V :=
  fun k => if keyBegin ≤ k ∧ k < keyEnd then keyVal else f k

/-- The naive model of a finite sequence of `assign` calls, applied in order. -/
def naiveAssignAll (f : K → V) : List (K × K × V) → K → V
  | [] => f
  | c :: cs => naiveAssignAll (naiveAssign f c.1 c.2.1 c.2.2) cs

/-- The value `assign` takes as governing a key whose upper bound is the
position `pos` (RangeMap.h:164-194 and 214-216): `std::prev(pos)->second` when
`pos` is neither `begin()` nor `end()`, and `mDefaultVal` otherwise. -/
def governingValue (mDefaultVal : V) (mMap : List (K × V)) (pos : Nat) : Option V :=
  if pos ≠ 0 ∧ pos ≠ mMap.length then valueAt mMap (pos - 1) else some mDefaultVal

/-- `assign` with the linear scan for `keyEndPos` replaced by the independent
search `mMap.upper_bound(keyEnd)`, the alternative named in the comment at
RangeMap.h:143-145; everything else is `assign`. -/
def assignSearch (self : RangeMap K V) (keyBegin keyEnd : K) (keyVal : V) :
    Option (RangeMap K V) :=
  if ¬ (keyBegin < keyEnd) then some self
  else
    let keyBeginPos := upper_bound self.mMap keyBegin
    let keyEndPos := upper_bound self.mMap keyEnd
    let isKeyBeginWithinPreviousRange : Bool :=
      decide (keyBeginPos ≠ 0 ∧ keyBeginPos ≠ self.mMap.length)
    match beginRangeValueEqualKeyVal self.mMap keyVal keyBeginPos with
    | none => none
    | some beginEq =>
      match assignInsertKeyEnd self.mDefaultVal self.mMap keyEnd keyVal keyBeginPos keyEndPos with
      | none => none
      | some (m1, keyBeginPos1, keyEndPos1) =>
        match assignInsertKeyBegin self.mDefaultVal m1 keyBegin keyVal
            isKeyBeginWithinPreviousRange beginEq keyBeginPos1 keyEndPos1 with
        | none => none
        | some (m2, keyBeginPos2, keyEndPos2) =>
          match assignErase self.mDefaultVal m2 keyVal keyBeginPos2 keyEndPos2 with
          | none => none
          | some m3 => some { self with mMap := m3 }

/-! ## Proof vocabulary -/

/-- The value in force after walking all of `m`, starting from value `d`: the
value of the last node, or `d` when there is none. -/
def lastVal (d : V) : List (K × V) → V
  | [] => d
  | p :: rest => lastVal p.2 rest

/-- The value that governs `key`, starting from value `d`: the walk of `lastVal`
stopped at the first node whose key is greater than `key`. -/
def valueFor (d : V) : List (K × V) → K → V
  | [], _ => d
  | p :: rest, key => if key < p.1 then d else valueFor p.2 rest key

/-- I1 and I2 in one recursion: every node holds a value different from the one
in force just before it. -/
def Canonical (d : V) : List (K × V) → Prop
  | [] => True
  | p :: rest => p.2 ≠ d ∧ Canonical p.2 rest

/-- The boundary entry at `keyBegin`, needed unless the value `g` in force
before it is already `keyVal`. -/
def beginPart (g : V) (keyBegin : K) (keyVal : V) : List (K × V) :=
  if g = keyVal then [] else [(keyBegin, keyVal)]

/-- The boundary entry at `keyEnd` that resumes the value `g` which governed
`keyEnd`, needed unless `g` is `keyVal`. -/
def endPart (g : V) (keyEnd : K) (keyVal : V) : List (K × V) :=
  if g = keyVal then [] else [(keyEnd, g)]

/-- The invariant of the reachable states: increasing keys, I1 and I2, and the
last node restores the default value. -/
def Inv (d : V) (m : List (K × V)) : Prop :=
  KeysIncreasing m ∧ Canonical d m ∧ lastVal d m = d

end RangeMap

set_option linter.unusedSectionVars false

namespace RangeMap

variable {K V : Type} [LinearOrder K] [DecidableEq V]

/-! ## Walking a node list -/

theorem lastVal_append (d : V) (A B : List (K × V)) :
    lastVal d (A ++ B) = lastVal (lastVal d A) B := by
  induction A generalizing d with
  | nil => rfl
  | cons p A ih => simp [lastVal, ih]

theorem valueFor_append_of_le (d : V) (A B : List (K × V)) (k : K)
    (hA : ∀ p ∈ A, p.1 ≤ k) : valueFor d (A ++ B) k = valueFor (lastVal d A) B k := by
  induction A generalizing d with
  | nil => rfl
  | cons p A ih =>
    have hp : ¬ k < p.1 := not_lt.mpr (hA p (List.mem_cons_self _ _))
    simp only [List.cons_append, valueFor, hp, if_false, lastVal]
    exact ih _ (fun q hq => hA q (List.mem_cons_of_mem _ hq))

theorem valueFor_of_lt (d : V) (B : List (K × V)) (k : K)
    (hB : ∀ p ∈ B, k < p.1) : valueFor d B k = d := by
  cases B with
  | nil => rfl
  | cons p B => simp [valueFor, hB p (List.mem_cons_self _ _)]

theorem valueFor_of_le (d : V) (A : List (K × V)) (k : K)
    (hA : ∀ p ∈ A, p.1 ≤ k) : valueFor d A k = lastVal d A := by
  have h := valueFor_append_of_le d A [] k hA
  simpa [valueFor] using h

theorem canonical_append (d : V) (A B : List (K × V)) :
    Canonical d (A ++ B) ↔ Canonical d A ∧ Canonical (lastVal d A) B := by
  induction A generalizing d with
  | nil => simp [Canonical, lastVal]
  | cons p A ih => simp [Canonical, lastVal, ih, and_assoc]

theorem canonical_iff (d : V) (m : List (K × V)) : Canonical d m ↔ I1 m ∧ I2 d m := by
  induction m generalizing d with
  | nil => simp [Canonical, I1, I2]
  | cons p m ih =>
    cases m with
    | nil => simp [Canonical, I1, I2]
    | cons q m =>
      have h := ih p.2
      simp only [Canonical, I1, I2, List.chain'_cons, List.head?_cons, Option.mem_def,
        Option.some.injEq, forall_eq', ne_eq] at h ⊢
      rw [h]
      constructor
      · rintro ⟨h1, h2, h3⟩
        exact ⟨⟨fun h => h3 h.symm, h2⟩, h1⟩
      · rintro ⟨⟨h1, h2⟩, h3⟩
        exact ⟨h3, h2, fun h => h1 h.symm⟩

/-! ## Lookup -/

theorem upper_bound_le_length (m : List (K × V)) (k : K) : upper_bound m k ≤ m.length := by
  induction m with
  | nil => simp [upper_bound]
  | cons p m ih =>
    simp only [upper_bound, List.length_cons]
    split <;> omega

theorem get_eq_valueFor (d : V) (m : List (K × V)) (k : K) :
    get ⟨d, m⟩ k = some (valueFor d m k) := by
  induction m generalizing d with
  | nil => simp [get, upper_bound, valueFor]
  | cons p m ih =>
    have h := ih p.2
    simp only [get, upper_bound, valueFor] at h ⊢
    by_cases hk : k < p.1
    · simp [hk]
    · simp only [hk, if_false, Nat.add_sub_cancel, Nat.succ_ne_zero]
      by_cases h0 : upper_bound m k = 0
      · simp [h0, valueAt] at h ⊢
        exact h
      · simp only [h0, if_false] at h
        obtain ⟨n, hn⟩ := Nat.exists_eq_succ_of_ne_zero h0
        simp only [hn, Nat.succ_sub_one, valueAt] at h ⊢
        simpa using h


/-! ## The primitives on a split node list -/

theorem upper_bound_append_of_le (A B : List (K × V)) (k : K) (hA : ∀ p ∈ A, p.1 ≤ k) :
    upper_bound (A ++ B) k = A.length + upper_bound B k := by
  induction A with
  | nil => simp
  | cons p A ih =>
    have hp : ¬ k < p.1 := not_lt.mpr (hA p (List.mem_cons_self _ _))
    simp only [List.cons_append, upper_bound, hp, if_false, List.length_cons, List.append_eq]
    rw [ih (fun q hq => hA q (List.mem_cons_of_mem _ hq))]
    omega

theorem upper_bound_of_lt (B : List (K × V)) (k : K) (hB : ∀ p ∈ B, k < p.1) :
    upper_bound B k = 0 := by
  cases B with
  | nil => rfl
  | cons p B => simp [upper_bound, hB p (List.mem_cons_self _ _)]

theorem scanKeyEnd_append (e : K) (M Z : List (K × V)) (n : Nat)
    (hM : ∀ p ∈ M, p.1 ≤ e) (hZ : ∀ p ∈ Z, e < p.1) :
    scanKeyEnd e (M ++ Z) n = n + M.length := by
  induction M generalizing n with
  | nil =>
    cases Z with
    | nil => simp [scanKeyEnd]
    | cons z Z =>
      have hz := hZ z (List.mem_cons_self _ _)
      simp [scanKeyEnd, hz, not_lt.mpr hz.le]
  | cons p M ih =>
    have hp := hM p (List.mem_cons_self _ _)
    have ih1 := ih (n + 1) (fun q hq => hM q (List.mem_cons_of_mem _ hq))
    simp only [List.cons_append, scanKeyEnd, not_lt.mpr hp, if_false, List.length_cons,
      List.append_eq]
    split <;> rw [ih1] <;> omega

theorem insert_or_assign_append (A B : List (K × V)) (k : K) (v : V) (hA : ∀ p ∈ A, p.1 < k) :
    insert_or_assign (A ++ B) k v
      = (A ++ (insert_or_assign B k v).1, A.length + (insert_or_assign B k v).2.1,
          (insert_or_assign B k v).2.2) := by
  induction A with
  | nil => simp
  | cons p A ih =>
    have hp := hA p (List.mem_cons_self _ _)
    simp only [List.cons_append, insert_or_assign, not_lt.mpr hp.le, if_false, hp, if_true,
      List.length_cons, List.append_eq]
    rw [ih (fun q hq => hA q (List.mem_cons_of_mem _ hq))]
    simp
    omega

theorem insert_or_assign_of_lt (B : List (K × V)) (k : K) (v : V) (hB : ∀ p ∈ B, k < p.1) :
    insert_or_assign B k v = ((k, v) :: B, 0, true) := by
  cases B with
  | nil => rfl
  | cons p B => simp [insert_or_assign, hB p (List.mem_cons_self _ _)]

theorem insert_or_assign_cons_self (B : List (K × V)) (k : K) (x v : V) :
    insert_or_assign ((k, x) :: B) k v = ((k, v) :: B, 0, false) := by
  simp [insert_or_assign]

theorem insert_append (A B : List (K × V)) (k : K) (v : V) (hA : ∀ p ∈ A, p.1 < k) :
    insert (A ++ B) k v
      = (A ++ (insert B k v).1, A.length + (insert B k v).2.1, (insert B k v).2.2) := by
  induction A with
  | nil => simp
  | cons p A ih =>
    have hp := hA p (List.mem_cons_self _ _)
    simp only [List.cons_append, insert, not_lt.mpr hp.le, if_false, hp, if_true,
      List.length_cons, List.append_eq]
    rw [ih (fun q hq => hA q (List.mem_cons_of_mem _ hq))]
    simp
    omega

theorem insert_of_lt (B : List (K × V)) (k : K) (v : V) (hB : ∀ p ∈ B, k < p.1) :
    insert B k v = ((k, v) :: B, 0, true) := by
  cases B with
  | nil => rfl
  | cons p B => simp [insert, hB p (List.mem_cons_self _ _)]

theorem insert_cons_self (B : List (K × V)) (k : K) (x v : V) :
    insert ((k, x) :: B) k v = ((k, x) :: B, 0, false) := by
  simp [insert]

theorem valueAt_append_cons (A B : List (K × V)) (p : K × V) (i : Nat) (hi : i = A.length) :
    valueAt (A ++ p :: B) i = some p.2 := by
  subst hi
  induction A with
  | nil => simp [valueAt]
  | cons q A ih => simpa [valueAt] using ih

theorem keyAt_append_cons (A B : List (K × V)) (p : K × V) (i : Nat) (hi : i = A.length) :
    keyAt (A ++ p :: B) i = some p.1 := by
  subst hi
  induction A with
  | nil => simp [keyAt]
  | cons q A ih => simpa [keyAt] using ih

theorem assignSecond_append_cons (A B : List (K × V)) (p : K × V) (i : Nat) (v : V)
    (hi : i = A.length) : assignSecond (A ++ p :: B) i v = A ++ (p.1, v) :: B := by
  subst hi
  induction A with
  | nil => simp [assignSecond]
  | cons q A ih => simp [assignSecond, ih]

theorem erase_mid (A M T : List (K × V)) (i j : Nat) (hi : i = A.length)
    (hj : j = A.length + M.length) : erase (A ++ M ++ T) i j = some (A ++ T) := by
  subst hi hj
  have h1 : List.take A.length (A ++ M ++ T) = A := by
    rw [List.append_assoc, List.take_left]
  have h2 : List.drop (A.length + M.length) (A ++ M ++ T) = T := by
    rw [← List.length_append, List.drop_left]
  simp [erase, h1, h2]

/-- The last node of a non-empty list, split off. -/
theorem exists_eq_append_last (A : List (K × V)) (hA : A ≠ []) :
    ∃ A0 x, A = A0 ++ [x] := by
  refine ⟨A.dropLast, A.getLast hA, ?_⟩
  exact (List.dropLast_append_getLast hA).symm

theorem lastVal_append_singleton (d : V) (A : List (K × V)) (x : K × V) :
    lastVal d (A ++ [x]) = x.2 := by
  simp [lastVal_append, lastVal]

/-- Every increasing node list splits at a key into the nodes before it, the
node at it (if any) and the nodes after it. -/
theorem split_at_key (m : List (K × V)) (hm : KeysIncreasing m) (k : K) :
    ∃ A Q B, m = A ++ Q ++ B ∧ (∀ p ∈ A, p.1 < k) ∧ (Q = [] ∨ ∃ x, Q = [(k, x)]) ∧
      (∀ p ∈ B, k < p.1) := by
  induction m with
  | nil => exact ⟨[], [], [], rfl, by simp, Or.inl rfl, by simp⟩
  | cons p m ih =>
    have hm1 : KeysIncreasing m := (List.pairwise_cons.mp hm).2
    have hp : ∀ q ∈ m, p.1 < q.1 := (List.pairwise_cons.mp hm).1
    rcases lt_trichotomy p.1 k with h | h | h
    · obtain ⟨A, Q, B, e1, hA, hQ, hB⟩ := ih hm1
      refine ⟨p :: A, Q, B, by simp [e1], ?_, hQ, hB⟩
      intro q hq
      rcases List.mem_cons.mp hq with rfl | hq
      · exact h
      · exact hA q hq
    · refine ⟨[], [p], m, rfl, by simp, Or.inr ⟨p.2, ?_⟩, ?_⟩
      · rw [← h]
      · intro q hq
        rw [← h]
        exact hp q hq
    · refine ⟨[], [], p :: m, rfl, by simp, Or.inl rfl, ?_⟩
      intro q hq
      rcases List.mem_cons.mp hq with rfl | hq
      · exact h
      · exact lt_trans h (hp q hq)


/-! ## `InsertKeyBegin` on a split node list -/

theorem valueAt_last (d : V) (A B : List (K × V)) (hA : A ≠ []) (i : Nat)
    (hi : i + 1 = A.length) : valueAt (A ++ B) i = some (lastVal d A) := by
  obtain ⟨A0, x, rfl⟩ := exists_eq_append_last A hA
  rw [lastVal_append_singleton, List.append_assoc]
  apply valueAt_append_cons
  simp at hi
  exact hi

theorem insert_shape (X Bq U : List (K × V)) (b : K) (v : V)
    (hX : ∀ p ∈ X, p.1 < b) (hBq : Bq = [] ∨ ∃ x, Bq = [(b, x)]) (hU : ∀ p ∈ U, b < p.1) :
    ∃ v0, insert (X ++ Bq ++ U) b v = (X ++ (b, v0) :: U, X.length, decide (Bq = [])) ∧
      (Bq = [] → v0 = v) := by
  rw [List.append_assoc, insert_append X _ b v hX]
  rcases hBq with rfl | ⟨x, rfl⟩
  · refine ⟨v, ?_, fun _ => rfl⟩
    rw [List.nil_append, insert_of_lt U b v hU]
    simp
  · refine ⟨x, ?_, by simp⟩
    rw [List.singleton_append, insert_cons_self]
    simp

theorem InsertKeyBegin_shape (d : V) (X Bq U : List (K × V)) (b : K) (v : V) (kb ke n : Nat)
    (hX : ∀ p ∈ X, p.1 < b) (hBq : Bq = [] ∨ ∃ x, Bq = [(b, x)]) (hU : ∀ p ∈ U, b < p.1)
    (hkb : kb = (X ++ Bq).length) (hke : ke = (X ++ Bq).length + n) :
    ∃ v0 out, InsertKeyBegin (X ++ Bq ++ U) b v kb ke
        = some (X ++ (b, v0) :: U, out, X.length + 1 + n) ∧
      ((X ≠ [] ∧ lastVal d X = v ∧ out + 1 = X.length) ∨
        (¬ (X ≠ [] ∧ lastVal d X = v) ∧ out = X.length ∧ v0 = v)) := by
  obtain ⟨v0, hins, hv0⟩ := insert_shape X Bq U b v hX hBq hU
  have hassert : X.length + 1 = (X ++ (b, v0) :: U).length ∨
      X.length + 1 = relocate (decide (Bq = [])) X.length kb := by
    right
    rcases hBq with rfl | ⟨x, rfl⟩
    · simp [relocate, hkb]
    · simp [relocate, hkb]
  have hend : relocate (decide (Bq = [])) X.length ke = X.length + 1 + n := by
    rcases hBq with rfl | ⟨x, rfl⟩
    · simp [relocate, hke]
      omega
    · simp [relocate, hke]
  have hset : assignSecond (X ++ (b, v0) :: U) X.length v = X ++ (b, v) :: U :=
    assignSecond_append_cons X U (b, v0) X.length v rfl
  unfold InsertKeyBegin
  simp only [hins, hassert, hend, if_true, hset]
  by_cases hX0 : X = []
  · subst hX0
    refine ⟨v, 0, ?_, Or.inr ⟨by simp, rfl, rfl⟩⟩
    simp
  · have hlen : X.length ≠ 0 := by simpa using hX0
    have hprev : valueAt (X ++ (b, v0) :: U) (X.length - 1) = some (lastVal d X) :=
      valueAt_last d X _ hX0 _ (by omega)
    simp only [hlen, ne_eq, not_false_eq_true, if_true, hprev]
    by_cases hv : lastVal d X = v
    · refine ⟨v0, X.length - 1, ?_, Or.inl ⟨hX0, hv, by omega⟩⟩
      simp [hv]
    · refine ⟨v, X.length, ?_, Or.inr ⟨fun h => hv h.2, rfl, rfl⟩⟩
      simp [hv]

theorem canonical_head_ne (d : V) (X : List (K × V)) (hc : Canonical d X) (hlen : X.length = 1) :
    lastVal d X ≠ d := by
  match X, hlen with
  | [x], _ => simpa [Canonical, lastVal] using hc

theorem assignErase_after_insert (d : V) (X Mx T : List (K × V)) (b : K) (v v0 : V) (out : Nat)
    (hc : Canonical d X)
    (hout : (X ≠ [] ∧ lastVal d X = v ∧ out + 1 = X.length) ∨
        (¬ (X ≠ [] ∧ lastVal d X = v) ∧ out = X.length ∧ v0 = v)) :
    assignErase d (X ++ (b, v0) :: (Mx ++ T)) v out (X.length + 1 + Mx.length)
      = some (X ++ beginPart (lastVal d X) b v ++ T) := by
  have hlenm : (X ++ (b, v0) :: (Mx ++ T)).length = X.length + 1 + Mx.length + T.length := by
    simp; omega
  rcases hout with ⟨hX0, hv, ho⟩ | ⟨hno, ho, hv0⟩
  · have h1 : out ≠ (X ++ (b, v0) :: (Mx ++ T)).length := by rw [hlenm]; omega
    have h2 : ¬ (d = v ∧ out = 0) := by
      rintro ⟨hdv, h0⟩
      exact canonical_head_ne d X hc (by omega) (by rw [hv, hdv])
    have h3 : out + 1 ≠ X.length + 1 + Mx.length := by omega
    have hshape : X ++ (b, v0) :: (Mx ++ T) = X ++ ((b, v0) :: Mx) ++ T := by simp
    unfold assignErase
    simp only [h1, h2, h3, ne_eq, not_false_eq_true, if_true, if_false]
    rw [hshape, erase_mid X ((b, v0) :: Mx) T _ _ ho (by simp; omega)]
    simp [beginPart, hv]
  · subst v0
    subst ho
    have h1 : X.length ≠ (X ++ (b, v) :: (Mx ++ T)).length := by rw [hlenm]; omega
    unfold assignErase
    simp only [h1, ne_eq, not_false_eq_true, if_true]
    by_cases h2 : d = v ∧ X.length = 0
    · obtain ⟨hdv, h0⟩ := h2
      have hX0 : X = [] := List.length_eq_zero.mp h0
      subst hX0
      have hshape : ([] : List (K × V)) ++ (b, v) :: (Mx ++ T) = [] ++ ((b, v) :: Mx) ++ T := by
        simp
      have her := erase_mid [] ((b, v) :: Mx) T 0 (0 + 1 + Mx.length) rfl (by simp; omega)
      simp only [hdv, List.length_nil, and_self, if_true]
      rw [hshape, her]
      simp [beginPart, lastVal]
    · have hne : lastVal d X ≠ v := by
        intro h
        by_cases hX0 : X = []
        · subst hX0
          exact h2 ⟨h, rfl⟩
        · exact hno ⟨hX0, h⟩
      simp only [h2, if_false, beginPart, hne]
      by_cases hMx : Mx = []
      · subst hMx
        simp
      · have h3 : X.length + 1 ≠ X.length + 1 + Mx.length := by
          have : Mx.length ≠ 0 := by simpa using hMx
          omega
        have hshape : X ++ (b, v) :: (Mx ++ T) = (X ++ [(b, v)]) ++ Mx ++ T := by simp
        simp only [h3, ne_eq, not_false_eq_true, if_true]
        rw [hshape, erase_mid (X ++ [(b, v)]) Mx T _ _ (by simp) (by simp)]


/-! ## The blocks "insert 'keyBegin'" and "Delete any previous ranges" -/

theorem beginPart_keep (d : V) (X Bq : List (K × V)) (b : K) (v : V)
    (hBq : Bq = [] ∨ ∃ x, Bq = [(b, x)]) (hc : Canonical d (X ++ Bq))
    (hv : lastVal d (X ++ Bq) = v) : X ++ beginPart (lastVal d X) b v = X ++ Bq := by
  rcases hBq with rfl | ⟨x, rfl⟩
  · simp only [List.append_nil] at hv
    simp [beginPart, hv]
  · rw [lastVal_append_singleton] at hv
    simp only at hv
    subst hv
    have h := ((canonical_append d X [(b, x)]).mp hc).2
    simp only [Canonical, and_true] at h
    have h1 : ¬ lastVal d X = x := fun h2 => h h2.symm
    simp [beginPart, h1]

theorem keyEndPrecedes_hint (L Mx T : List (K × V)) (e : K) (kb1 : Nat)
    (hMx : ∀ p ∈ Mx, p.1 ≤ e) (hT : ∀ p ∈ T, e ≤ p.1)
    (h_hint : kb1 = L.length ∨
      (kb1 = L.length + 1 ∧ Mx = [] ∧ ∃ t T0, T = t :: T0 ∧ ∀ p ∈ T0, t.1 < p.1))
    (hlt : kb1 < (L ++ Mx ++ T).length) :
    ∃ c, keyEndPrecedes (L ++ Mx ++ T) kb1 (L.length + Mx.length) = some c ∧
      (if c = true then L.length + Mx.length else kb1) = L.length := by
  rcases h_hint with hkb | ⟨hkb, rfl, t, T0, rfl, hT0⟩
  · subst hkb
    cases T with
    | nil =>
      refine ⟨false, ?_, by simp⟩
      simp [keyEndPrecedes]
    | cons t T0 =>
      have hke : keyAt (L ++ Mx ++ t :: T0) (L.length + Mx.length) = some t.1 :=
        keyAt_append_cons (L ++ Mx) T0 t _ (by simp)
      have hne : L.length + Mx.length ≠ (L ++ Mx ++ t :: T0).length := by simp
      cases Mx with
      | nil =>
        refine ⟨false, ?_, by simp⟩
        simp only [List.append_nil, List.length_nil, Nat.add_zero] at hke hne ⊢
        simp [keyEndPrecedes, hke, hne]
      | cons q Mx0 =>
        have hkb : keyAt (L ++ q :: Mx0 ++ t :: T0) L.length = some q.1 := by
          rw [List.append_assoc]
          exact keyAt_append_cons L _ q _ rfl
        have hq : ¬ t.1 < q.1 :=
          not_lt.mpr (le_trans (hMx q (List.mem_cons_self _ _)) (hT t (List.mem_cons_self _ _)))
        refine ⟨false, ?_, by simp⟩
        simp only [keyEndPrecedes, hne, ne_eq, not_false_eq_true, if_true, hke, hkb]
        simp [hq]
  · subst hkb
    cases T0 with
    | nil => simp at hlt
    | cons t1 T1 =>
      have hke : keyAt (L ++ [] ++ t :: t1 :: T1) (L.length + ([] : List (K × V)).length)
          = some t.1 := keyAt_append_cons (L ++ []) _ t _ (by simp)
      have hkb : keyAt (L ++ [] ++ t :: t1 :: T1) (L.length + 1) = some t1.1 := by
        have h := keyAt_append_cons (L ++ [t]) T1 t1 (L.length + 1) (by simp)
        simpa using h
      have hne : L.length + ([] : List (K × V)).length ≠ (L ++ [] ++ t :: t1 :: T1).length := by
        simp
      refine ⟨true, ?_, by simp⟩
      simp only [keyEndPrecedes, hne, ne_eq, not_false_eq_true, if_true, hke, hkb]
      simp [hT0 t1 (List.mem_cons_self _ _)]

theorem assignErase_keep (d : V) (L Mx T : List (K × V)) (v : V) (hL : L ≠ [])
    (hc : Canonical d L) (hv : lastVal d L = v) :
    assignErase d (L ++ Mx ++ T) v (L.length - 1) (L.length + Mx.length) = some (L ++ T) := by
  have hlen : L.length ≠ 0 := by simpa using hL
  have h1 : L.length - 1 ≠ (L ++ Mx ++ T).length := by simp; omega
  have h2 : ¬ (d = v ∧ L.length - 1 = 0) := by
    rintro ⟨hdv, h0⟩
    exact canonical_head_ne d L hc (by omega) (by rw [hv, hdv])
  unfold assignErase
  simp only [h1, h2, ne_eq, not_false_eq_true, if_true, if_false]
  by_cases hMx : Mx = []
  · subst hMx
    have h3 : L.length - 1 + 1 = L.length + ([] : List (K × V)).length := by simp; omega
    simp [h3]
  · have h3 : L.length - 1 + 1 ≠ L.length + Mx.length := by
      have : Mx.length ≠ 0 := by simpa using hMx
      omega
    simp only [h3, ne_eq, not_false_eq_true, if_true]
    exact erase_mid L Mx T _ _ (by omega) rfl

theorem assign_begin_erase (d : V) (X Bq Mx T : List (K × V)) (b e : K) (v : V)
    (within beginEq : Bool) (kb1 : Nat)
    (hX : ∀ p ∈ X, p.1 < b) (hBq : Bq = [] ∨ ∃ x, Bq = [(b, x)])
    (hMx : ∀ p ∈ Mx, b < p.1 ∧ p.1 ≤ e) (hT : ∀ p ∈ T, b < p.1 ∧ e ≤ p.1)
    (hc : Canonical d (X ++ Bq))
    (h_eq : beginEq = true →
      within = true ∧ X ++ Bq ≠ [] ∧ lastVal d (X ++ Bq) = v ∧ kb1 = (X ++ Bq).length)
    (h_nw_d : within = false → d = v →
      kb1 = (X ++ Bq).length ∧ (X ++ Bq = [] ∨ (Mx ++ T = [] ∧ lastVal d (X ++ Bq) = d)))
    (h_hint : kb1 = (X ++ Bq).length ∨
      (kb1 = (X ++ Bq).length + 1 ∧ Mx = [] ∧ ∃ t T0, T = t :: T0 ∧ ∀ p ∈ T0, t.1 < p.1))
    (h_w_lt : within = true → kb1 < (X ++ Bq ++ Mx ++ T).length) :
    ∃ m2 kb2 ke2,
      assignInsertKeyBegin d (X ++ Bq ++ Mx ++ T) b v within beginEq kb1
          ((X ++ Bq).length + Mx.length) = some (m2, kb2, ke2) ∧
      assignErase d m2 v kb2 ke2 = some (X ++ beginPart (lastVal d X) b v ++ T) := by
  have hcX : Canonical d X := ((canonical_append d X Bq).mp hc).1
  have hU : ∀ p ∈ Mx ++ T, b < p.1 := by
    intro p hp
    rcases List.mem_append.mp hp with h | h
    · exact (hMx p h).1
    · exact (hT p h).1
  -- the call of `InsertKeyBegin` with a hint that is the position after `X ++ Bq`
  have hcall : ∀ hint, hint = (X ++ Bq).length →
      ∃ m2 kb2 ke2, InsertKeyBegin (X ++ Bq ++ Mx ++ T) b v hint ((X ++ Bq).length + Mx.length)
          = some (m2, kb2, ke2) ∧
        assignErase d m2 v kb2 ke2 = some (X ++ beginPart (lastVal d X) b v ++ T) := by
    intro hint hh
    obtain ⟨v0, out, h1, h2⟩ := InsertKeyBegin_shape d X Bq (Mx ++ T) b v hint
      ((X ++ Bq).length + Mx.length) Mx.length hX hBq hU hh rfl
    refine ⟨_, _, _, ?_, assignErase_after_insert d X Mx T b v v0 out hcX h2⟩
    rw [List.append_assoc (X ++ Bq) Mx T]
    exact h1
  have hprec : kb1 < (X ++ Bq ++ Mx ++ T).length →
      ∃ c, keyEndPrecedes (X ++ Bq ++ Mx ++ T) kb1 ((X ++ Bq).length + Mx.length) = some c ∧
        (if c = true then (X ++ Bq).length + Mx.length else kb1) = (X ++ Bq).length :=
    keyEndPrecedes_hint (X ++ Bq) Mx T e kb1 (fun p hp => (hMx p hp).2)
      (fun p hp => (hT p hp).2) h_hint
  unfold assignInsertKeyBegin
  cases within with
  | true =>
    cases beginEq with
    | true =>
      obtain ⟨-, hL, hv, hkb⟩ := h_eq rfl
      refine ⟨X ++ Bq ++ Mx ++ T, kb1 - 1, (X ++ Bq).length + Mx.length, by simp, ?_⟩
      rw [hkb, beginPart_keep d X Bq b v hBq hc hv]
      exact assignErase_keep d (X ++ Bq) Mx T v hL hc hv
    | false =>
      obtain ⟨c, hc1, hc2⟩ := hprec (h_w_lt rfl)
      simp only [if_true, hc1]
      exact hcall _ hc2
  | false =>
    by_cases hdv : d = v
    · obtain ⟨hkb, hcase⟩ := h_nw_d rfl hdv
      refine ⟨X ++ Bq ++ Mx ++ T, kb1, (X ++ Bq).length + Mx.length, by simp [hdv], ?_⟩
      rcases hcase with hL | ⟨hMT, hlast⟩
      · have hXn : X = [] := (List.append_eq_nil.mp hL).1
        have hBn : Bq = [] := (List.append_eq_nil.mp hL).2
        subst hXn hBn
        simp only [List.append_nil, List.length_nil] at hkb
        subst hkb
        simp only [List.nil_append, List.length_nil, Nat.zero_add, lastVal, beginPart, hdv,
          if_true]
        unfold assignErase
        by_cases hl : 0 = (Mx ++ T).length
        · obtain ⟨hMn, hTn⟩ := List.append_eq_nil.mp (List.length_eq_zero.mp hl.symm)
          subst hMn hTn
          simp
        · have her := erase_mid [] Mx T 0 Mx.length rfl (by simp)
          simp only [List.nil_append] at her
          simp only [ne_eq, hl, not_false_eq_true, if_true, and_self, her]
      · have hMn : Mx = [] := (List.append_eq_nil.mp hMT).1
        have hTn : T = [] := (List.append_eq_nil.mp hMT).2
        subst hMn hTn
        rw [hkb, beginPart_keep d X Bq b v hBq hc (hlast.trans hdv)]
        simp [assignErase]
    · simp only [Bool.false_eq_true, if_false, hdv]
      by_cases hend : kb1 = (X ++ Bq ++ Mx ++ T).length
      · simp only [hend, if_true]
        apply hcall
        rcases h_hint with h | ⟨h, hMn, -⟩
        · rw [h] at hend
          simp only [List.length_append] at hend ⊢
          omega
        · simp [hMn]
      · have hlt : kb1 < (X ++ Bq ++ Mx ++ T).length := by
          rcases h_hint with h | ⟨h, hMn, t, T0, hTt, -⟩
          · rw [h] at hend ⊢
            simp only [List.length_append] at hend ⊢
            omega
          · rw [h] at hend ⊢
            subst hMn hTt
            simp only [List.length_append, List.length_cons, List.length_nil] at hend ⊢
            omega
        obtain ⟨c, hc1, hc2⟩ := hprec hlt
        simp only [hend, if_false, hc1]
        exact hcall _ hc2


/-! ## The block "insert 'keyEnd'" -/

theorem insert_or_assign_shape (L Mid Eq Z : List (K × V)) (e : K) (g : V)
    (hL : ∀ p ∈ L, p.1 < e) (hMid : ∀ p ∈ Mid, p.1 < e)
    (hEq : Eq = [] ∨ ∃ y, Eq = [(e, y)]) (hZ : ∀ p ∈ Z, e < p.1) :
    insert_or_assign (L ++ Mid ++ Eq ++ Z) e g
      = (L ++ Mid ++ (e, g) :: Z, L.length + Mid.length, decide (Eq = [])) := by
  have hLM : ∀ p ∈ L ++ Mid, p.1 < e := by
    intro p hp
    rcases List.mem_append.mp hp with h | h
    · exact hL p h
    · exact hMid p h
  rw [List.append_assoc (L ++ Mid) Eq Z, insert_or_assign_append (L ++ Mid) _ e g hLM]
  rcases hEq with rfl | ⟨y, rfl⟩
  · rw [List.nil_append, insert_or_assign_of_lt Z e g hZ]
    simp
  · rw [List.singleton_append, insert_or_assign_cons_self]
    simp

theorem assignInsertKeyEnd_shape (d : V) (L Mid Eq Z : List (K × V)) (e : K) (v : V)
    (hL : ∀ p ∈ L, p.1 < e) (hMid : ∀ p ∈ Mid, p.1 < e)
    (hEq : Eq = [] ∨ ∃ y, Eq = [(e, y)]) (hZ : ∀ p ∈ Z, e < p.1)
    (htail : Z = [] → lastVal d (L ++ Mid ++ Eq) = d) :
    assignInsertKeyEnd d (L ++ Mid ++ Eq ++ Z) e v L.length (L.length + (Mid ++ Eq).length)
      = some (L ++ (if lastVal d (L ++ Mid ++ Eq) = v then Mid ++ Eq else Mid)
            ++ (endPart (lastVal d (L ++ Mid ++ Eq)) e v ++ Z),
          if Mid ++ Eq = [] ∧ lastVal d (L ++ Mid ++ Eq) ≠ v then L.length + 1 else L.length,
          L.length + (if lastVal d (L ++ Mid ++ Eq) = v then Mid ++ Eq else Mid).length) := by
  have hke : L.length + (Mid ++ Eq).length = (L ++ Mid ++ Eq).length := by simp
  have hins := insert_or_assign_shape L Mid Eq Z e (lastVal d (L ++ Mid ++ Eq)) hL hMid hEq hZ
  -- the value the code takes as governing `keyEnd`
  have hgov : assignInsertKeyEnd d (L ++ Mid ++ Eq ++ Z) e v L.length
        (L.length + (Mid ++ Eq).length)
      = if lastVal d (L ++ Mid ++ Eq) = v then
          some (L ++ Mid ++ Eq ++ Z, L.length, L.length + (Mid ++ Eq).length)
        else
          some (L ++ Mid ++ (e, lastVal d (L ++ Mid ++ Eq)) :: Z,
            relocate (decide (Eq = [])) (L.length + Mid.length) L.length,
            L.length + Mid.length) := by
    unfold assignInsertKeyEnd
    by_cases hw : L.length + (Mid ++ Eq).length ≠ 0 ∧
        L.length + (Mid ++ Eq).length ≠ (L ++ Mid ++ Eq ++ Z).length
    · have hne : L ++ Mid ++ Eq ≠ [] := by
        intro h
        rw [hke, h] at hw
        exact hw.1 rfl
      have hval : valueAt (L ++ Mid ++ Eq ++ Z) (L.length + (Mid ++ Eq).length - 1)
          = some (lastVal d (L ++ Mid ++ Eq)) :=
        valueAt_last d (L ++ Mid ++ Eq) Z hne _ (by omega)
      simp only [hw, and_self, ne_eq, not_false_eq_true, if_true, hval, hins]
    · have hgd : lastVal d (L ++ Mid ++ Eq) = d := by
        by_cases h0 : L.length + (Mid ++ Eq).length = 0
        · rw [hke] at h0
          rw [List.length_eq_zero.mp h0]
          rfl
        · apply htail
          have h1 : L.length + (Mid ++ Eq).length = (L ++ Mid ++ Eq ++ Z).length := by
            by_contra h1
            exact hw ⟨h0, h1⟩
          have h2 : Z.length = 0 := by
            simp only [List.length_append] at h1
            omega
          exact List.length_eq_zero.mp h2
      rw [hgd] at hins ⊢
      simp only [hw, if_false, hins]
  rw [hgov]
  generalize lastVal d (L ++ Mid ++ Eq) = g
  by_cases hg : g = v
  · simp only [hg, if_true, endPart, List.nil_append, ne_eq, not_true_eq_false, and_false,
      if_false]
    simp
  · have hrel : relocate (decide (Eq = [])) (L.length + Mid.length) L.length
        = if Mid ++ Eq = [] ∧ g ≠ v then L.length + 1 else L.length := by
      by_cases hME : Mid ++ Eq = []
      · obtain ⟨h1, h2⟩ := List.append_eq_nil.mp hME
        subst h1 h2
        simp [relocate, hg]
      · have h3 : ¬ (decide (Eq = []) = true ∧ L.length + Mid.length ≤ L.length) := by
          rintro ⟨h1, h2⟩
          have h4 : Mid.length = 0 := by omega
          apply hME
          rw [of_decide_eq_true h1, List.length_eq_zero.mp h4]
          rfl
        simp only [hME, false_and, if_false, relocate, h3]
    simp only [hg, if_false, endPart, hrel]
    simp


/-! ## `assign` on a split node list -/

theorem beginRangeValueEqualKeyVal_shape (d : V) (L R : List (K × V)) (v : V) :
    beginRangeValueEqualKeyVal (L ++ R) v L.length
      = some (decide (L ≠ [] ∧ R ≠ [] ∧ lastVal d L = v)) := by
  unfold beginRangeValueEqualKeyVal
  by_cases hL : L = []
  · subst hL
    simp
  · by_cases hR : R = []
    · subst hR
      simp
    · have hlen : L.length ≠ 0 := by simpa using hL
      have hlen2 : L.length ≠ (L ++ R).length := by
        have : R.length ≠ 0 := by simpa using hR
        simp only [List.length_append]
        omega
      have hval := valueAt_last d L R hL (L.length - 1) (by omega)
      simp only [hlen, hlen2, ne_eq, not_false_eq_true, and_self, if_true, hval, Option.map_some',
        hL, hR, true_and]

/-- The result of `assign` on a well-formed map, in terms of the nodes `X`
before `keyBegin`, the node `Bq` at `keyBegin` (if any), the nodes `Mid` strictly
inside the range, the node `Eq` at `keyEnd` (if any) and the nodes `Z` after
`keyEnd`. -/
theorem assign_shape (d : V) (X Bq Mid Eq Z : List (K × V)) (b e : K) (v : V) (hbe : b < e)
    (hX : ∀ p ∈ X, p.1 < b) (hBq : Bq = [] ∨ ∃ x, Bq = [(b, x)])
    (hMid : ∀ p ∈ Mid, b < p.1 ∧ p.1 < e) (hEq : Eq = [] ∨ ∃ y, Eq = [(e, y)])
    (hZ : ∀ p ∈ Z, e < p.1)
    (hc : Canonical d (X ++ Bq ++ Mid ++ Eq ++ Z))
    (htail : lastVal d (X ++ Bq ++ Mid ++ Eq ++ Z) = d) :
    assign ⟨d, X ++ Bq ++ Mid ++ Eq ++ Z⟩ b e v
      = some ⟨d, X ++ beginPart (lastVal d X) b v
          ++ endPart (lastVal d (X ++ Bq ++ Mid ++ Eq)) e v ++ Z⟩ := by
  -- key bounds of the parts
  have hBqk : ∀ p ∈ Bq, p.1 = b := by
    intro p hp
    rcases hBq with rfl | ⟨x, rfl⟩
    · simp at hp
    · simp at hp
      rw [hp]
  have hEqk : ∀ p ∈ Eq, p.1 = e := by
    intro p hp
    rcases hEq with rfl | ⟨y, rfl⟩
    · simp at hp
    · simp at hp
      rw [hp]
  have hLle : ∀ p ∈ X ++ Bq, p.1 ≤ b := by
    intro p hp
    rcases List.mem_append.mp hp with h | h
    · exact (hX p h).le
    · exact (hBqk p h).le
  have hLlt : ∀ p ∈ X ++ Bq, p.1 < e := fun p hp => lt_of_le_of_lt (hLle p hp) hbe
  have hMEk : ∀ p ∈ Mid ++ Eq, b < p.1 ∧ p.1 ≤ e := by
    intro p hp
    rcases List.mem_append.mp hp with h | h
    · exact ⟨(hMid p h).1, (hMid p h).2.le⟩
    · rw [hEqk p h]
      exact ⟨hbe, le_refl _⟩
  have hRgt : ∀ p ∈ Mid ++ Eq ++ Z, b < p.1 := by
    intro p hp
    rcases List.mem_append.mp hp with h | h
    · exact (hMEk p h).1
    · exact lt_trans hbe (hZ p h)
  have hm : X ++ Bq ++ Mid ++ Eq ++ Z = (X ++ Bq) ++ (Mid ++ Eq ++ Z) := by simp
  have hm2 : X ++ Bq ++ Mid ++ Eq = (X ++ Bq) ++ (Mid ++ Eq) := by simp
  have hlenm : (X ++ Bq ++ Mid ++ Eq ++ Z).length
      = (X ++ Bq).length + (Mid ++ Eq ++ Z).length := by
    rw [hm, List.length_append]
  -- the two positions
  have hkb : upper_bound (X ++ Bq ++ Mid ++ Eq ++ Z) b = (X ++ Bq).length := by
    rw [hm, upper_bound_append_of_le _ _ b hLle, upper_bound_of_lt _ b hRgt]
    rfl
  have hdrop : List.drop (X ++ Bq).length (X ++ Bq ++ Mid ++ Eq ++ Z) = Mid ++ Eq ++ Z := by
    rw [hm, List.drop_left]
  have hke : scanKeyEnd e (Mid ++ Eq ++ Z) (X ++ Bq).length
      = (X ++ Bq).length + (Mid ++ Eq).length :=
    scanKeyEnd_append e (Mid ++ Eq) Z _ (fun p hp => (hMEk p hp).2) hZ
  have hbeq := beginRangeValueEqualKeyVal_shape d (X ++ Bq) (Mid ++ Eq ++ Z) v
  rw [← hm] at hbeq
  have htail1 : Z = [] → lastVal d (X ++ Bq ++ Mid ++ Eq) = d := by
    intro hZn
    rw [hZn, List.append_nil] at htail
    exact htail
  have hend := assignInsertKeyEnd_shape d (X ++ Bq) Mid Eq Z e v hLlt
    (fun p hp => (hMid p hp).2) hEq hZ htail1
  have hcL : Canonical d (X ++ Bq) := by
    rw [hm] at hc
    exact ((canonical_append d _ _).mp hc).1
  generalize hg : lastVal d (X ++ Bq ++ Mid ++ Eq) = g at hend htail1 ⊢
  have hgME : Mid ++ Eq = [] → g = lastVal d (X ++ Bq) := by
    intro h
    rw [← hg, hm2, h, List.append_nil]
  -- the blocks "insert 'keyBegin'" and "Delete any previous ranges"
  have hMx : ∀ p ∈ (if g = v then Mid ++ Eq else Mid), b < p.1 ∧ p.1 ≤ e := by
    intro p hp
    split at hp
    · exact hMEk p hp
    · exact ⟨(hMid p hp).1, (hMid p hp).2.le⟩
  have hT : ∀ p ∈ endPart g e v ++ Z, b < p.1 ∧ e ≤ p.1 := by
    intro p hp
    rcases List.mem_append.mp hp with h | h
    · unfold endPart at h
      split at h
      · simp at h
      · simp at h
        rw [h]
        exact ⟨hbe, le_refl _⟩
    · exact ⟨lt_trans hbe (hZ p h), (hZ p h).le⟩
  have hbe2 := assign_begin_erase d X Bq (if g = v then Mid ++ Eq else Mid) (endPart g e v ++ Z)
    b e v
    (decide ((X ++ Bq).length ≠ 0 ∧ (X ++ Bq).length ≠ (X ++ Bq ++ Mid ++ Eq ++ Z).length))
    (decide (X ++ Bq ≠ [] ∧ Mid ++ Eq ++ Z ≠ [] ∧ lastVal d (X ++ Bq) = v))
    (if Mid ++ Eq = [] ∧ g ≠ v then (X ++ Bq).length + 1 else (X ++ Bq).length)
    hX hBq hMx hT hcL ?_ ?_ ?_ ?_
  · obtain ⟨m2, kb2, ke2, h1, h2⟩ := hbe2
    unfold assign
    simp only [hbe, not_true_eq_false, if_false, hkb, hdrop, hke, hbeq, hend, h1, h2]
    simp
  · -- beginRangeValueEqualKeyVal
    intro h
    have h1 := of_decide_eq_true h
    refine ⟨?_, h1.1, h1.2.2, ?_⟩
    · apply decide_eq_true
      refine ⟨by simpa using h1.1, ?_⟩
      have : (Mid ++ Eq ++ Z).length ≠ 0 := by simpa using h1.2.1
      rw [hlenm]
      omega
    · have : ¬ (Mid ++ Eq = [] ∧ g ≠ v) := by
        rintro ⟨h2, h3⟩
        exact h3 ((hgME h2).trans h1.2.2)
      simp only [this, if_false]
  · -- keyBegin outside of the previous ranges, default value assigned
    intro h hdv
    have h1 := of_decide_eq_false h
    by_cases hL : X ++ Bq = []
    · refine ⟨?_, Or.inl hL⟩
      have : ¬ (Mid ++ Eq = [] ∧ g ≠ v) := by
        rintro ⟨h2, h3⟩
        apply h3
        rw [hgME h2, hL]
        exact hdv
      simp only [this, if_false]
    · have hlen : (X ++ Bq).length ≠ 0 := by simpa using hL
      have hlen2 : (X ++ Bq).length = (X ++ Bq ++ Mid ++ Eq ++ Z).length := by
        by_contra h2
        exact h1 ⟨hlen, h2⟩
      have hR : Mid ++ Eq ++ Z = [] := by
        rw [hlenm] at hlen2
        exact List.length_eq_zero.mp (by omega)
      obtain ⟨hME, hZn⟩ := List.append_eq_nil.mp hR
      have hgd : g = d := htail1 hZn
      have hgv : g = v := hgd.trans hdv
      refine ⟨?_, Or.inr ⟨?_, ?_⟩⟩
      · simp [hgv]
      · simp [hgv, hME, hZn, endPart]
      · rw [← hgME hME, hgd]
  · -- the hint
    by_cases hcase : Mid ++ Eq = [] ∧ g ≠ v
    · right
      obtain ⟨h1, h2⟩ := hcase
      have hMidn : Mid = [] := (List.append_eq_nil.mp h1).1
      refine ⟨by simp [h1, h2], by simp [h2, hMidn], (e, g), Z, by simp [endPart, h2], hZ⟩
    · left
      simp only [hcase, if_false]
  · -- keyBegin within a previous range: its position has a node
    intro h
    have h1 := of_decide_eq_true h
    have hR : (Mid ++ Eq ++ Z).length ≠ 0 := by
      have h2 := h1.2
      rw [hlenm] at h2
      omega
    clear hke hkb hlenm h1 h
    by_cases hcase : Mid ++ Eq = [] ∧ g ≠ v
    · obtain ⟨h2, h3⟩ := hcase
      have hMidn : Mid = [] := (List.append_eq_nil.mp h2).1
      rw [h2, List.nil_append] at hR
      rw [if_pos ⟨h2, h3⟩, if_neg h3, hMidn]
      simp only [endPart, if_neg h3, List.length_append, List.length_nil, List.length_cons]
      omega
    · rw [if_neg hcase]
      by_cases hgv : g = v
      · rw [if_pos hgv]
        simp only [hgv, if_true, endPart, List.nil_append, List.length_append] at hR ⊢
        omega
      · rw [if_neg hgv]
        simp only [hgv, if_false, endPart, List.length_append, List.length_cons]
        omega


/-! ## The map after `assign` -/

theorem valueFor_append_of_lt (d : V) (A B : List (K × V)) (k : K)
    (hB : ∀ p ∈ B, k < p.1) : valueFor d (A ++ B) k = valueFor d A k := by
  induction A generalizing d with
  | nil => simpa [valueFor] using valueFor_of_lt d B k hB
  | cons p A ih => simp [valueFor, ih]

theorem lastVal_beginPart (g : V) (b : K) (v : V) : lastVal g (beginPart g b v) = v := by
  unfold beginPart
  split
  · simpa [lastVal]
  · simp [lastVal]

theorem lastVal_endPart (g : V) (e : K) (v : V) : lastVal v (endPart g e v) = g := by
  unfold endPart
  split
  · rename_i h
    simp [lastVal, h]
  · simp [lastVal]

theorem canonical_beginPart (g : V) (b : K) (v : V) : Canonical g (beginPart g b v) := by
  unfold beginPart
  split
  · simp [Canonical]
  · rename_i h
    simp only [Canonical, and_true]
    exact fun h1 => h h1.symm

theorem canonical_endPart (g : V) (e : K) (v : V) : Canonical v (endPart g e v) := by
  unfold endPart
  split
  · simp [Canonical]
  · rename_i h
    simpa [Canonical] using h

theorem mem_beginPart (g : V) (b : K) (v : V) (p : K × V) (hp : p ∈ beginPart g b v) :
    p = (b, v) := by
  unfold beginPart at hp
  split at hp
  · simp at hp
  · simpa using hp

theorem mem_endPart (g : V) (e : K) (v : V) (p : K × V) (hp : p ∈ endPart g e v) :
    p = (e, g) := by
  unfold endPart at hp
  split at hp
  · simp at hp
  · simpa using hp

theorem lastVal_result (d : V) (X : List (K × V)) (b e : K) (v g : V) :
    lastVal d (X ++ beginPart (lastVal d X) b v ++ endPart g e v) = g := by
  rw [lastVal_append, lastVal_append, lastVal_beginPart, lastVal_endPart]

theorem keysIncreasing_result (X Z : List (K × V)) (b e : K) (v gB gE : V) (hbe : b < e)
    (hX : ∀ p ∈ X, p.1 < b) (hZ : ∀ p ∈ Z, e < p.1)
    (hXs : KeysIncreasing X) (hZs : KeysIncreasing Z) :
    KeysIncreasing (X ++ beginPart gB b v ++ endPart gE e v ++ Z) := by
  unfold KeysIncreasing at *
  have hB : List.Pairwise (fun p q : K × V => p.1 < q.1) (beginPart gB b v) := by
    unfold beginPart
    split <;> simp
  have hE : List.Pairwise (fun p q : K × V => p.1 < q.1) (endPart gE e v) := by
    unfold endPart
    split <;> simp
  refine List.pairwise_append.mpr ⟨List.pairwise_append.mpr ⟨List.pairwise_append.mpr
    ⟨hXs, hB, ?_⟩, hE, ?_⟩, hZs, ?_⟩
  · intro p hp q hq
    rw [mem_beginPart _ _ _ q hq]
    exact hX p hp
  · intro p hp q hq
    rw [mem_endPart _ _ _ q hq]
    rcases List.mem_append.mp hp with h | h
    · exact lt_trans (hX p h) hbe
    · rw [mem_beginPart _ _ _ p h]
      exact hbe
  · intro p hp q hq
    rcases List.mem_append.mp hp with h | h
    · rcases List.mem_append.mp h with h | h
      · exact lt_trans (lt_trans (hX p h) hbe) (hZ q hq)
      · rw [mem_beginPart _ _ _ p h]
        exact lt_trans hbe (hZ q hq)
    · rw [mem_endPart _ _ _ p h]
      exact hZ q hq

theorem canonical_result (d : V) (X Y Z : List (K × V)) (b e : K) (v : V)
    (hc : Canonical d (X ++ Y ++ Z)) :
    Canonical d (X ++ beginPart (lastVal d X) b v ++ endPart (lastVal d (X ++ Y)) e v ++ Z) := by
  have h1 := (canonical_append d (X ++ Y) Z).mp hc
  have h2 := (canonical_append d X Y).mp h1.1
  refine (canonical_append d _ Z).mpr ⟨(canonical_append d _ _).mpr
    ⟨(canonical_append d _ _).mpr ⟨h2.1, canonical_beginPart _ _ _⟩, ?_⟩, ?_⟩
  · rw [lastVal_append, lastVal_beginPart]
    exact canonical_endPart _ _ _
  · rw [lastVal_result]
    exact h1.2

theorem valueFor_result (d : V) (X Y Z : List (K × V)) (b e : K) (v : V) (hbe : b < e)
    (hX : ∀ p ∈ X, p.1 < b) (hY : ∀ p ∈ Y, b ≤ p.1 ∧ p.1 ≤ e) (hZ : ∀ p ∈ Z, e < p.1) (k : K) :
    valueFor d (X ++ beginPart (lastVal d X) b v ++ endPart (lastVal d (X ++ Y)) e v ++ Z) k
      = if b ≤ k ∧ k < e then v else valueFor d (X ++ Y ++ Z) k := by
  rcases lt_or_le k b with hkb | hkb
  · have h1 : ¬ (b ≤ k ∧ k < e) := fun h => absurd h.1 (not_le.mpr hkb)
    rw [if_neg h1, List.append_assoc X Y Z, valueFor_append_of_lt d X (Y ++ Z) k,
      List.append_assoc, List.append_assoc, valueFor_append_of_lt d X _ k]
    · intro p hp
      rcases List.mem_append.mp hp with h | h
      · rw [mem_beginPart _ _ _ p h]
        exact hkb
      · rcases List.mem_append.mp h with h | h
        · rw [mem_endPart _ _ _ p h]
          exact lt_trans hkb hbe
        · exact lt_trans (lt_trans hkb hbe) (hZ p h)
    · intro p hp
      rcases List.mem_append.mp hp with h | h
      · exact lt_of_lt_of_le hkb (hY p h).1
      · exact lt_trans (lt_trans hkb hbe) (hZ p h)
  · rcases lt_or_le k e with hke | hke
    · rw [if_pos ⟨hkb, hke⟩, List.append_assoc (X ++ beginPart (lastVal d X) b v),
        valueFor_append_of_le d (X ++ beginPart (lastVal d X) b v) _ k,
        lastVal_append, lastVal_beginPart, valueFor_of_lt]
      · intro p hp
        rcases List.mem_append.mp hp with h | h
        · rw [mem_endPart _ _ _ p h]
          exact hke
        · exact lt_trans hke (hZ p h)
      · intro p hp
        rcases List.mem_append.mp hp with h | h
        · exact le_trans (hX p h).le hkb
        · rw [mem_beginPart _ _ _ p h]
          exact hkb
    · have h1 : ¬ (b ≤ k ∧ k < e) := fun h => absurd h.2 (not_lt.mpr hke)
      rw [if_neg h1, valueFor_append_of_le d (X ++ Y) Z k,
        valueFor_append_of_le d _ Z k, lastVal_result]
      · intro p hp
        rcases List.mem_append.mp hp with h | h
        · rcases List.mem_append.mp h with h | h
          · exact le_trans (le_trans (hX p h).le hbe.le) hke
          · rw [mem_beginPart _ _ _ p h]
            exact le_trans hbe.le hke
        · rw [mem_endPart _ _ _ p h]
          exact hke
      · intro p hp
        rcases List.mem_append.mp hp with h | h
        · exact le_trans (le_trans (hX p h).le hbe.le) hke
        · exact le_trans (hY p h).2 hke

/-- Every increasing node list splits along the keys `b` and `e`. -/
theorem split_range (m : List (K × V)) (hm : KeysIncreasing m) (b e : K) :
    ∃ X Bq Mid Eq Z, m = X ++ Bq ++ Mid ++ Eq ++ Z ∧ (∀ p ∈ X, p.1 < b) ∧
      (Bq = [] ∨ ∃ x, Bq = [(b, x)]) ∧ (∀ p ∈ Mid, b < p.1 ∧ p.1 < e) ∧
      (Eq = [] ∨ ∃ y, Eq = [(e, y)]) ∧ (∀ p ∈ Z, e < p.1) ∧
      KeysIncreasing X ∧ KeysIncreasing Z := by
  obtain ⟨X, Bq, R, hmR, hX, hBq, hR⟩ := split_at_key m hm b
  have hRs : KeysIncreasing R := by
    rw [hmR] at hm
    exact (List.pairwise_append.mp hm).2.1
  have hXs : KeysIncreasing X := by
    rw [hmR] at hm
    exact (List.pairwise_append.mp (List.pairwise_append.mp hm).1).1
  obtain ⟨Mid, Eq, Z, hRZ, hMid, hEq, hZ⟩ := split_at_key R hRs e
  have hZs : KeysIncreasing Z := by
    rw [hRZ] at hRs
    exact (List.pairwise_append.mp hRs).2.1
  refine ⟨X, Bq, Mid, Eq, Z, ?_, hX, hBq, ?_, hEq, hZ, hXs, hZs⟩
  · rw [hmR, hRZ]
    simp
  · intro p hp
    refine ⟨hR p ?_, hMid p hp⟩
    rw [hRZ]
    simp [hp]

theorem mem_node_parts (Bq Mid Eq : List (K × V)) (b e : K) (hbe : b < e)
    (hBq : Bq = [] ∨ ∃ x, Bq = [(b, x)]) (hMid : ∀ p ∈ Mid, b < p.1 ∧ p.1 < e)
    (hEq : Eq = [] ∨ ∃ y, Eq = [(e, y)]) :
    ∀ p ∈ Bq ++ Mid ++ Eq, b ≤ p.1 ∧ p.1 ≤ e := by
  intro p hp
  rcases List.mem_append.mp hp with h | h
  · rcases List.mem_append.mp h with h | h
    · rcases hBq with rfl | ⟨x, rfl⟩
      · simp at h
      · simp at h
        rw [h]
        exact ⟨le_refl _, hbe.le⟩
    · exact ⟨(hMid p h).1.le, (hMid p h).2.le⟩
  · rcases hEq with rfl | ⟨y, rfl⟩
    · simp at h
    · simp at h
      rw [h]
      exact ⟨hbe.le, le_refl _⟩

/-- On a map that satisfies the invariant, `assign` returns a map that satisfies
it again and governs the keys as the range assignment asks. -/
theorem assign_inv (d : V) (m : List (K × V)) (b e : K) (v : V) (hinv : Inv d m) :
    ∃ m1, assign ⟨d, m⟩ b e v = some ⟨d, m1⟩ ∧ Inv d m1 ∧
      ∀ k, valueFor d m1 k = if b ≤ k ∧ k < e then v else valueFor d m k := by
  by_cases hbe : b < e
  · obtain ⟨hs, hc, ht⟩ := hinv
    obtain ⟨X, Bq, Mid, Eq, Z, rfl, hX, hBq, hMid, hEq, hZ, hXs, hZs⟩ := split_range m hs b e
    have hY := mem_node_parts Bq Mid Eq b e hbe hBq hMid hEq
    have hm : X ++ Bq ++ Mid ++ Eq ++ Z = X ++ (Bq ++ Mid ++ Eq) ++ Z := by simp
    have hm2 : X ++ Bq ++ Mid ++ Eq = X ++ (Bq ++ Mid ++ Eq) := by simp
    refine ⟨_, assign_shape d X Bq Mid Eq Z b e v hbe hX hBq hMid hEq hZ hc ht, ⟨?_, ?_, ?_⟩, ?_⟩
    · exact keysIncreasing_result X Z b e v _ _ hbe hX hZ hXs hZs
    · rw [hm2]
      rw [hm] at hc
      exact canonical_result d X _ Z b e v hc
    · rw [lastVal_append, lastVal_result, ← lastVal_append]
      exact ht
    · intro k
      rw [hm2]
      exact valueFor_result d X _ Z b e v hbe hX hY hZ k
  · refine ⟨m, by simp [assign, hbe], hinv, ?_⟩
    intro k
    have h1 : ¬ (b ≤ k ∧ k < e) := fun h => hbe (lt_of_le_of_lt h.1 h.2)
    rw [if_neg h1]


/-! ## Reachable states -/

theorem inv_construct (d : V) : Inv d ([] : List (K × V)) :=
  ⟨List.Pairwise.nil, trivial, rfl⟩

theorem assignAll_inv (calls : List (K × K × V)) (d : V) (m : List (K × V)) (hinv : Inv d m) :
    ∃ m1, assignAll ⟨d, m⟩ calls = some ⟨d, m1⟩ ∧ Inv d m1 ∧
      ∀ k, valueFor d m1 k = naiveAssignAll (valueFor d m) calls k := by
  induction calls generalizing m with
  | nil => exact ⟨m, rfl, hinv, fun _ => rfl⟩
  | cons c cs ih =>
    obtain ⟨m1, h1, hinv1, hv1⟩ := assign_inv d m c.1 c.2.1 c.2.2 hinv
    obtain ⟨m2, h2, hinv2, hv2⟩ := ih m1 hinv1
    refine ⟨m2, ?_, hinv2, ?_⟩
    · simp only [assignAll, h1, h2]
    · intro k
      rw [hv2 k]
      have hf : valueFor d m1 = naiveAssign (valueFor d m) c.1 c.2.1 c.2.2 := by
        funext k1
        exact hv1 k1
      simp only [naiveAssignAll, hf]

theorem assign_default (s s1 : RangeMap K V) (b e : K) (v : V)
    (h1 : assign s b e v = some s1) : s1.mDefaultVal = s.mDefaultVal := by
  unfold assign at h1
  split at h1
  · simp only [Option.some.injEq] at h1
    rw [← h1]
  · dsimp only at h1
    split at h1
    · simp at h1
    · split at h1
      · simp at h1
      · split at h1
        · simp at h1
        · split at h1
          · simp at h1
          · simp only [Option.some.injEq] at h1
            rw [← h1]

theorem assignAll_default (calls : List (K × K × V)) (s s1 : RangeMap K V)
    (h : assignAll s calls = some s1) : s1.mDefaultVal = s.mDefaultVal := by
  induction calls generalizing s with
  | nil =>
    simp only [assignAll, Option.some.injEq] at h
    rw [h]
  | cons c cs ih =>
    simp only [assignAll] at h
    cases h1 : assign s c.1 c.2.1 c.2.2 with
    | none => simp [h1] at h
    | some s2 =>
      simp only [h1] at h
      rw [ih s2 h, assign_default s s2 _ _ _ h1]

theorem reachable_inv (s : RangeMap K V) (hs : Reachable s) : Inv s.mDefaultVal s.mMap := by
  obtain ⟨calls, hcalls⟩ := hs
  obtain ⟨m1, h1, hinv1, -⟩ := assignAll_inv calls s.mDefaultVal [] (inv_construct _)
  have h2 : some s = some (⟨s.mDefaultVal, m1⟩ : RangeMap K V) := by
    rw [← hcalls, ← h1]
    rfl
  have h3 : s.mMap = m1 := by
    have := Option.some.inj h2
    rw [this]
  rw [h3]
  exact hinv1

theorem naiveAssignAll_of_not_covered (f : K → V) (calls : List (K × K × V)) (k : K)
    (h : ∀ c ∈ calls, ¬ (c.1 ≤ k ∧ k < c.2.1)) : naiveAssignAll f calls k = f k := by
  induction calls generalizing f with
  | nil => rfl
  | cons c cs ih =>
    simp only [naiveAssignAll]
    rw [ih _ (fun c1 hc1 => h c1 (List.mem_cons_of_mem _ hc1))]
    simp [naiveAssign, h c (List.mem_cons_self _ _)]

theorem naiveAssignAll_of_last_covering (f : K → V) (calls : List (K × K × V)) (k : K)
    (i : Nat) (c : K × K × V) (hi : calls[i]? = some c) (hc : c.1 ≤ k ∧ k < c.2.1)
    (hlast : ∀ j c1, i < j → calls[j]? = some c1 → ¬ (c1.1 ≤ k ∧ k < c1.2.1)) :
    naiveAssignAll f calls k = c.2.2 := by
  induction calls generalizing f i with
  | nil => simp at hi
  | cons c0 cs ih =>
    simp only [naiveAssignAll]
    cases i with
    | zero =>
      simp only [List.getElem?_cons_zero, Option.some.injEq] at hi
      subst hi
      rw [naiveAssignAll_of_not_covered]
      · simp [naiveAssign, hc]
      · intro c1 hc1
        obtain ⟨j, hj⟩ := List.getElem?_of_mem hc1
        exact hlast (j + 1) c1 (Nat.succ_pos j) (by simpa using hj)
    | succ i =>
      simp only [List.getElem?_cons_succ] at hi
      apply ih _ i hi
      intro j c1 hij hj
      exact hlast (j + 1) c1 (Nat.succ_lt_succ hij) (by simpa using hj)


/-! ## Lemmas for the claims -/

theorem keysIncreasing_head_le (m : List (K × V)) (hm : KeysIncreasing m) (hne : m ≠ []) :
    ∀ p ∈ m, (m.head hne).1 ≤ p.1 := by
  cases m with
  | nil => exact absurd rfl hne
  | cons q t =>
    intro p hp
    rcases List.mem_cons.mp hp with rfl | h
    · exact le_refl _
    · exact ((List.pairwise_cons.mp hm).1 p h).le

theorem keysIncreasing_le_getLast (m : List (K × V)) (hm : KeysIncreasing m) (hne : m ≠ []) :
    ∀ p ∈ m, p.1 ≤ (m.getLast hne).1 := by
  obtain ⟨t, l, rfl⟩ := exists_eq_append_last m hne
  intro p hp
  rw [List.getLast_append_singleton]
  rcases List.mem_append.mp hp with h | h
  · exact ((List.pairwise_append.mp hm).2.2 p h l (List.mem_singleton_self l)).le
  · rw [List.mem_singleton.mp h]

/-- The map after a second, identical `assign`. -/
theorem assign_shape_again (d : V) (X Y Z : List (K × V)) (b e : K) (v : V) (hbe : b < e)
    (hX : ∀ p ∈ X, p.1 < b) (hZ : ∀ p ∈ Z, e < p.1)
    (hc : Canonical d (X ++ Y ++ Z)) (htail : lastVal d (X ++ Y ++ Z) = d) :
    assign ⟨d, X ++ beginPart (lastVal d X) b v ++ endPart (lastVal d (X ++ Y)) e v ++ Z⟩ b e v
      = some ⟨d, X ++ beginPart (lastVal d X) b v ++ endPart (lastVal d (X ++ Y)) e v ++ Z⟩ := by
  have hB : beginPart (lastVal d X) b v = [] ∨ ∃ x, beginPart (lastVal d X) b v = [(b, x)] := by
    unfold beginPart
    split
    · exact Or.inl rfl
    · exact Or.inr ⟨v, rfl⟩
  have hE : endPart (lastVal d (X ++ Y)) e v = [] ∨
      ∃ y, endPart (lastVal d (X ++ Y)) e v = [(e, y)] := by
    unfold endPart
    split
    · exact Or.inl rfl
    · exact Or.inr ⟨_, rfl⟩
  have h := assign_shape d X (beginPart (lastVal d X) b v) [] (endPart (lastVal d (X ++ Y)) e v) Z
    b e v hbe hX hB (by simp) hE hZ
  simp only [List.append_nil] at h
  rw [lastVal_result] at h
  apply h
  · exact canonical_result d X Y Z b e v hc
  · rw [lastVal_append, lastVal_result, ← lastVal_append]
    exact htail

/-! ## Claims -/

/-- Claim C1. Range semantics, inside the range: in every state reachable from
`construct d` by `assign` calls, `assign keyBegin keyEnd v` with
`keyBegin < keyEnd` returns, and afterwards the lookup of every key `k` with
`keyBegin ≤ k < keyEnd` returns `v`. -/
theorem assign_inside_range (s : RangeMap K V) (hs : Reachable s) (keyBegin keyEnd : K) (v : V)
    (_hlt : keyBegin < keyEnd) :
    ∃ s1, assign s keyBegin keyEnd v = some s1 ∧
      ∀ k, keyBegin ≤ k → k < keyEnd → get s1 k = some v := by
  obtain ⟨m1, h1, -, hv⟩ := assign_inv s.mDefaultVal s.mMap keyBegin keyEnd v (reachable_inv s hs)
  refine ⟨⟨s.mDefaultVal, m1⟩, h1, ?_⟩
  intro k hk1 hk2
  rw [get_eq_valueFor, hv k, if_pos ⟨hk1, hk2⟩]

/-- Claim C1 at a concrete reachable state. -/
theorem assign_inside_range_witness :
    Reachable (⟨0, [(5, 2), (9, 0)]⟩ : RangeMap Nat Nat) ∧ (3 : Nat) < 7 ∧
      ∃ s1, assign (⟨0, [(5, 2), (9, 0)]⟩ : RangeMap Nat Nat) 3 7 4 = some s1 ∧
        ∀ k, 3 ≤ k → k < 7 → get s1 k = some 4 :=
  ⟨⟨[(5, 9, 2)], by rfl⟩, by decide,
    assign_inside_range (⟨0, [(5, 2), (9, 0)]⟩ : RangeMap Nat Nat) ⟨[(5, 9, 2)], by rfl⟩ 3 7 4
      (by decide)⟩

/-- Claim C2. Range semantics, outside the range: in every reachable state,
`assign keyBegin keyEnd v` with `keyBegin < keyEnd` returns, and the lookup of
every key `k` with `k < keyBegin` or `keyEnd ≤ k` (so also of `keyEnd` itself)
is what it was before the call. -/
theorem assign_outside_range (s : RangeMap K V) (hs : Reachable s) (keyBegin keyEnd : K) (v : V)
    (_hlt : keyBegin < keyEnd) :
    ∃ s1, assign s keyBegin keyEnd v = some s1 ∧
      ∀ k, k < keyBegin ∨ keyEnd ≤ k → get s1 k = get s k := by
  obtain ⟨m1, h1, -, hv⟩ := assign_inv s.mDefaultVal s.mMap keyBegin keyEnd v (reachable_inv s hs)
  refine ⟨⟨s.mDefaultVal, m1⟩, h1, ?_⟩
  intro k hk
  have hnot : ¬ (keyBegin ≤ k ∧ k < keyEnd) := by
    rintro ⟨h2, h3⟩
    rcases hk with h | h
    · exact absurd h2 (not_le.mpr h)
    · exact absurd h3 (not_lt.mpr h)
  have hs1 : get s k = some (valueFor s.mDefaultVal s.mMap k) :=
    get_eq_valueFor s.mDefaultVal s.mMap k
  rw [get_eq_valueFor, hv k, if_neg hnot, hs1]

/-- Claim C2 at a concrete reachable state. -/
theorem assign_outside_range_witness :
    Reachable (⟨0, [(5, 2), (9, 0)]⟩ : RangeMap Nat Nat) ∧ (3 : Nat) < 7 ∧
      ∃ s1, assign (⟨0, [(5, 2), (9, 0)]⟩ : RangeMap Nat Nat) 3 7 4 = some s1 ∧
        ∀ k, k < 3 ∨ 7 ≤ k → get s1 k = get (⟨0, [(5, 2), (9, 0)]⟩ : RangeMap Nat Nat) k :=
  ⟨⟨[(5, 9, 2)], by rfl⟩, by decide,
    assign_outside_range (⟨0, [(5, 2), (9, 0)]⟩ : RangeMap Nat Nat) ⟨[(5, 9, 2)], by rfl⟩ 3 7 4
      (by decide)⟩

/-- Claim C3. Canonical invariants: every finite sequence of `assign` calls applied to
`construct d` returns, and the resulting transition table satisfies I1 (entries
adjacent in key order hold different values) and I2 (the first entry, if any,
does not hold `d`). -/
theorem canonical_invariants (d : V) (calls : List (K × K × V)) :
    ∃ s, assignAll (construct d) calls = some s ∧ s.mDefaultVal = d ∧
      I1 (data s) ∧ I2 d (data s) := by
  obtain ⟨m1, h1, hinv, -⟩ := assignAll_inv calls d [] (inv_construct d)
  exact ⟨⟨d, m1⟩, h1, rfl, (canonical_iff d m1).mp hinv.2.1⟩

/-- Claim C4. Equivalence with the naive model: after any finite sequence of `assign`
calls applied to `construct d`, the lookup of a key `k` is the value of the
naive model (a total function updated pointwise on each half-open range): the
value of the call with the largest index whose range contains `k`, and `d` if
there is no such call. -/
theorem naive_model_equivalence (d : V) (calls : List (K × K × V)) (k : K) :
    ∃ s, assignAll (construct d) calls = some s ∧
      get s k = some (naiveAssignAll (fun _ => d) calls k) ∧
      (∀ (i : Nat) (c : K × K × V), calls[i]? = some c → (c.1 ≤ k ∧ k < c.2.1) →
        (∀ (j : Nat) (c1 : K × K × V), i < j → calls[j]? = some c1 → ¬ (c1.1 ≤ k ∧ k < c1.2.1)) →
        get s k = some c.2.2) ∧
      ((∀ c ∈ calls, ¬ (c.1 ≤ k ∧ k < c.2.1)) → get s k = some d) := by
  obtain ⟨m1, h1, -, hv⟩ := assignAll_inv calls d [] (inv_construct d)
  have hget : get ⟨d, m1⟩ k = some (naiveAssignAll (fun _ => d) calls k) := by
    rw [get_eq_valueFor, hv k]
    rfl
  refine ⟨⟨d, m1⟩, h1, hget, ?_, ?_⟩
  · intro i c hi hc hlast
    rw [hget, naiveAssignAll_of_last_covering _ calls k i c hi hc hlast]
  · intro hnone
    rw [hget, naiveAssignAll_of_not_covered _ calls k hnone]


/-! ## Lookup, and the shape of the map after `assign` -/

/-- The lookup of `k` in an increasing node list: either no key is at most `k`
and the starting value is returned, or the list splits at the last node `w`
whose key is at most `k` and the value of `w` is returned. -/
theorem valueFor_split (d : V) (m : List (K × V)) (k : K) (hm : KeysIncreasing m) :
    ((∀ p ∈ m, k < p.1) ∧ valueFor d m k = d) ∨
    ∃ W w B, m = W ++ [w] ++ B ∧ (∀ p ∈ W, p.1 < w.1) ∧ w.1 ≤ k ∧ (∀ p ∈ B, k < p.1) ∧
      valueFor d m k = w.2 := by
  obtain ⟨A, Q, B, hmB, hA, hQ, hB⟩ := split_at_key m hm k
  have hAQ : ∀ p ∈ A ++ Q, p.1 ≤ k := by
    intro p hp
    rcases List.mem_append.mp hp with h | h
    · exact (hA p h).le
    · rcases hQ with rfl | ⟨x, rfl⟩
      · simp at h
      · simp at h
        rw [h]
  have hval : valueFor d m k = lastVal d (A ++ Q) := by
    rw [hmB, valueFor_append_of_le d (A ++ Q) B k hAQ, valueFor_of_lt _ B k hB]
  by_cases hW : A ++ Q = []
  · left
    rw [hval, hW]
    refine ⟨?_, rfl⟩
    intro p hp
    rw [hmB, hW] at hp
    exact hB p (by simpa using hp)
  · right
    obtain ⟨W, w, hWw⟩ := exists_eq_append_last (A ++ Q) hW
    have hs : KeysIncreasing (W ++ [w]) := by
      rw [← hWw]
      rw [hmB] at hm
      exact (List.pairwise_append.mp hm).1
    refine ⟨W, w, B, by rw [hmB, hWw], ?_, ?_, hB, ?_⟩
    · intro p hp
      exact (List.pairwise_append.mp hs).2.2 p hp w (List.mem_singleton_self w)
    · apply hAQ
      rw [hWw]
      simp
    · rw [hval, hWw, lastVal_append_singleton]

/-- The map after `assign` on a map that satisfies the invariant, in terms of
the nodes `X` before `keyBegin`, the nodes `Y` from `keyBegin` to `keyEnd` and
the nodes `Z` after `keyEnd`. -/
theorem assign_inv_shape (d : V) (m : List (K × V)) (b e : K) (v : V) (hinv : Inv d m)
    (hbe : b < e) :
    ∃ X Y Z, m = X ++ Y ++ Z ∧ (∀ p ∈ X, p.1 < b) ∧ (∀ p ∈ Y, b ≤ p.1 ∧ p.1 ≤ e) ∧
      (∀ p ∈ Z, e < p.1) ∧ KeysIncreasing X ∧
      assign ⟨d, m⟩ b e v
        = some ⟨d, X ++ beginPart (lastVal d X) b v ++ endPart (lastVal d (X ++ Y)) e v ++ Z⟩ := by
  obtain ⟨hs, hc, ht⟩ := hinv
  obtain ⟨X, Bq, Mid, Eq, Z, rfl, hX, hBq, hMid, hEq, hZ, hXs, -⟩ := split_range m hs b e
  have hY := mem_node_parts Bq Mid Eq b e hbe hBq hMid hEq
  have hm2 : X ++ Bq ++ Mid ++ Eq = X ++ (Bq ++ Mid ++ Eq) := by simp
  refine ⟨X, Bq ++ Mid ++ Eq, Z, by simp, hX, hY, hZ, hXs, ?_⟩
  rw [← hm2]
  exact assign_shape d X Bq Mid Eq Z b e v hbe hX hBq hMid hEq hZ hc ht

/-- In an increasing node list `upper_bound` is `begin()` exactly when every key
is greater than the searched one. -/
theorem upper_bound_eq_zero_iff (m : List (K × V)) (k : K) (hm : KeysIncreasing m) :
    upper_bound m k = 0 ↔ ∀ p ∈ m, ¬ p.1 ≤ k := by
  cases m with
  | nil => simp [upper_bound]
  | cons q t =>
    by_cases hk : k < q.1
    · simp only [upper_bound, hk, if_true, true_iff]
      intro p hp
      rcases List.mem_cons.mp hp with rfl | h
      · exact not_le.mpr hk
      · exact not_le.mpr (lt_trans hk ((List.pairwise_cons.mp hm).1 p h))
    · simp only [upper_bound, hk, if_false, Nat.succ_ne_zero, false_iff]
      intro h
      exact h q (List.mem_cons_self _ _) (not_lt.mp hk)

/-! ## Claims, continued -/

/-- Claim C5, as stated, fails: the lookup also returns the default value when the
entry with the greatest key at most `k` holds it.  In the table `1 ↦ 5, 5 ↦ 0`
with default `0`, the lookup of `7` returns `0` although the keys `1` and `5`
are at most `7`. -/
theorem lookup_default_iff_counterexample :
    KeysIncreasing ([(1, 5), (5, 0)] : List (Nat × Nat)) ∧
      ¬ (get (⟨0, [(1, 5), (5, 0)]⟩ : RangeMap Nat Nat) 7 = some 0 ↔
          ∀ p ∈ ([(1, 5), (5, 0)] : List (Nat × Nat)), ¬ p.1 ≤ 7) := by
  refine ⟨by simp [KeysIncreasing], ?_⟩
  intro h
  have h1 := h.mp (by rfl) (1, 5) (by simp)
  exact h1 (by decide)

/-- Claim C5, amended. Lookup definition: in a table with strictly increasing keys,
`get k` takes its default-value branch (`upper_bound k` is `begin()`) exactly
when no stored key is at most `k`, and then returns the default value; otherwise
it returns the value of the stored entry with the greatest key at most `k` (and
there is such an entry as soon as some stored key is at most `k`). -/
theorem lookup_greatest_key_le (d : V) (m : List (K × V)) (k : K) (hm : KeysIncreasing m) :
    (upper_bound m k = 0 ↔ ∀ p ∈ m, ¬ p.1 ≤ k) ∧
    (∀ p ∈ m, p.1 ≤ k → (∀ q ∈ m, q.1 ≤ k → q.1 ≤ p.1) → get ⟨d, m⟩ k = some p.2) ∧
    ((∃ q ∈ m, q.1 ≤ k) →
      ∃ p ∈ m, p.1 ≤ k ∧ (∀ q ∈ m, q.1 ≤ k → q.1 ≤ p.1) ∧ get ⟨d, m⟩ k = some p.2) ∧
    ((∀ p ∈ m, ¬ p.1 ≤ k) → get ⟨d, m⟩ k = some d) := by
  refine ⟨upper_bound_eq_zero_iff m k hm, ?_⟩
  rw [get_eq_valueFor]
  rcases valueFor_split d m k hm with ⟨hall, hval⟩ | ⟨W, w, B, rfl, hW, hw, hB, hval⟩
  · refine ⟨?_, ?_, fun _ => by rw [hval]⟩
    · intro p hp hpk
      exact absurd (hall p hp) (not_lt.mpr hpk)
    · rintro ⟨q, hq, hqk⟩
      exact absurd (hall q hq) (not_lt.mpr hqk)
  · have hgreatest : ∀ q ∈ W ++ [w] ++ B, q.1 ≤ k → q.1 ≤ w.1 := by
      intro q hq hqk
      rcases List.mem_append.mp hq with h | h
      · rcases List.mem_append.mp h with h | h
        · exact (hW q h).le
        · rw [List.mem_singleton.mp h]
      · exact absurd (hB q h) (not_lt.mpr hqk)
    have hwm : w ∈ W ++ [w] ++ B := by simp
    refine ⟨?_, fun _ => ⟨w, hwm, hw, hgreatest, by rw [hval]⟩, ?_⟩
    · intro p hp hpk hmax
      have hwp : w.1 ≤ p.1 := hmax w hwm hw
      rcases List.mem_append.mp hp with h | h
      · rcases List.mem_append.mp h with h | h
        · exact absurd (hW p h) (not_lt.mpr hwp)
        · rw [hval, List.mem_singleton.mp h]
      · exact absurd (hB p h) (not_lt.mpr hpk)
    · intro hnone
      exact absurd hw (hnone w hwm)

/-- Claim C5, amended, at a concrete table. -/
theorem lookup_greatest_key_le_witness :
    KeysIncreasing ([(1, 5), (5, 0)] : List (Nat × Nat)) ∧
      ((upper_bound ([(1, 5), (5, 0)] : List (Nat × Nat)) 3 = 0 ↔
          ∀ p ∈ ([(1, 5), (5, 0)] : List (Nat × Nat)), ¬ p.1 ≤ 3) ∧
        (∀ p ∈ ([(1, 5), (5, 0)] : List (Nat × Nat)), p.1 ≤ 3 →
          (∀ q ∈ ([(1, 5), (5, 0)] : List (Nat × Nat)), q.1 ≤ 3 → q.1 ≤ p.1) →
          get (⟨0, [(1, 5), (5, 0)]⟩ : RangeMap Nat Nat) 3 = some p.2) ∧
        ((∃ q ∈ ([(1, 5), (5, 0)] : List (Nat × Nat)), q.1 ≤ 3) →
          ∃ p ∈ ([(1, 5), (5, 0)] : List (Nat × Nat)), p.1 ≤ 3 ∧
            (∀ q ∈ ([(1, 5), (5, 0)] : List (Nat × Nat)), q.1 ≤ 3 → q.1 ≤ p.1) ∧
            get (⟨0, [(1, 5), (5, 0)]⟩ : RangeMap Nat Nat) 3 = some p.2) ∧
        ((∀ p ∈ ([(1, 5), (5, 0)] : List (Nat × Nat)), ¬ p.1 ≤ 3) →
          get (⟨0, [(1, 5), (5, 0)]⟩ : RangeMap Nat Nat) 3 = some 0)) :=
  ⟨by simp [KeysIncreasing],
    lookup_greatest_key_le 0 [(1, 5), (5, 0)] 3 (by simp [KeysIncreasing])⟩

/-- Claim C6. No-op law: when `keyBegin < keyEnd` does not hold (an empty or inverted
range), `assign` returns normally and leaves the state, so the transition table
and every lookup, unchanged. -/
theorem assign_noop (s : RangeMap K V) (keyBegin keyEnd : K) (v : V)
    (h : ¬ keyBegin < keyEnd) :
    assign s keyBegin keyEnd v = some s ∧
      ∃ s1, assign s keyBegin keyEnd v = some s1 ∧ data s1 = data s ∧
        ∀ k, get s1 k = get s k := by
  have h1 : assign s keyBegin keyEnd v = some s := by simp [assign, h]
  exact ⟨h1, s, h1, rfl, fun _ => rfl⟩

/-- Claim C6 at a concrete state and an inverted range. -/
theorem assign_noop_witness :
    ¬ (7 : Nat) < 3 ∧
      (assign (⟨0, [(5, 2), (9, 0)]⟩ : RangeMap Nat Nat) 7 3 4 = some ⟨0, [(5, 2), (9, 0)]⟩ ∧
        ∃ s1, assign (⟨0, [(5, 2), (9, 0)]⟩ : RangeMap Nat Nat) 7 3 4 = some s1 ∧
          data s1 = data (⟨0, [(5, 2), (9, 0)]⟩ : RangeMap Nat Nat) ∧
          ∀ k, get s1 k = get (⟨0, [(5, 2), (9, 0)]⟩ : RangeMap Nat Nat) k) :=
  ⟨by decide, assign_noop (⟨0, [(5, 2), (9, 0)]⟩ : RangeMap Nat Nat) 7 3 4 (by decide)⟩

/-- Claim C7. Construction: `construct d` has an empty transition table and every
lookup returns `d`. -/
theorem construct_empty (d : V) :
    data (construct d : RangeMap K V) = [] ∧
      ∀ k : K, get (construct d : RangeMap K V) k = some d :=
  ⟨rfl, fun _ => rfl⟩

/-- Claim C8. Idempotence: in every reachable state, `assign keyBegin keyEnd v`
returns a state on which the same `assign` returns that same state again (the
same transition table, hence the same lookups). -/
theorem assign_idempotent (s : RangeMap K V) (hs : Reachable s) (keyBegin keyEnd : K) (v : V) :
    ∃ s1, assign s keyBegin keyEnd v = some s1 ∧ assign s1 keyBegin keyEnd v = some s1 := by
  have hinv := reachable_inv s hs
  by_cases hbe : keyBegin < keyEnd
  · obtain ⟨X, Y, Z, hm, hX, -, hZ, -, h1⟩ :=
      assign_inv_shape s.mDefaultVal s.mMap keyBegin keyEnd v hinv hbe
    refine ⟨_, h1, ?_⟩
    rw [hm] at hinv
    exact assign_shape_again s.mDefaultVal X Y Z keyBegin keyEnd v hbe hX hZ hinv.2.1 hinv.2.2
  · have h1 : assign s keyBegin keyEnd v = some s := by simp [assign, hbe]
    exact ⟨s, h1, h1⟩

/-- Claim C8 at a concrete reachable state. -/
theorem assign_idempotent_witness :
    Reachable (⟨0, [(5, 2), (9, 0)]⟩ : RangeMap Nat Nat) ∧
      ∃ s1, assign (⟨0, [(5, 2), (9, 0)]⟩ : RangeMap Nat Nat) 3 7 4 = some s1 ∧
        assign s1 3 7 4 = some s1 :=
  ⟨⟨[(5, 9, 2)], by rfl⟩,
    assign_idempotent (⟨0, [(5, 2), (9, 0)]⟩ : RangeMap Nat Nat) ⟨[(5, 9, 2)], by rfl⟩ 3 7 4⟩

/-- Claim C9. Merge law: in every reachable state and for `b < e`, if the value
governing the keys just before `b` (the value of the entry with the greatest
stored key strictly less than `b`, or the default value if there is none) is
`v`, then after `assign b e v` the transition table has no entry with key `b`. -/
theorem merge_law (s : RangeMap K V) (hs : Reachable s) (b e : K) (v : V) (hbe : b < e)
    (hentry : ∀ p ∈ data s, p.1 < b → (∀ q ∈ data s, q.1 < b → q.1 ≤ p.1) → p.2 = v)
    (hdefault : (∀ p ∈ data s, ¬ p.1 < b) → s.mDefaultVal = v) :
    ∃ s1, assign s b e v = some s1 ∧ ∀ p ∈ data s1, p.1 ≠ b := by
  have hinv := reachable_inv s hs
  obtain ⟨X, Y, Z, hm, hX, hY, hZ, hXs, h1⟩ :=
    assign_inv_shape s.mDefaultVal s.mMap b e v hinv hbe
  have hmem : ∀ q ∈ s.mMap, q.1 < b → q ∈ X := by
    intro q hq hqb
    rw [hm] at hq
    rcases List.mem_append.mp hq with h | h
    · rcases List.mem_append.mp h with h | h
      · exact h
      · exact absurd hqb (not_lt.mpr (hY q h).1)
    · exact absurd hqb (not_lt.mpr (lt_trans hbe (hZ q h)).le)
  have hgov : lastVal s.mDefaultVal X = v := by
    by_cases hX0 : X = []
    · rw [hX0]
      apply hdefault
      intro p hp hpb
      have := hmem p hp hpb
      rw [hX0] at this
      simp at this
    · obtain ⟨X0, x, rfl⟩ := exists_eq_append_last X hX0
      rw [lastVal_append_singleton]
      have hxm : x ∈ s.mMap := by
        rw [hm]
        simp
      apply hentry x hxm (hX x (by simp))
      intro q hq hqb
      rcases List.mem_append.mp (hmem q hq hqb) with h | h
      · exact ((List.pairwise_append.mp hXs).2.2 q h x (List.mem_singleton_self x)).le
      · rw [List.mem_singleton.mp h]
  refine ⟨_, h1, ?_⟩
  intro p hp
  simp only [data, beginPart, hgov, if_true, List.append_nil] at hp
  rcases List.mem_append.mp hp with h | h
  · rcases List.mem_append.mp h with h | h
    · exact (hX p h).ne
    · rw [mem_endPart _ _ _ p h]
      exact hbe.ne'
  · exact (lt_trans hbe (hZ p h)).ne'

/-- Claim C9 at a concrete reachable state. -/
theorem merge_law_witness :
    Reachable (⟨0, [(5, 2), (9, 0)]⟩ : RangeMap Nat Nat) ∧ (7 : Nat) < 12 ∧
      (∀ p ∈ data (⟨0, [(5, 2), (9, 0)]⟩ : RangeMap Nat Nat), p.1 < 7 →
        (∀ q ∈ data (⟨0, [(5, 2), (9, 0)]⟩ : RangeMap Nat Nat), q.1 < 7 → q.1 ≤ p.1) → p.2 = 2) ∧
      ((∀ p ∈ data (⟨0, [(5, 2), (9, 0)]⟩ : RangeMap Nat Nat), ¬ p.1 < 7) → 0 = 2) ∧
      ∃ s1, assign (⟨0, [(5, 2), (9, 0)]⟩ : RangeMap Nat Nat) 7 12 2 = some s1 ∧
        ∀ p ∈ data s1, p.1 ≠ 7 :=
  have h1 : ∀ p ∈ data (⟨0, [(5, 2), (9, 0)]⟩ : RangeMap Nat Nat), p.1 < 7 →
      (∀ q ∈ data (⟨0, [(5, 2), (9, 0)]⟩ : RangeMap Nat Nat), q.1 < 7 → q.1 ≤ p.1) → p.2 = 2 := by
    simp [data]
  have h2 : (∀ p ∈ data (⟨0, [(5, 2), (9, 0)]⟩ : RangeMap Nat Nat), ¬ p.1 < 7) → 0 = 2 := by
    simp [data]
  ⟨⟨[(5, 9, 2)], by rfl⟩, by decide, h1, h2,
    merge_law (⟨0, [(5, 2), (9, 0)]⟩ : RangeMap Nat Nat) ⟨[(5, 9, 2)], by rfl⟩ 7 12 2
      (by decide) h1 h2⟩

/-- Claim C10. Default-collapse law: in every reachable state with a non-empty table,
for `b < e` with `b` at most the first stored key and the last stored key at
most `e`, assigning the default value over `[b, e)` leaves the transition table
empty. -/
theorem default_collapse (s : RangeMap K V) (hs : Reachable s) (b e : K) (hbe : b < e)
    (hne : data s ≠ []) (hfirst : b ≤ ((data s).head hne).1)
    (hlast : ((data s).getLast hne).1 ≤ e) :
    ∃ s1, assign s b e s.mDefaultVal = some s1 ∧ data s1 = [] := by
  have hinv := reachable_inv s hs
  obtain ⟨X, Y, Z, hm, hX, -, hZ, -, h1⟩ :=
    assign_inv_shape s.mDefaultVal s.mMap b e s.mDefaultVal hinv hbe
  have hX0 : X = [] := by
    apply List.eq_nil_iff_forall_not_mem.mpr
    intro p hp
    have hpm : p ∈ s.mMap := by
      rw [hm]
      simp [hp]
    have := keysIncreasing_head_le s.mMap hinv.1 hne p hpm
    exact absurd (hX p hp) (not_lt.mpr (le_trans hfirst this))
  have hZ0 : Z = [] := by
    apply List.eq_nil_iff_forall_not_mem.mpr
    intro p hp
    have hpm : p ∈ s.mMap := by
      rw [hm]
      simp [hp]
    have := keysIncreasing_le_getLast s.mMap hinv.1 hne p hpm
    exact absurd (hZ p hp) (not_lt.mpr (le_trans this hlast))
  have htail : lastVal s.mDefaultVal (X ++ Y) = s.mDefaultVal := by
    have := hinv.2.2
    rw [hm, hZ0, List.append_nil] at this
    exact this
  refine ⟨_, h1, ?_⟩
  subst hX0 hZ0
  simp only [List.nil_append] at htail
  simp [data, htail, beginPart, endPart, lastVal]

/-- Claim C10 at a concrete reachable state. -/
theorem default_collapse_witness :
    Reachable (⟨0, [(5, 2), (9, 0)]⟩ : RangeMap Nat Nat) ∧ (5 : Nat) < 9 ∧
      ∃ hne : data (⟨0, [(5, 2), (9, 0)]⟩ : RangeMap Nat Nat) ≠ [],
        5 ≤ ((data (⟨0, [(5, 2), (9, 0)]⟩ : RangeMap Nat Nat)).head hne).1 ∧
        ((data (⟨0, [(5, 2), (9, 0)]⟩ : RangeMap Nat Nat)).getLast hne).1 ≤ 9 ∧
        ∃ s1, assign (⟨0, [(5, 2), (9, 0)]⟩ : RangeMap Nat Nat) 5 9 0 = some s1 ∧ data s1 = [] :=
  ⟨⟨[(5, 9, 2)], by rfl⟩, by decide, by simp [data], by simp [data], by simp [data],
    default_collapse (⟨0, [(5, 2), (9, 0)]⟩ : RangeMap Nat Nat) ⟨[(5, 9, 2)], by rfl⟩ 5 9
      (by decide) (by simp [data]) (by simp [data]) (by simp [data])⟩

/-! ## Uniqueness of the canonical table, and more on the map after `assign` -/

theorem valueFor_cons_self (d : V) (p : K × V) (t : List (K × V))
    (hm : KeysIncreasing (p :: t)) : valueFor d (p :: t) p.1 = p.2 := by
  simp only [valueFor, lt_irrefl, if_false]
  exact valueFor_of_lt p.2 t p.1 (List.pairwise_cons.mp hm).1

/-- Two increasing node lists in which every node changes the value in force
are equal as soon as they govern every key alike. -/
theorem canonical_unique (d : V) (m1 m2 : List (K × V))
    (h1 : KeysIncreasing m1) (h2 : KeysIncreasing m2)
    (c1 : Canonical d m1) (c2 : Canonical d m2)
    (hv : ∀ k, valueFor d m1 k = valueFor d m2 k) : m1 = m2 := by
  induction m1 generalizing d m2 with
  | nil =>
    cases m2 with
    | nil => rfl
    | cons q t2 =>
      exfalso
      have h := hv q.1
      rw [valueFor_cons_self d q t2 h2] at h
      exact c2.1 h.symm
  | cons p t1 ih =>
    cases m2 with
    | nil =>
      exfalso
      have h := hv p.1
      rw [valueFor_cons_self d p t1 h1] at h
      exact c1.1 h
    | cons q t2 =>
      have hp : ∀ x ∈ t1, p.1 < x.1 := (List.pairwise_cons.mp h1).1
      have hq : ∀ x ∈ t2, q.1 < x.1 := (List.pairwise_cons.mp h2).1
      have hkey : p.1 = q.1 := by
        rcases lt_trichotomy p.1 q.1 with h | h | h
        · exfalso
          have h3 := hv p.1
          rw [valueFor_cons_self d p t1 h1] at h3
          simp only [valueFor, h, if_true] at h3
          exact c1.1 h3
        · exact h
        · exfalso
          have h3 := hv q.1
          rw [valueFor_cons_self d q t2 h2] at h3
          simp only [valueFor, h, if_true] at h3
          exact c2.1 h3.symm
      have hval : p.2 = q.2 := by
        have h3 := hv p.1
        rw [valueFor_cons_self d p t1 h1] at h3
        rw [hkey, valueFor_cons_self d q t2 h2] at h3
        exact h3
      have hpq : p = q := Prod.ext hkey hval
      subst hpq
      congr 1
      apply ih p.2 t2 (List.pairwise_cons.mp h1).2 (List.pairwise_cons.mp h2).2 c1.2 c2.2
      intro k
      rcases lt_or_le k p.1 with hk | hk
      · rw [valueFor_of_lt _ t1 k (fun x hx => lt_trans hk (hp x hx)),
          valueFor_of_lt _ t2 k (fun x hx => lt_trans hk (hq x hx))]
      · have h3 := hv k
        simp only [valueFor, not_lt.mpr hk, if_false] at h3
        exact h3

/-- The first `assign` on an empty map. -/
theorem assign_empty (d : V) (b e : K) (v : V) (hbe : b < e) (hv : v ≠ d) :
    assign ⟨d, []⟩ b e v = some ⟨d, [(b, v), (e, d)]⟩ := by
  have h := assign_shape d [] [] [] [] [] b e v hbe (by simp) (Or.inl rfl) (by simp)
    (Or.inl rfl) (by simp) trivial rfl
  have hdv : ¬ d = v := fun h1 => hv h1.symm
  simpa [beginPart, endPart, lastVal, hdv] using h

theorem mem_result (X Z : List (K × V)) (b e : K) (v gB gE : V) (p : K × V)
    (hp : p ∈ X ++ beginPart gB b v ++ endPart gE e v ++ Z) :
    p ∈ X ∨ (p = (b, v) ∧ gB ≠ v) ∨ (p = (e, gE) ∧ gE ≠ v) ∨ p ∈ Z := by
  rcases List.mem_append.mp hp with h | h
  · rcases List.mem_append.mp h with h | h
    · rcases List.mem_append.mp h with h | h
      · exact Or.inl h
      · right
        left
        unfold beginPart at h
        split at h
        · simp at h
        · rename_i hne
          exact ⟨by simpa using h, hne⟩
    · right
      right
      left
      unfold endPart at h
      split at h
      · simp at h
      · rename_i hne
        exact ⟨by simpa using h, hne⟩
  · exact Or.inr (Or.inr (Or.inr h))

/-- The value in force just before `b` in a split map: the default value when no
key is less than `b`, and otherwise the value of the node with the greatest key
less than `b`. -/
theorem lastVal_before (d : V) (X Y Z : List (K × V)) (b e : K) (hbe : b < e)
    (hX : ∀ p ∈ X, p.1 < b) (hY : ∀ p ∈ Y, b ≤ p.1 ∧ p.1 ≤ e) (hZ : ∀ p ∈ Z, e < p.1)
    (hXs : KeysIncreasing X) :
    ((∀ p ∈ X ++ Y ++ Z, ¬ p.1 < b) ∧ lastVal d X = d) ∨
    ∃ x ∈ X ++ Y ++ Z, x.1 < b ∧ (∀ q ∈ X ++ Y ++ Z, q.1 < b → q.1 ≤ x.1) ∧
      lastVal d X = x.2 := by
  have hmem : ∀ q ∈ X ++ Y ++ Z, q.1 < b → q ∈ X := by
    intro q hq hqb
    rcases List.mem_append.mp hq with h | h
    · rcases List.mem_append.mp h with h | h
      · exact h
      · exact absurd hqb (not_lt.mpr (hY q h).1)
    · exact absurd hqb (not_lt.mpr (lt_trans hbe (hZ q h)).le)
  by_cases hX0 : X = []
  · left
    subst hX0
    refine ⟨?_, rfl⟩
    intro p hp hpb
    have := hmem p hp hpb
    simp at this
  · right
    obtain ⟨X0, x, rfl⟩ := exists_eq_append_last X hX0
    refine ⟨x, by simp, hX x (by simp), ?_, lastVal_append_singleton d X0 x⟩
    intro q hq hqb
    rcases List.mem_append.mp (hmem q hq hqb) with h | h
    · exact ((List.pairwise_append.mp hXs).2.2 q h x (List.mem_singleton_self x)).le
    · rw [List.mem_singleton.mp h]

/-- The value that governs `e` in a split map. -/
theorem valueFor_end (d : V) (X Y Z : List (K × V)) (b e : K) (hbe : b < e)
    (hX : ∀ p ∈ X, p.1 < b) (hY : ∀ p ∈ Y, b ≤ p.1 ∧ p.1 ≤ e) (hZ : ∀ p ∈ Z, e < p.1) :
    valueFor d (X ++ Y ++ Z) e = lastVal d (X ++ Y) := by
  rw [valueFor_append_of_le d (X ++ Y) Z e, valueFor_of_lt _ Z e hZ]
  intro p hp
  rcases List.mem_append.mp hp with h | h
  · exact (lt_trans (hX p h) hbe).le
  · exact (hY p h).2

/-! ## Claims C11 to C20 -/

/-- Claim C11. Re-assigning a value that already governs the whole range changes
nothing: in every reachable state and for `b < e`, if the lookup of every key
`k` with `b ≤ k < e` returns `v` before the call, then `assign b e v` returns
the state unchanged, so with the same transition table (in particular, assigning
the default value on an empty map leaves it empty). -/
theorem assign_same_value (s : RangeMap K V) (hs : Reachable s) (b e : K) (v : V)
    (_hbe : b < e) (hgov : ∀ k, b ≤ k → k < e → get s k = some v) :
    assign s b e v = some s ∧ ∃ s1, assign s b e v = some s1 ∧ data s1 = data s := by
  have hinv := reachable_inv s hs
  obtain ⟨m1, h1, hinv1, hv1⟩ := assign_inv s.mDefaultVal s.mMap b e v hinv
  have heq : m1 = s.mMap := by
    apply canonical_unique s.mDefaultVal m1 s.mMap hinv1.1 hinv.1 hinv1.2.1 hinv.2.1
    intro k
    rw [hv1 k]
    split
    · rename_i hk
      have h2 := hgov k hk.1 hk.2
      have h3 : get s k = some (valueFor s.mDefaultVal s.mMap k) :=
        get_eq_valueFor s.mDefaultVal s.mMap k
      rw [h3] at h2
      exact (Option.some.inj h2).symm
    · rfl
  rw [heq] at h1
  exact ⟨h1, s, h1, rfl⟩

/-- Claim C11 on the empty map with the default value assigned, and with the
hypothesis discharged there. -/
theorem assign_same_value_witness :
    Reachable (construct 0 : RangeMap Nat Nat) ∧ (7 : Nat) < 13 ∧
      (∀ k, 7 ≤ k → k < 13 → get (construct 0 : RangeMap Nat Nat) k = some 0) ∧
      (assign (construct 0 : RangeMap Nat Nat) 7 13 0 = some (construct 0) ∧
        ∃ s1, assign (construct 0 : RangeMap Nat Nat) 7 13 0 = some s1 ∧
          data s1 = data (construct 0 : RangeMap Nat Nat)) :=
  ⟨⟨[], by rfl⟩, by decide, fun _ _ _ => rfl,
    assign_same_value (construct 0 : RangeMap Nat Nat) ⟨[], by rfl⟩ 7 13 0 (by decide)
      (fun _ _ _ => rfl)⟩

/-- Claim C12. Overwrite, last writer wins: in every reachable state `s` and for
`b < e`, `assign b e v` followed by `assign b e w` returns the state that
`assign b e w` alone returns on `s`; when the table of `s` is empty and `w` is
not the default value, that table is exactly `(b, w), (e, default)`. -/
theorem assign_overwrite (s : RangeMap K V) (hs : Reachable s) (b e : K) (v w : V)
    (hbe : b < e) :
    ∃ s1 s2, assign s b e v = some s1 ∧ assign s1 b e w = some s2 ∧
      assign s b e w = some s2 ∧
      (data s = [] → w ≠ s.mDefaultVal → data s2 = [(b, w), (e, s.mDefaultVal)]) := by
  have hinv := reachable_inv s hs
  obtain ⟨m1, h1, hinv1, hv1⟩ := assign_inv s.mDefaultVal s.mMap b e v hinv
  obtain ⟨m2, h2, hinv2, hv2⟩ := assign_inv s.mDefaultVal m1 b e w hinv1
  obtain ⟨m3, h3, hinv3, hv3⟩ := assign_inv s.mDefaultVal s.mMap b e w hinv
  have heq : m3 = m2 := by
    apply canonical_unique s.mDefaultVal m3 m2 hinv3.1 hinv2.1 hinv3.2.1 hinv2.2.1
    intro k
    rw [hv3 k, hv2 k, hv1 k]
    split
    · rfl
    · rfl
  rw [heq] at h3
  refine ⟨⟨s.mDefaultVal, m1⟩, ⟨s.mDefaultVal, m2⟩, h1, h2, h3, ?_⟩
  intro hempty hw
  have h4 : s.mMap = [] := hempty
  have h5 : assign ⟨s.mDefaultVal, s.mMap⟩ b e w
      = some ⟨s.mDefaultVal, [(b, w), (e, s.mDefaultVal)]⟩ := by
    rw [h4]
    exact assign_empty s.mDefaultVal b e w hbe hw
  rw [h3] at h5
  have h7 := Option.some.inj h5
  simp only [data]
  exact congrArg RangeMap.mMap h7

/-- Claim C12 on the empty map (scenario 2 of the specification, with numbers
for the characters). -/
theorem assign_overwrite_witness :
    Reachable (construct 0 : RangeMap Nat Nat) ∧ (3 : Nat) < 18 ∧
      ∃ s1 s2, assign (construct 0 : RangeMap Nat Nat) 3 18 2 = some s1 ∧
        assign s1 3 18 1 = some s2 ∧
        assign (construct 0 : RangeMap Nat Nat) 3 18 1 = some s2 ∧
        (data (construct 0 : RangeMap Nat Nat) = [] →
          1 ≠ (construct 0 : RangeMap Nat Nat).mDefaultVal →
          data s2 = [(3, 1), (18, (construct 0 : RangeMap Nat Nat).mDefaultVal)]) :=
  ⟨⟨[], by rfl⟩, by decide,
    assign_overwrite (construct 0 : RangeMap Nat Nat) ⟨[], by rfl⟩ 3 18 2 1 (by decide)⟩

/-- Claim C13. First assignment on an empty map: for `keyBegin < keyEnd` and a
value `v` different from the default value `d`, `assign keyBegin keyEnd v` on
`construct d` returns a table with exactly the two entries `(keyBegin, v)` and
`(keyEnd, d)`. -/
theorem first_assign (d : V) (keyBegin keyEnd : K) (v : V) (hlt : keyBegin < keyEnd)
    (hv : v ≠ d) :
    ∃ s1, assign (construct d) keyBegin keyEnd v = some s1 ∧
      data s1 = [(keyBegin, v), (keyEnd, d)] ∧ (data s1).length = 2 :=
  ⟨⟨d, [(keyBegin, v), (keyEnd, d)]⟩, assign_empty d keyBegin keyEnd v hlt hv, rfl, rfl⟩

/-- Claim C13 at the input of the template compilation test. -/
theorem first_assign_witness :
    (5 : Nat) < 15 ∧ (102 : Nat) ≠ 32 ∧
      ∃ s1, assign (construct 32 : RangeMap Nat Nat) 5 15 102 = some s1 ∧
        data s1 = [(5, 102), (15, 32)] ∧ (data s1).length = 2 :=
  ⟨by decide, by decide, first_assign 32 5 15 102 (by decide) (by decide)⟩

/-- Claim C14. Canonical form is unique: two transition tables with strictly
increasing keys that both satisfy I1 and I2 with respect to `d` and on which the
lookup of every key agrees are equal; hence two histories of `assign` calls from
`construct d` whose states look up every key alike have the same table. -/
theorem canonical_form_unique (d : V) (m1 m2 : List (K × V))
    (h1 : KeysIncreasing m1) (h2 : KeysIncreasing m2)
    (hi1 : I1 m1 ∧ I2 d m1) (hi2 : I1 m2 ∧ I2 d m2)
    (hget : ∀ k, get ⟨d, m1⟩ k = get ⟨d, m2⟩ k) :
    m1 = m2 ∧
    ∀ (calls1 calls2 : List (K × K × V)) (s1 s2 : RangeMap K V),
      assignAll (construct d) calls1 = some s1 → assignAll (construct d) calls2 = some s2 →
      (∀ k, get s1 k = get s2 k) → data s1 = data s2 := by
  have hcore : ∀ (a c : List (K × V)), KeysIncreasing a → KeysIncreasing c →
      Canonical d a → Canonical d c → (∀ k, get ⟨d, a⟩ k = get ⟨d, c⟩ k) → a = c := by
    intro a c ha hc hca hcc hg
    apply canonical_unique d a c ha hc hca hcc
    intro k
    have h3 := hg k
    rw [get_eq_valueFor, get_eq_valueFor] at h3
    exact Option.some.inj h3
  refine ⟨hcore m1 m2 h1 h2 ((canonical_iff d m1).mpr hi1) ((canonical_iff d m2).mpr hi2) hget, ?_⟩
  intro calls1 calls2 s1 s2 hs1 hs2 hg
  have hd1 : s1.mDefaultVal = d := assignAll_default calls1 _ s1 hs1
  have hd2 : s2.mDefaultVal = d := assignAll_default calls2 _ s2 hs2
  have hr1 : Reachable s1 := ⟨calls1, by rw [hd1]; exact hs1⟩
  have hr2 : Reachable s2 := ⟨calls2, by rw [hd2]; exact hs2⟩
  have hinv1 := reachable_inv s1 hr1
  have hinv2 := reachable_inv s2 hr2
  rw [hd1] at hinv1
  rw [hd2] at hinv2
  apply hcore s1.mMap s2.mMap hinv1.1 hinv2.1 hinv1.2.1 hinv2.2.1
  intro k
  have h3 := hg k
  have e1 : s1 = ⟨d, s1.mMap⟩ := by rw [← hd1]
  have e2 : s2 = ⟨d, s2.mMap⟩ := by rw [← hd2]
  rw [e1, e2] at h3
  exact h3

/-- Claim C14 at a concrete table. -/
theorem canonical_form_unique_witness :
    KeysIncreasing ([(5, 2), (9, 0)] : List (Nat × Nat)) ∧
      (I1 ([(5, 2), (9, 0)] : List (Nat × Nat)) ∧ I2 0 ([(5, 2), (9, 0)] : List (Nat × Nat))) ∧
      (∀ k, get (⟨0, [(5, 2), (9, 0)]⟩ : RangeMap Nat Nat) k
          = get (⟨0, [(5, 2), (9, 0)]⟩ : RangeMap Nat Nat) k) ∧
      (([(5, 2), (9, 0)] : List (Nat × Nat)) = [(5, 2), (9, 0)] ∧
        ∀ (calls1 calls2 : List (Nat × Nat × Nat)) (s1 s2 : RangeMap Nat Nat),
          assignAll (construct 0) calls1 = some s1 → assignAll (construct 0) calls2 = some s2 →
          (∀ k, get s1 k = get s2 k) → data s1 = data s2) :=
  ⟨by simp [KeysIncreasing], ⟨by simp [I1], by simp [I2]⟩, fun _ => rfl,
    canonical_form_unique 0 [(5, 2), (9, 0)] [(5, 2), (9, 0)] (by simp [KeysIncreasing])
      (by simp [KeysIncreasing]) ⟨by simp [I1], by simp [I2]⟩ ⟨by simp [I1], by simp [I2]⟩
      (fun _ => rfl)⟩

/-- Claim C15. No abnormal termination: in every reachable state, `assign` with
any arguments returns a state, that is, the hint assertion of `InsertKeyBegin`
holds in the call and every position that is dereferenced or erased exists.  The
second part records what returning means: `InsertKeyBegin` returns nothing
whenever the position right after the inserted-or-found `keyBegin` entry is
neither the end of the table nor the hint. -/
theorem assign_never_aborts (s : RangeMap K V) (hs : Reachable s) (keyBegin keyEnd : K)
    (v : V) :
    (∃ s1, assign s keyBegin keyEnd v = some s1) ∧
    ∀ (m : List (K × V)) (hint keyEndPos : Nat),
      ¬ ((insert m keyBegin v).2.1 + 1 = (insert m keyBegin v).1.length ∨
          (insert m keyBegin v).2.1 + 1
            = relocate (insert m keyBegin v).2.2 (insert m keyBegin v).2.1 hint) →
      InsertKeyBegin m keyBegin v hint keyEndPos = none := by
  obtain ⟨m1, h1, -, -⟩ :=
    assign_inv s.mDefaultVal s.mMap keyBegin keyEnd v (reachable_inv s hs)
  refine ⟨⟨_, h1⟩, ?_⟩
  intro m hint keyEndPos hassert
  unfold InsertKeyBegin
  simp only [hassert, if_false]

/-- Claim C15 at a concrete reachable state. -/
theorem assign_never_aborts_witness :
    Reachable (⟨0, [(5, 2), (9, 0)]⟩ : RangeMap Nat Nat) ∧
      ((∃ s1, assign (⟨0, [(5, 2), (9, 0)]⟩ : RangeMap Nat Nat) 5 7 4 = some s1) ∧
        ∀ (m : List (Nat × Nat)) (hint keyEndPos : Nat),
          ¬ ((insert m 5 4).2.1 + 1 = (insert m 5 4).1.length ∨
              (insert m 5 4).2.1 + 1 = relocate (insert m 5 4).2.2 (insert m 5 4).2.1 hint) →
          InsertKeyBegin m 5 4 hint keyEndPos = none) :=
  ⟨⟨[(5, 9, 2)], by rfl⟩,
    assign_never_aborts (⟨0, [(5, 2), (9, 0)]⟩ : RangeMap Nat Nat) ⟨[(5, 9, 2)], by rfl⟩ 5 7 4⟩

/-- Claim C16, as stated, fails: a key outside the range can look up to `v` after
the call because it did so before.  In the reachable table `5 ↦ 2, 9 ↦ 0` with
default `0`, after `assign 1 3 2` the lookup of `6` returns `2` although `6` is
not in `[1, 3)`. -/
theorem range_iff_counterexample :
    Reachable (⟨0, [(5, 2), (9, 0)]⟩ : RangeMap Nat Nat) ∧ (1 : Nat) < 3 ∧
      ∃ s1, assign (⟨0, [(5, 2), (9, 0)]⟩ : RangeMap Nat Nat) 1 3 2 = some s1 ∧
        ¬ (get s1 6 = some 2 ↔ (1 ≤ 6 ∧ 6 < 3)) := by
  refine ⟨⟨[(5, 9, 2)], by rfl⟩, by decide, ⟨0, [(1, 2), (3, 0), (5, 2), (9, 0)]⟩, by rfl, ?_⟩
  intro h
  have h1 := h.mp (by rfl)
  exact absurd h1.2 (by decide)

/-- Claim C16, amended. Range semantics: in every reachable state and for
`b < e`, after `assign b e v` the lookup of a key `k` returns `v` if and only if
`b ≤ k < e` or the lookup of `k` returned `v` before the call. -/
theorem range_iff_amended (s : RangeMap K V) (hs : Reachable s) (b e : K) (v : V)
    (_hbe : b < e) :
    ∃ s1, assign s b e v = some s1 ∧
      ∀ k, get s1 k = some v ↔ ((b ≤ k ∧ k < e) ∨ get s k = some v) := by
  obtain ⟨m1, h1, -, hv1⟩ := assign_inv s.mDefaultVal s.mMap b e v (reachable_inv s hs)
  refine ⟨⟨s.mDefaultVal, m1⟩, h1, ?_⟩
  intro k
  have hs1 : get s k = some (valueFor s.mDefaultVal s.mMap k) :=
    get_eq_valueFor s.mDefaultVal s.mMap k
  rw [get_eq_valueFor, hv1 k, hs1]
  by_cases hk : b ≤ k ∧ k < e
  · simp [hk]
  · simp [hk]

/-- Claim C16, amended, at a concrete reachable state. -/
theorem range_iff_amended_witness :
    Reachable (⟨0, [(5, 2), (9, 0)]⟩ : RangeMap Nat Nat) ∧ (1 : Nat) < 3 ∧
      ∃ s1, assign (⟨0, [(5, 2), (9, 0)]⟩ : RangeMap Nat Nat) 1 3 2 = some s1 ∧
        ∀ k, get s1 k = some 2 ↔
          ((1 ≤ k ∧ k < 3) ∨ get (⟨0, [(5, 2), (9, 0)]⟩ : RangeMap Nat Nat) k = some 2) :=
  ⟨⟨[(5, 9, 2)], by rfl⟩, by decide,
    range_iff_amended (⟨0, [(5, 2), (9, 0)]⟩ : RangeMap Nat Nat) ⟨[(5, 9, 2)], by rfl⟩ 1 3 2
      (by decide)⟩

/-- Claim C17, as stated, fails: a call with `keyBegin < keyEnd` is not ignored.
On the empty map with default `0`, `assign 3 7 4` with `3 < 7` returns the table
`3 ↦ 4, 7 ↦ 0`. -/
theorem header_doc_counterexample :
    (3 : Nat) < 7 ∧
      ∃ s1, assign (construct 0 : RangeMap Nat Nat) 3 7 4 = some s1 ∧
        data s1 = [(3, 4), (7, 0)] ∧ data s1 ≠ data (construct 0 : RangeMap Nat Nat) := by
  refine ⟨by decide, ⟨0, [(3, 4), (7, 0)]⟩, by rfl, rfl, ?_⟩
  simp [data, construct]

/-- Claim C17, amended. Header documentation of `assign`: for every state and
value, a call whose range does not have `keyBegin < keyEnd` is ignored and does
not change the container. -/
theorem header_doc_amended (s : RangeMap K V) (keyBegin keyEnd : K) (keyVal : V)
    (h : ¬ keyBegin < keyEnd) :
    ∃ s1, assign s keyBegin keyEnd keyVal = some s1 ∧ data s1 = data s ∧
      s1.mDefaultVal = s.mDefaultVal :=
  ⟨s, by simp [assign, h], rfl, rfl⟩

/-- Claim C17, amended, at a concrete state and an empty range. -/
theorem header_doc_amended_witness :
    ¬ (7 : Nat) < 7 ∧
      ∃ s1, assign (⟨0, [(5, 2), (9, 0)]⟩ : RangeMap Nat Nat) 7 7 4 = some s1 ∧
        data s1 = data (⟨0, [(5, 2), (9, 0)]⟩ : RangeMap Nat Nat) ∧
        s1.mDefaultVal = (⟨0, [(5, 2), (9, 0)]⟩ : RangeMap Nat Nat).mDefaultVal :=
  ⟨by decide, header_doc_amended (⟨0, [(5, 2), (9, 0)]⟩ : RangeMap Nat Nat) 7 7 4 (by decide)⟩

/-- Claim C18. End boundary: in every reachable state and for
`keyBegin < keyEnd`, with `g` the lookup of `keyEnd` before the call, the table
after `assign keyBegin keyEnd v` has an entry with key `keyEnd` if and only if
`g` differs from `v`, and such an entry holds `g`. -/
theorem end_boundary (s : RangeMap K V) (hs : Reachable s) (keyBegin keyEnd : K) (v : V)
    (hlt : keyBegin < keyEnd) :
    ∃ s1 g, assign s keyBegin keyEnd v = some s1 ∧ get s keyEnd = some g ∧
      ((∃ p ∈ data s1, p.1 = keyEnd) ↔ g ≠ v) ∧
      ∀ p ∈ data s1, p.1 = keyEnd → p.2 = g := by
  have hinv := reachable_inv s hs
  obtain ⟨X, Y, Z, hm, hX, hY, hZ, -, h1⟩ :=
    assign_inv_shape s.mDefaultVal s.mMap keyBegin keyEnd v hinv hlt
  have hg : get s keyEnd = some (lastVal s.mDefaultVal (X ++ Y)) := by
    have h2 : get s keyEnd = some (valueFor s.mDefaultVal s.mMap keyEnd) :=
      get_eq_valueFor s.mDefaultVal s.mMap keyEnd
    rw [h2, hm, valueFor_end s.mDefaultVal X Y Z keyBegin keyEnd hlt hX hY hZ]
  have hmem : ∀ p ∈ X ++ beginPart (lastVal s.mDefaultVal X) keyBegin v
      ++ endPart (lastVal s.mDefaultVal (X ++ Y)) keyEnd v ++ Z, p.1 = keyEnd →
      p = (keyEnd, lastVal s.mDefaultVal (X ++ Y)) ∧ lastVal s.mDefaultVal (X ++ Y) ≠ v := by
    intro p hp hpe
    rcases mem_result X Z keyBegin keyEnd v _ _ p hp with h | ⟨h, -⟩ | h | h
    · exact absurd hpe (lt_trans (hX p h) hlt).ne
    · rw [h] at hpe
      exact absurd hpe hlt.ne
    · exact h
    · exact absurd hpe (hZ p h).ne'
  refine ⟨_, _, h1, hg, ⟨?_, ?_⟩, ?_⟩
  · rintro ⟨p, hp, hpe⟩
    exact (hmem p hp hpe).2
  · intro hne
    refine ⟨(keyEnd, lastVal s.mDefaultVal (X ++ Y)), ?_, rfl⟩
    simp [data, endPart, hne]
  · intro p hp hpe
    rw [(hmem p hp hpe).1]

/-- Claim C18 at a concrete reachable state. -/
theorem end_boundary_witness :
    Reachable (⟨0, [(5, 2), (9, 0)]⟩ : RangeMap Nat Nat) ∧ (3 : Nat) < 7 ∧
      ∃ s1 g, assign (⟨0, [(5, 2), (9, 0)]⟩ : RangeMap Nat Nat) 3 7 4 = some s1 ∧
        get (⟨0, [(5, 2), (9, 0)]⟩ : RangeMap Nat Nat) 7 = some g ∧
        ((∃ p ∈ data s1, p.1 = 7) ↔ g ≠ 4) ∧ ∀ p ∈ data s1, p.1 = 7 → p.2 = g :=
  ⟨⟨[(5, 9, 2)], by rfl⟩, by decide,
    end_boundary (⟨0, [(5, 2), (9, 0)]⟩ : RangeMap Nat Nat) ⟨[(5, 9, 2)], by rfl⟩ 3 7 4
      (by decide)⟩

/-- Claim C19. Begin boundary: in every reachable state and for
`keyBegin < keyEnd`, if the value governing the keys just before `keyBegin` (the
value of the entry with the greatest stored key strictly less than `keyBegin`,
or the default value if there is none) differs from `v`, then the table after
`assign keyBegin keyEnd v` contains the entry `(keyBegin, v)`, and it is the only
entry with key `keyBegin` (an entry stored there before is overwritten). -/
theorem begin_boundary (s : RangeMap K V) (hs : Reachable s) (keyBegin keyEnd : K) (v : V)
    (hlt : keyBegin < keyEnd)
    (hentry : ∀ p ∈ data s, p.1 < keyBegin →
      (∀ q ∈ data s, q.1 < keyBegin → q.1 ≤ p.1) → p.2 ≠ v)
    (hdefault : (∀ p ∈ data s, ¬ p.1 < keyBegin) → s.mDefaultVal ≠ v) :
    ∃ s1, assign s keyBegin keyEnd v = some s1 ∧ (keyBegin, v) ∈ data s1 ∧
      ∀ p ∈ data s1, p.1 = keyBegin → p = (keyBegin, v) := by
  have hinv := reachable_inv s hs
  obtain ⟨X, Y, Z, hm, hX, hY, hZ, hXs, h1⟩ :=
    assign_inv_shape s.mDefaultVal s.mMap keyBegin keyEnd v hinv hlt
  have hne : lastVal s.mDefaultVal X ≠ v := by
    rcases lastVal_before s.mDefaultVal X Y Z keyBegin keyEnd hlt hX hY hZ hXs with
      ⟨hnone, hd⟩ | ⟨x, hx, hxb, hmax, hval⟩
    · rw [hd]
      apply hdefault
      intro p hp
      apply hnone p
      rw [← hm]
      exact hp
    · rw [hval]
      rw [← hm] at hx hmax
      exact hentry x hx hxb hmax
  refine ⟨_, h1, ?_, ?_⟩
  · simp [data, beginPart, hne]
  · intro p hp hpb
    rcases mem_result X Z keyBegin keyEnd v _ _ p hp with h | ⟨h, -⟩ | ⟨h, -⟩ | h
    · exact absurd hpb (hX p h).ne
    · exact h
    · rw [h] at hpb
      exact absurd hpb hlt.ne'
    · exact absurd hpb (lt_trans hlt (hZ p h)).ne'

/-- Claim C19 at a concrete reachable state, with an entry stored at `keyBegin`
before the call. -/
theorem begin_boundary_witness :
    Reachable (⟨0, [(5, 2), (9, 0)]⟩ : RangeMap Nat Nat) ∧ (5 : Nat) < 7 ∧
      (∀ p ∈ data (⟨0, [(5, 2), (9, 0)]⟩ : RangeMap Nat Nat), p.1 < 5 →
        (∀ q ∈ data (⟨0, [(5, 2), (9, 0)]⟩ : RangeMap Nat Nat), q.1 < 5 → q.1 ≤ p.1) → p.2 ≠ 4) ∧
      ((∀ p ∈ data (⟨0, [(5, 2), (9, 0)]⟩ : RangeMap Nat Nat), ¬ p.1 < 5) →
        (⟨0, [(5, 2), (9, 0)]⟩ : RangeMap Nat Nat).mDefaultVal ≠ 4) ∧
      ∃ s1, assign (⟨0, [(5, 2), (9, 0)]⟩ : RangeMap Nat Nat) 5 7 4 = some s1 ∧
        (5, 4) ∈ data s1 ∧ ∀ p ∈ data s1, p.1 = 5 → p = (5, 4) :=
  have h1 : ∀ p ∈ data (⟨0, [(5, 2), (9, 0)]⟩ : RangeMap Nat Nat), p.1 < 5 →
      (∀ q ∈ data (⟨0, [(5, 2), (9, 0)]⟩ : RangeMap Nat Nat), q.1 < 5 → q.1 ≤ p.1) →
      p.2 ≠ 4 := by
    simp [data]
  have h2 : (∀ p ∈ data (⟨0, [(5, 2), (9, 0)]⟩ : RangeMap Nat Nat), ¬ p.1 < 5) →
      (⟨0, [(5, 2), (9, 0)]⟩ : RangeMap Nat Nat).mDefaultVal ≠ 4 := by
    intro _
    decide
  ⟨⟨[(5, 9, 2)], by rfl⟩, by decide, h1, h2,
    begin_boundary (⟨0, [(5, 2), (9, 0)]⟩ : RangeMap Nat Nat) ⟨[(5, 9, 2)], by rfl⟩ 5 7 4
      (by decide) h1 h2⟩

/-- Claim C20. Subsumed entries are reclaimed: in every reachable state and for
`keyBegin < keyEnd`, the table after `assign keyBegin keyEnd v` has no entry
whose key lies strictly between `keyBegin` and `keyEnd`. -/
theorem subsumed_entries_reclaimed (s : RangeMap K V) (hs : Reachable s)
    (keyBegin keyEnd : K) (v : V) (hlt : keyBegin < keyEnd) :
    ∃ s1, assign s keyBegin keyEnd v = some s1 ∧
      ∀ p ∈ data s1, ¬ (keyBegin < p.1 ∧ p.1 < keyEnd) := by
  have hinv := reachable_inv s hs
  obtain ⟨X, Y, Z, -, hX, -, hZ, -, h1⟩ :=
    assign_inv_shape s.mDefaultVal s.mMap keyBegin keyEnd v hinv hlt
  refine ⟨_, h1, ?_⟩
  rintro p hp ⟨hp1, hp2⟩
  rcases mem_result X Z keyBegin keyEnd v _ _ p hp with h | ⟨h, -⟩ | ⟨h, -⟩ | h
  · exact absurd hp1 (not_lt.mpr (hX p h).le)
  · rw [h] at hp1
    exact lt_irrefl _ hp1
  · rw [h] at hp2
    exact lt_irrefl _ hp2
  · exact absurd hp2 (not_lt.mpr (hZ p h).le)

/-- Claim C20 at a concrete reachable state with an entry inside the range. -/
theorem subsumed_entries_reclaimed_witness :
    Reachable (⟨0, [(5, 2), (9, 0)]⟩ : RangeMap Nat Nat) ∧ (3 : Nat) < 12 ∧
      ∃ s1, assign (⟨0, [(5, 2), (9, 0)]⟩ : RangeMap Nat Nat) 3 12 4 = some s1 ∧
        ∀ p ∈ data s1, ¬ (3 < p.1 ∧ p.1 < 12) :=
  ⟨⟨[(5, 9, 2)], by rfl⟩, by decide,
    subsumed_entries_reclaimed (⟨0, [(5, 2), (9, 0)]⟩ : RangeMap Nat Nat)
      ⟨[(5, 9, 2)], by rfl⟩ 3 12 4 (by decide)⟩

/-! ## Positions: the scan, the independent search and the governing value -/

/-- The two positions of `assign` on a split node list. -/
theorem positions_split (X Bq Mid Eq Z : List (K × V)) (b e : K) (hbe : b < e)
    (hX : ∀ p ∈ X, p.1 < b) (hBq : Bq = [] ∨ ∃ x, Bq = [(b, x)])
    (hMid : ∀ p ∈ Mid, b < p.1 ∧ p.1 < e) (hEq : Eq = [] ∨ ∃ y, Eq = [(e, y)])
    (hZ : ∀ p ∈ Z, e < p.1) :
    upper_bound (X ++ Bq ++ Mid ++ Eq ++ Z) b = (X ++ Bq).length ∧
    scanKeyEnd e (List.drop (X ++ Bq).length (X ++ Bq ++ Mid ++ Eq ++ Z)) (X ++ Bq).length
      = (X ++ Bq ++ Mid ++ Eq).length ∧
    upper_bound (X ++ Bq ++ Mid ++ Eq ++ Z) e = (X ++ Bq ++ Mid ++ Eq).length := by
  have hY := mem_node_parts Bq Mid Eq b e hbe hBq hMid hEq
  have hBqk : ∀ p ∈ Bq, p.1 = b := by
    intro p hp
    rcases hBq with rfl | ⟨x, rfl⟩
    · simp at hp
    · simp at hp
      rw [hp]
  have hEqk : ∀ p ∈ Eq, p.1 = e := by
    intro p hp
    rcases hEq with rfl | ⟨y, rfl⟩
    · simp at hp
    · simp at hp
      rw [hp]
  have hLle : ∀ p ∈ X ++ Bq, p.1 ≤ b := by
    intro p hp
    rcases List.mem_append.mp hp with h | h
    · exact (hX p h).le
    · exact (hBqk p h).le
  have hMEk : ∀ p ∈ Mid ++ Eq, b < p.1 ∧ p.1 ≤ e := by
    intro p hp
    rcases List.mem_append.mp hp with h | h
    · exact ⟨(hMid p h).1, (hMid p h).2.le⟩
    · rw [hEqk p h]
      exact ⟨hbe, le_refl _⟩
  have hRgt : ∀ p ∈ Mid ++ Eq ++ Z, b < p.1 := by
    intro p hp
    rcases List.mem_append.mp hp with h | h
    · exact (hMEk p h).1
    · exact lt_trans hbe (hZ p h)
  have hWle : ∀ p ∈ X ++ Bq ++ Mid ++ Eq, p.1 ≤ e := by
    intro p hp
    rcases List.mem_append.mp hp with h | h
    · rcases List.mem_append.mp h with h | h
      · exact le_trans (hLle p h) hbe.le
      · exact (hMid p h).2.le
    · exact (hEqk p h).le
  have hm : X ++ Bq ++ Mid ++ Eq ++ Z = (X ++ Bq) ++ (Mid ++ Eq ++ Z) := by simp
  have hlen : (X ++ Bq ++ Mid ++ Eq).length = (X ++ Bq).length + (Mid ++ Eq).length := by
    simp only [List.length_append]
    omega
  refine ⟨?_, ?_, ?_⟩
  · rw [hm, upper_bound_append_of_le _ _ b hLle, upper_bound_of_lt _ b hRgt]
    rfl
  · rw [hm, List.drop_left, hlen]
    exact scanKeyEnd_append e (Mid ++ Eq) Z _ (fun p hp => (hMEk p hp).2) hZ
  · rw [upper_bound_append_of_le _ _ e hWle, upper_bound_of_lt _ e hZ]
    rfl

/-- On a well-formed map the scan that starts at `upper_bound(keyBegin)` ends at
`upper_bound(keyEnd)`. -/
theorem scanKeyEnd_eq_upper_bound (m : List (K × V)) (hm : KeysIncreasing m) (b e : K)
    (hbe : b < e) :
    scanKeyEnd e (m.drop (upper_bound m b)) (upper_bound m b) = upper_bound m e := by
  obtain ⟨X, Bq, Mid, Eq, Z, rfl, hX, hBq, hMid, hEq, hZ, -, -⟩ := split_range m hm b e
  obtain ⟨h1, h2, h3⟩ := positions_split X Bq Mid Eq Z b e hbe hX hBq hMid hEq hZ
  rw [h1, h2, h3]

/-- What `upper_bound` returns on a well-formed map: the nodes before the
position have keys at most `k`, the nodes from the position on have keys greater
than `k`. -/
theorem upper_bound_spec (m : List (K × V)) (hm : KeysIncreasing m) (k : K) :
    (∀ p ∈ m.take (upper_bound m k), p.1 ≤ k) ∧ (∀ p ∈ m.drop (upper_bound m k), k < p.1) := by
  induction m with
  | nil => simp [upper_bound]
  | cons q t ih =>
    have ht := ih (List.pairwise_cons.mp hm).2
    by_cases hk : k < q.1
    · simp only [upper_bound, hk, if_true, List.take_zero, List.drop_zero]
      refine ⟨by simp, ?_⟩
      intro p hp
      rcases List.mem_cons.mp hp with rfl | h
      · exact hk
      · exact lt_trans hk ((List.pairwise_cons.mp hm).1 p h)
    · simp only [upper_bound, hk, if_false, List.take_succ_cons, List.drop_succ_cons]
      refine ⟨?_, ht.2⟩
      intro p hp
      rcases List.mem_cons.mp hp with rfl | h
      · exact not_lt.mp hk
      · exact ht.1 p h

/-- In a well-formed map the node stored at key `k` stands right before
`upper_bound k`. -/
theorem upper_bound_of_keyAt (m : List (K × V)) (hm : KeysIncreasing m) (k : K) (i : Nat)
    (hi : keyAt m i = some k) : upper_bound m k = i + 1 := by
  induction m generalizing i with
  | nil => simp [keyAt] at hi
  | cons q t ih =>
    cases i with
    | zero =>
      simp only [keyAt, List.getElem?_cons_zero, Option.map_some', Option.some.injEq] at hi
      have hlt : ∀ p ∈ t, k < p.1 := by
        intro p hp
        rw [← hi]
        exact (List.pairwise_cons.mp hm).1 p hp
      simp only [upper_bound, hi, lt_irrefl, if_false, upper_bound_of_lt t k hlt]
    | succ i =>
      have hi1 : keyAt t i = some k := by
        simpa [keyAt] using hi
      have hmem : ∃ p ∈ t, p.1 = k := by
        simp only [keyAt, Option.map_eq_some'] at hi1
        obtain ⟨p, hp, hpk⟩ := hi1
        exact ⟨p, List.getElem?_mem hp, hpk⟩
      obtain ⟨p, hp, hpk⟩ := hmem
      have hq : ¬ k < q.1 := by
        rw [← hpk]
        exact not_lt.mpr ((List.pairwise_cons.mp hm).1 p hp).le
      simp only [upper_bound, hq, if_false]
      rw [ih (List.pairwise_cons.mp hm).2 i hi1]

theorem lastVal_eq_getLast (d : V) (m : List (K × V)) (hne : m ≠ []) :
    lastVal d m = (m.getLast hne).2 := by
  obtain ⟨t, l, rfl⟩ := exists_eq_append_last m hne
  rw [lastVal_append_singleton, List.getLast_append_singleton]

/-- The governing value at the upper bound of `x` is the lookup of `x`, on a map
that satisfies the invariant. -/
theorem governingValue_upper_bound (d : V) (m : List (K × V)) (hinv : Inv d m) (x : K) :
    governingValue d m (upper_bound m x) = some (valueFor d m x) := by
  obtain ⟨hs, -, ht⟩ := hinv
  obtain ⟨A, Q, B, rfl, hA, hQ, hB⟩ := split_at_key m hs x
  have hAQ : ∀ p ∈ A ++ Q, p.1 ≤ x := by
    intro p hp
    rcases List.mem_append.mp hp with h | h
    · exact (hA p h).le
    · rcases hQ with rfl | ⟨y, rfl⟩
      · simp at h
      · simp at h
        rw [h]
  have hub : upper_bound (A ++ Q ++ B) x = (A ++ Q).length := by
    rw [upper_bound_append_of_le _ _ x hAQ, upper_bound_of_lt _ x hB]
    rfl
  have hval : valueFor d (A ++ Q ++ B) x = lastVal d (A ++ Q) := by
    rw [valueFor_append_of_le d (A ++ Q) B x hAQ, valueFor_of_lt _ B x hB]
  rw [hub, hval]
  unfold governingValue
  by_cases hW : A ++ Q = []
  · rw [hW]
    simp [lastVal]
  · by_cases hB0 : B = []
    · subst hB0
      rw [List.append_nil] at ht ⊢
      simp [ht]
    · have h1 : (A ++ Q).length ≠ 0 := by simpa using hW
      have h2 : (A ++ Q).length ≠ (A ++ Q ++ B).length := by
        have : B.length ≠ 0 := by simpa using hB0
        rw [List.length_append (A ++ Q) B]
        omega
      rw [if_pos ⟨h1, h2⟩]
      exact valueAt_last d (A ++ Q) B hW _ (by omega)

/-- The block "insert 'keyEnd'" decides on the governing value at `keyEndPos`. -/
theorem assignInsertKeyEnd_eq_governingValue (d : V) (m : List (K × V)) (e : K) (v : V)
    (kb ke : Nat) :
    assignInsertKeyEnd d m e v kb ke
      = match governingValue d m ke with
        | none => none
        | some g =>
          if g = v then some (m, kb, ke)
          else some ((insert_or_assign m e g).1,
            relocate (insert_or_assign m e g).2.2 (insert_or_assign m e g).2.1 kb,
            (insert_or_assign m e g).2.1) := by
  unfold assignInsertKeyEnd governingValue
  by_cases hw : ke ≠ 0 ∧ ke ≠ m.length
  · simp only [if_pos hw]
  · rw [if_neg hw, if_neg hw]

/-- The test on the begin range decides on the governing value at
`keyBeginPos`: within a previous range through `beginRangeValueEqualKeyVal`,
outside of the previous ranges through `mDefaultVal == keyVal`. -/
theorem beginRangeValueEqualKeyVal_eq_governingValue (d : V) (m : List (K × V)) (v : V)
    (kb : Nat) :
    (kb ≠ 0 ∧ kb ≠ m.length →
      beginRangeValueEqualKeyVal m v kb
        = (governingValue d m kb).map (fun g => decide (g = v))) ∧
    (¬ (kb ≠ 0 ∧ kb ≠ m.length) → governingValue d m kb = some d) := by
  unfold beginRangeValueEqualKeyVal governingValue
  constructor
  · intro hw
    rw [if_pos hw, if_pos hw]
  · intro hw
    rw [if_neg hw]

/-! ## `assign` on any well-formed map

The lemmas above describe `assign` on a map that satisfies the invariant.  The
ones below need increasing keys only: `assign` still returns, and what it
returns is the nodes after `keyEnd`, preceded by the end boundary if one is
needed, preceded by some of the nodes up to `keyBegin`. -/

theorem governingValue_shape (d : V) (W Z : List (K × V)) :
    governingValue d (W ++ Z) W.length
      = some (if W ≠ [] ∧ Z ≠ [] then lastVal d W else d) := by
  unfold governingValue
  by_cases hW : W = []
  · subst hW
    simp
  · by_cases hZ : Z = []
    · subst hZ
      simp
    · have h1 : W.length ≠ 0 := by simpa using hW
      have h2 : W.length ≠ (W ++ Z).length := by
        have : Z.length ≠ 0 := by simpa using hZ
        rw [List.length_append]
        omega
      rw [if_pos ⟨h1, h2⟩, if_pos ⟨hW, hZ⟩]
      exact valueAt_last d W Z hW _ (by omega)

theorem assignInsertKeyEnd_total (d : V) (L Mid Eq Z : List (K × V)) (e : K) (v g : V)
    (hL : ∀ p ∈ L, p.1 < e) (hMid : ∀ p ∈ Mid, p.1 < e)
    (hEq : Eq = [] ∨ ∃ y, Eq = [(e, y)]) (hZ : ∀ p ∈ Z, e < p.1)
    (hg : governingValue d (L ++ Mid ++ Eq ++ Z) (L.length + (Mid ++ Eq).length) = some g) :
    assignInsertKeyEnd d (L ++ Mid ++ Eq ++ Z) e v L.length (L.length + (Mid ++ Eq).length)
      = some (L ++ (if g = v then Mid ++ Eq else Mid) ++ (endPart g e v ++ Z),
          if Mid ++ Eq = [] ∧ g ≠ v then L.length + 1 else L.length,
          L.length + (if g = v then Mid ++ Eq else Mid).length) := by
  have hins := insert_or_assign_shape L Mid Eq Z e g hL hMid hEq hZ
  rw [assignInsertKeyEnd_eq_governingValue, hg]
  simp only [hins]
  by_cases hgv : g = v
  · simp only [hgv, if_true, endPart, List.nil_append, ne_eq, not_true_eq_false, and_false,
      if_false]
    simp
  · have hrel : relocate (decide (Eq = [])) (L.length + Mid.length) L.length
        = if Mid ++ Eq = [] ∧ g ≠ v then L.length + 1 else L.length := by
      by_cases hME : Mid ++ Eq = []
      · obtain ⟨h1, h2⟩ := List.append_eq_nil.mp hME
        subst h1 h2
        simp [relocate, hgv]
      · have h3 : ¬ (decide (Eq = []) = true ∧ L.length + Mid.length ≤ L.length) := by
          rintro ⟨h1, h2⟩
          have h4 : Mid.length = 0 := by omega
          apply hME
          rw [of_decide_eq_true h1, List.length_eq_zero.mp h4]
          rfl
        simp only [hME, false_and, if_false, relocate, h3]
    simp only [hgv, if_false, endPart, hrel]
    simp

theorem assignErase_after_insert_total (d : V) (X Mx T : List (K × V)) (b : K) (v v0 : V)
    (out : Nat)
    (hout : (X ≠ [] ∧ out + 1 = X.length) ∨ (out = X.length ∧ v0 = v)) :
    ∃ P, assignErase d (X ++ (b, v0) :: (Mx ++ T)) v out (X.length + 1 + Mx.length)
        = some (P ++ T) ∧ (P = [] ∨ P = X ∨ P = X ++ [(b, v)]) := by
  have hlenm : (X ++ (b, v0) :: (Mx ++ T)).length = X.length + 1 + Mx.length + T.length := by
    simp; omega
  rcases hout with ⟨hX0, ho⟩ | ⟨ho, hv0⟩
  · have h1 : out ≠ (X ++ (b, v0) :: (Mx ++ T)).length := by rw [hlenm]; omega
    unfold assignErase
    simp only [h1, ne_eq, not_false_eq_true, if_true]
    by_cases h2 : d = v ∧ out = 0
    · have hshape : X ++ (b, v0) :: (Mx ++ T) = [] ++ (X ++ (b, v0) :: Mx) ++ T := by simp
      have her := erase_mid [] (X ++ (b, v0) :: Mx) T out (X.length + 1 + Mx.length)
        (by simp [h2.2]) (by simp; omega)
      rw [if_pos h2, hshape, her]
      exact ⟨[], rfl, Or.inl rfl⟩
    · have h3 : out + 1 ≠ X.length + 1 + Mx.length := by omega
      have hshape : X ++ (b, v0) :: (Mx ++ T) = X ++ ((b, v0) :: Mx) ++ T := by simp
      rw [if_neg h2, if_pos h3, hshape,
        erase_mid X ((b, v0) :: Mx) T _ _ ho (by simp; omega)]
      exact ⟨X, rfl, Or.inr (Or.inl rfl)⟩
  · subst v0
    subst ho
    have h1 : X.length ≠ (X ++ (b, v) :: (Mx ++ T)).length := by rw [hlenm]; omega
    unfold assignErase
    simp only [h1, ne_eq, not_false_eq_true, if_true]
    by_cases h2 : d = v ∧ X.length = 0
    · have hX0 : X = [] := List.length_eq_zero.mp h2.2
      subst hX0
      have hshape : ([] : List (K × V)) ++ (b, v) :: (Mx ++ T) = [] ++ ((b, v) :: Mx) ++ T := by
        simp
      have her := erase_mid [] ((b, v) :: Mx) T 0 (0 + 1 + Mx.length) rfl (by simp; omega)
      rw [if_pos h2, hshape]
      simp only [List.length_nil]
      rw [her]
      exact ⟨[], rfl, Or.inl rfl⟩
    · rw [if_neg h2]
      by_cases hMx : Mx = []
      · subst hMx
        refine ⟨X ++ [(b, v)], ?_, Or.inr (Or.inr rfl)⟩
        simp
      · have h3 : X.length + 1 ≠ X.length + 1 + Mx.length := by
          have : Mx.length ≠ 0 := by simpa using hMx
          omega
        have hshape : X ++ (b, v) :: (Mx ++ T) = (X ++ [(b, v)]) ++ Mx ++ T := by simp
        rw [if_pos h3, hshape, erase_mid (X ++ [(b, v)]) Mx T _ _ (by simp) (by simp)]
        exact ⟨X ++ [(b, v)], rfl, Or.inr (Or.inr rfl)⟩

theorem assignErase_keep_total (d : V) (L Mx T : List (K × V)) (v : V) (hL : L ≠ []) :
    ∃ P, assignErase d (L ++ Mx ++ T) v (L.length - 1) (L.length + Mx.length) = some (P ++ T) ∧
      (P = [] ∨ P = L) := by
  have hlen : L.length ≠ 0 := by simpa using hL
  have h1 : L.length - 1 ≠ (L ++ Mx ++ T).length := by simp; omega
  unfold assignErase
  simp only [h1, ne_eq, not_false_eq_true, if_true]
  by_cases h2 : d = v ∧ L.length - 1 = 0
  · have hshape : L ++ Mx ++ T = [] ++ (L ++ Mx) ++ T := by simp
    have her := erase_mid [] (L ++ Mx) T (L.length - 1) (L.length + Mx.length)
      (by simp [h2.2]) (by simp)
    rw [if_pos h2, hshape, her]
    exact ⟨[], rfl, Or.inl rfl⟩
  · rw [if_neg h2]
    by_cases hMx : Mx = []
    · subst hMx
      have h3 : L.length - 1 + 1 = L.length + ([] : List (K × V)).length := by simp; omega
      refine ⟨L, ?_, Or.inr rfl⟩
      simp [h3]
    · have h3 : L.length - 1 + 1 ≠ L.length + Mx.length := by
        have : Mx.length ≠ 0 := by simpa using hMx
        omega
      rw [if_pos h3, erase_mid L Mx T _ _ (by omega) rfl]
      exact ⟨L, rfl, Or.inr rfl⟩

theorem assign_begin_erase_total (d : V) (X Bq Mx T : List (K × V)) (b e : K) (v : V)
    (within beginEq : Bool) (kb1 : Nat)
    (hX : ∀ p ∈ X, p.1 < b) (hBq : Bq = [] ∨ ∃ x, Bq = [(b, x)])
    (hMx : ∀ p ∈ Mx, b < p.1 ∧ p.1 ≤ e) (hT : ∀ p ∈ T, b < p.1 ∧ e ≤ p.1)
    (h_eq : beginEq = true →
      within = true ∧ X ++ Bq ≠ [] ∧ kb1 = (X ++ Bq).length)
    (h_nw_d : within = false → d = v →
      kb1 = (X ++ Bq).length ∧ (X ++ Bq = [] ∨ Mx ++ T = []))
    (h_hint : kb1 = (X ++ Bq).length ∨
      (kb1 = (X ++ Bq).length + 1 ∧ Mx = [] ∧ ∃ t T0, T = t :: T0 ∧ ∀ p ∈ T0, t.1 < p.1))
    (h_w_lt : within = true → kb1 < (X ++ Bq ++ Mx ++ T).length) :
    ∃ m2 kb2 ke2 P,
      assignInsertKeyBegin d (X ++ Bq ++ Mx ++ T) b v within beginEq kb1
          ((X ++ Bq).length + Mx.length) = some (m2, kb2, ke2) ∧
      assignErase d m2 v kb2 ke2 = some (P ++ T) ∧
      (P = [] ∨ P = X ∨ P = X ++ [(b, v)] ∨ P = X ++ Bq) := by
  have hU : ∀ p ∈ Mx ++ T, b < p.1 := by
    intro p hp
    rcases List.mem_append.mp hp with h | h
    · exact (hMx p h).1
    · exact (hT p h).1
  -- the call of `InsertKeyBegin` with a hint that is the position after `X ++ Bq`
  have hcall : ∀ hint, hint = (X ++ Bq).length →
      ∃ m2 kb2 ke2 P,
        InsertKeyBegin (X ++ Bq ++ Mx ++ T) b v hint ((X ++ Bq).length + Mx.length)
          = some (m2, kb2, ke2) ∧
        assignErase d m2 v kb2 ke2 = some (P ++ T) ∧
        (P = [] ∨ P = X ∨ P = X ++ [(b, v)] ∨ P = X ++ Bq) := by
    intro hint hh
    obtain ⟨v0, out, h1, h2⟩ := InsertKeyBegin_shape d X Bq (Mx ++ T) b v hint
      ((X ++ Bq).length + Mx.length) Mx.length hX hBq hU hh rfl
    have h3 : (X ≠ [] ∧ out + 1 = X.length) ∨ (out = X.length ∧ v0 = v) := by
      rcases h2 with ⟨a1, -, a3⟩ | ⟨-, a2, a3⟩
      · exact Or.inl ⟨a1, a3⟩
      · exact Or.inr ⟨a2, a3⟩
    obtain ⟨P, hP, hPc⟩ := assignErase_after_insert_total d X Mx T b v v0 out h3
    refine ⟨_, _, _, P, ?_, hP, ?_⟩
    · rw [List.append_assoc (X ++ Bq) Mx T]
      exact h1
    · rcases hPc with h | h | h
      · exact Or.inl h
      · exact Or.inr (Or.inl h)
      · exact Or.inr (Or.inr (Or.inl h))
  have hprec : kb1 < (X ++ Bq ++ Mx ++ T).length →
      ∃ c, keyEndPrecedes (X ++ Bq ++ Mx ++ T) kb1 ((X ++ Bq).length + Mx.length) = some c ∧
        (if c = true then (X ++ Bq).length + Mx.length else kb1) = (X ++ Bq).length :=
    keyEndPrecedes_hint (X ++ Bq) Mx T e kb1 (fun p hp => (hMx p hp).2)
      (fun p hp => (hT p hp).2) h_hint
  unfold assignInsertKeyBegin
  cases within with
  | true =>
    cases beginEq with
    | true =>
      obtain ⟨-, hL, hkb⟩ := h_eq rfl
      obtain ⟨P, hP, hPc⟩ := assignErase_keep_total d (X ++ Bq) Mx T v hL
      refine ⟨X ++ Bq ++ Mx ++ T, kb1 - 1, (X ++ Bq).length + Mx.length, P, by simp, ?_, ?_⟩
      · rw [hkb]
        exact hP
      · rcases hPc with h | h
        · exact Or.inl h
        · exact Or.inr (Or.inr (Or.inr h))
    | false =>
      obtain ⟨c, hc1, hc2⟩ := hprec (h_w_lt rfl)
      simp only [if_true, hc1]
      exact hcall _ hc2
  | false =>
    by_cases hdv : d = v
    · obtain ⟨hkb, hcase⟩ := h_nw_d rfl hdv
      rcases hcase with hL | hMT
      · have hXn : X = [] := (List.append_eq_nil.mp hL).1
        have hBn : Bq = [] := (List.append_eq_nil.mp hL).2
        subst hXn hBn
        simp only [List.append_nil, List.length_nil] at hkb
        subst hkb
        refine ⟨[] ++ [] ++ Mx ++ T, 0, ([] ++ [] : List (K × V)).length + Mx.length, [],
          by simp [hdv], ?_, Or.inl rfl⟩
        simp only [List.nil_append, List.length_nil, Nat.zero_add]
        unfold assignErase
        by_cases hl : 0 = (Mx ++ T).length
        · obtain ⟨hMn, hTn⟩ := List.append_eq_nil.mp (List.length_eq_zero.mp hl.symm)
          subst hMn hTn
          simp
        · have her := erase_mid [] Mx T 0 Mx.length rfl (by simp)
          simp only [List.nil_append] at her
          simp only [ne_eq, hl, not_false_eq_true, if_true, hdv, and_self, her]
      · have hMn : Mx = [] := (List.append_eq_nil.mp hMT).1
        have hTn : T = [] := (List.append_eq_nil.mp hMT).2
        subst hMn hTn
        refine ⟨X ++ Bq ++ [] ++ [], kb1, (X ++ Bq).length + ([] : List (K × V)).length,
          X ++ Bq, by simp [hdv], ?_, Or.inr (Or.inr (Or.inr rfl))⟩
        rw [hkb]
        simp [assignErase]
    · simp only [Bool.false_eq_true, if_false, hdv]
      by_cases hend : kb1 = (X ++ Bq ++ Mx ++ T).length
      · simp only [hend, if_true]
        apply hcall
        rcases h_hint with h | ⟨h, hMn, -⟩
        · rw [h] at hend
          simp only [List.length_append] at hend ⊢
          omega
        · simp [hMn]
      · have hlt : kb1 < (X ++ Bq ++ Mx ++ T).length := by
          rcases h_hint with h | ⟨h, hMn, t, T0, hTt, -⟩
          · rw [h] at hend ⊢
            simp only [List.length_append] at hend ⊢
            omega
          · rw [h] at hend ⊢
            subst hMn hTt
            simp only [List.length_append, List.length_cons, List.length_nil] at hend ⊢
            omega
        obtain ⟨c, hc1, hc2⟩ := hprec hlt
        simp only [hend, if_false, hc1]
        exact hcall _ hc2

/-- On any split node list `assign` returns: the nodes after `keyEnd`, preceded
by the end boundary for the value `g` that the code takes as governing `keyEnd`,
preceded by a part `P` of the nodes up to `keyBegin`. -/
theorem assign_total_shape (d : V) (X Bq Mid Eq Z : List (K × V)) (b e : K) (v : V)
    (hbe : b < e) (hX : ∀ p ∈ X, p.1 < b) (hBq : Bq = [] ∨ ∃ x, Bq = [(b, x)])
    (hMid : ∀ p ∈ Mid, b < p.1 ∧ p.1 < e) (hEq : Eq = [] ∨ ∃ y, Eq = [(e, y)])
    (hZ : ∀ p ∈ Z, e < p.1) :
    ∃ P g, assign ⟨d, X ++ Bq ++ Mid ++ Eq ++ Z⟩ b e v = some ⟨d, P ++ endPart g e v ++ Z⟩ ∧
      (P = [] ∨ P = X ∨ P = X ++ [(b, v)] ∨ P = X ++ Bq) := by
  obtain ⟨hkb, hke, -⟩ := positions_split X Bq Mid Eq Z b e hbe hX hBq hMid hEq hZ
  have hBqk : ∀ p ∈ Bq, p.1 = b := by
    intro p hp
    rcases hBq with rfl | ⟨x, rfl⟩
    · simp at hp
    · simp at hp
      rw [hp]
  have hEqk : ∀ p ∈ Eq, p.1 = e := by
    intro p hp
    rcases hEq with rfl | ⟨y, rfl⟩
    · simp at hp
    · simp at hp
      rw [hp]
  have hLlt : ∀ p ∈ X ++ Bq, p.1 < e := by
    intro p hp
    rcases List.mem_append.mp hp with h | h
    · exact lt_trans (hX p h) hbe
    · rw [hBqk p h]
      exact hbe
  have hMEk : ∀ p ∈ Mid ++ Eq, b < p.1 ∧ p.1 ≤ e := by
    intro p hp
    rcases List.mem_append.mp hp with h | h
    · exact ⟨(hMid p h).1, (hMid p h).2.le⟩
    · rw [hEqk p h]
      exact ⟨hbe, le_refl _⟩
  have hm : X ++ Bq ++ Mid ++ Eq ++ Z = (X ++ Bq) ++ (Mid ++ Eq ++ Z) := by simp
  have hm2 : X ++ Bq ++ Mid ++ Eq = (X ++ Bq) ++ (Mid ++ Eq) := by simp
  have hlenm : (X ++ Bq ++ Mid ++ Eq ++ Z).length
      = (X ++ Bq).length + (Mid ++ Eq ++ Z).length := by
    rw [hm, List.length_append]
  have hlen2 : (X ++ Bq ++ Mid ++ Eq).length = (X ++ Bq).length + (Mid ++ Eq).length := by
    rw [hm2, List.length_append]
  have hbeq := beginRangeValueEqualKeyVal_shape d (X ++ Bq) (Mid ++ Eq ++ Z) v
  rw [← hm] at hbeq
  -- the value the code takes as governing `keyEnd`
  have hgov := governingValue_shape d (X ++ Bq ++ Mid ++ Eq) Z
  rw [hlen2] at hgov
  generalize hg : (if X ++ Bq ++ Mid ++ Eq ≠ [] ∧ Z ≠ [] then lastVal d (X ++ Bq ++ Mid ++ Eq)
    else d) = g at hgov
  have hend := assignInsertKeyEnd_total d (X ++ Bq) Mid Eq Z e v g hLlt
    (fun p hp => (hMid p hp).2) hEq hZ hgov
  have hg1 : Mid ++ Eq = [] → X ++ Bq ≠ [] → Z ≠ [] → g = lastVal d (X ++ Bq) := by
    intro h1 h2 h3
    have h4 : X ++ Bq ++ Mid ++ Eq ≠ [] := by
      rw [hm2, h1, List.append_nil]
      exact h2
    rw [← hg, if_pos ⟨h4, h3⟩, hm2, h1, List.append_nil]
  have hg2 : (X ++ Bq ++ Mid ++ Eq = [] ∨ Z = []) → g = d := by
    intro h
    have h4 : ¬ (X ++ Bq ++ Mid ++ Eq ≠ [] ∧ Z ≠ []) := by
      rintro ⟨h5, h6⟩
      rcases h with h | h
      · exact h5 h
      · exact h6 h
    rw [← hg, if_neg h4]
  have hMx : ∀ p ∈ (if g = v then Mid ++ Eq else Mid), b < p.1 ∧ p.1 ≤ e := by
    intro p hp
    split at hp
    · exact hMEk p hp
    · exact ⟨(hMid p hp).1, (hMid p hp).2.le⟩
  have hT : ∀ p ∈ endPart g e v ++ Z, b < p.1 ∧ e ≤ p.1 := by
    intro p hp
    rcases List.mem_append.mp hp with h | h
    · rw [mem_endPart _ _ _ p h]
      exact ⟨hbe, le_refl _⟩
    · exact ⟨lt_trans hbe (hZ p h), (hZ p h).le⟩
  have hbe2 := assign_begin_erase_total d X Bq (if g = v then Mid ++ Eq else Mid)
    (endPart g e v ++ Z) b e v
    (decide ((X ++ Bq).length ≠ 0 ∧ (X ++ Bq).length ≠ (X ++ Bq ++ Mid ++ Eq ++ Z).length))
    (decide (X ++ Bq ≠ [] ∧ Mid ++ Eq ++ Z ≠ [] ∧ lastVal d (X ++ Bq) = v))
    (if Mid ++ Eq = [] ∧ g ≠ v then (X ++ Bq).length + 1 else (X ++ Bq).length)
    hX hBq hMx hT ?_ ?_ ?_ ?_
  · obtain ⟨m2, kb2, ke2, P, h1, h2, hP⟩ := hbe2
    refine ⟨P, g, ?_, hP⟩
    unfold assign
    simp only [hbe, not_true_eq_false, if_false, hkb, hke, hlen2, hbeq, hend, h1, h2]
    simp
  · -- beginRangeValueEqualKeyVal
    intro h
    have h1 := of_decide_eq_true h
    refine ⟨?_, h1.1, ?_⟩
    · apply decide_eq_true
      refine ⟨by simpa using h1.1, ?_⟩
      have : (Mid ++ Eq ++ Z).length ≠ 0 := by simpa using h1.2.1
      rw [hlenm]
      omega
    · have : ¬ (Mid ++ Eq = [] ∧ g ≠ v) := by
        rintro ⟨h2, h3⟩
        have hZ0 : Z ≠ [] := by
          intro hZn
          apply h1.2.1
          rw [h2, hZn]
          rfl
        exact h3 ((hg1 h2 h1.1 hZ0).trans h1.2.2)
      simp only [this, if_false]
  · -- keyBegin outside of the previous ranges, default value assigned
    intro h hdv
    have h1 := of_decide_eq_false h
    by_cases hL : X ++ Bq = []
    · refine ⟨?_, Or.inl hL⟩
      have : ¬ (Mid ++ Eq = [] ∧ g ≠ v) := by
        rintro ⟨h2, h3⟩
        apply h3
        rw [hg2 (Or.inl (by rw [hm2, hL, h2]; rfl))]
        exact hdv
      simp only [this, if_false]
    · have hlen : (X ++ Bq).length ≠ 0 := by simpa using hL
      have hlen3 : (X ++ Bq).length = (X ++ Bq ++ Mid ++ Eq ++ Z).length := by
        by_contra h2
        exact h1 ⟨hlen, h2⟩
      have hR : Mid ++ Eq ++ Z = [] := by
        rw [hlenm] at hlen3
        exact List.length_eq_zero.mp (by omega)
      obtain ⟨hME, hZn⟩ := List.append_eq_nil.mp hR
      have hgv : g = v := (hg2 (Or.inr hZn)).trans hdv
      refine ⟨?_, Or.inr ?_⟩
      · simp [hgv]
      · simp [hgv, hME, hZn, endPart]
  · -- the hint
    by_cases hcase : Mid ++ Eq = [] ∧ g ≠ v
    · right
      obtain ⟨h1, h2⟩ := hcase
      have hMidn : Mid = [] := (List.append_eq_nil.mp h1).1
      refine ⟨by simp [h1, h2], by simp [h2, hMidn], (e, g), Z, by simp [endPart, h2], hZ⟩
    · left
      simp only [hcase, if_false]
  · -- keyBegin within a previous range: its position has a node
    intro h
    have h1 := of_decide_eq_true h
    have hR : (Mid ++ Eq ++ Z).length ≠ 0 := by
      have h2 := h1.2
      rw [hlenm] at h2
      omega
    clear hke hkb hlenm hlen2 h1 h hgov hend
    by_cases hcase : Mid ++ Eq = [] ∧ g ≠ v
    · obtain ⟨h2, h3⟩ := hcase
      have hMidn : Mid = [] := (List.append_eq_nil.mp h2).1
      rw [h2, List.nil_append] at hR
      rw [if_pos ⟨h2, h3⟩, if_neg h3, hMidn]
      simp only [endPart, if_neg h3, List.length_append, List.length_nil, List.length_cons]
      omega
    · rw [if_neg hcase]
      by_cases hgv : g = v
      · rw [if_pos hgv]
        simp only [hgv, if_true, endPart, List.nil_append, List.length_append] at hR ⊢
        omega
      · rw [if_neg hgv]
        simp only [hgv, if_false, endPart, List.length_append, List.length_cons]
        omega

/-- On every well-formed map `assign` returns a well-formed map. -/
theorem assign_keysIncreasing (d : V) (m : List (K × V)) (hm : KeysIncreasing m) (b e : K)
    (v : V) :
    ∃ m1, assign ⟨d, m⟩ b e v = some ⟨d, m1⟩ ∧ KeysIncreasing m1 := by
  by_cases hbe : b < e
  · obtain ⟨X, Bq, Mid, Eq, Z, rfl, hX, hBq, hMid, hEq, hZ, hXs, hZs⟩ := split_range m hm b e
    obtain ⟨P, g, h1, hP⟩ := assign_total_shape d X Bq Mid Eq Z b e v hbe hX hBq hMid hEq hZ
    refine ⟨_, h1, ?_⟩
    have hPk : ∀ p ∈ P, p.1 ≤ b := by
      intro p hp
      rcases hP with h | h | h | h
      · rw [h] at hp
        simp at hp
      · rw [h] at hp
        exact (hX p hp).le
      · rw [h] at hp
        rcases List.mem_append.mp hp with h2 | h2
        · exact (hX p h2).le
        · rw [List.mem_singleton.mp h2]
      · rw [h] at hp
        rcases List.mem_append.mp hp with h2 | h2
        · exact (hX p h2).le
        · rcases hBq with rfl | ⟨x, rfl⟩
          · simp at h2
          · rw [List.mem_singleton.mp h2]
    have hXb : ∀ (q : K × V), q.1 = b → KeysIncreasing (X ++ [q]) := by
      intro q hq
      refine List.pairwise_append.mpr ⟨hXs, by simp, ?_⟩
      intro p hp r hr
      rw [List.mem_singleton.mp hr, hq]
      exact hX p hp
    have hPs : KeysIncreasing P := by
      rcases hP with h | h | h | h
      · rw [h]
        exact List.Pairwise.nil
      · rw [h]
        exact hXs
      · rw [h]
        exact hXb (b, v) rfl
      · rw [h]
        rcases hBq with rfl | ⟨x, rfl⟩
        · rw [List.append_nil]
          exact hXs
        · exact hXb (b, x) rfl
    have hEs : KeysIncreasing (endPart g e v) := by
      unfold endPart KeysIncreasing
      split <;> simp
    refine List.pairwise_append.mpr ⟨List.pairwise_append.mpr ⟨hPs, hEs, ?_⟩, hZs, ?_⟩
    · intro p hp q hq
      rw [mem_endPart _ _ _ q hq]
      exact lt_of_le_of_lt (hPk p hp) hbe
    · intro p hp q hq
      rcases List.mem_append.mp hp with h | h
      · exact lt_trans (lt_of_le_of_lt (hPk p h) hbe) (hZ q hq)
      · rw [mem_endPart _ _ _ p h]
        exact hZ q hq
  · exact ⟨m, by simp [assign, hbe], hm⟩

/-! ## Claims C21 to C29 -/

/-- Claim C21. Ordered table: on every table whose keys are strictly increasing
(with any default value, whether or not the table was produced by `assign`),
`assign` with any arguments returns a table whose keys are again strictly
increasing, so without a duplicate key. -/
theorem ordered_table (d : V) (m : List (K × V)) (hm : KeysIncreasing m)
    (keyBegin keyEnd : K) (v : V) :
    ∃ s1, assign ⟨d, m⟩ keyBegin keyEnd v = some s1 ∧ KeysIncreasing (data s1) ∧
      ((data s1).map Prod.fst).Nodup := by
  obtain ⟨m1, h1, hs⟩ := assign_keysIncreasing d m hm keyBegin keyEnd v
  refine ⟨⟨d, m1⟩, h1, hs, ?_⟩
  exact List.pairwise_map.mpr (List.Pairwise.imp (fun h => ne_of_lt h) hs)

/-- Claim C21 at a table with increasing keys that no sequence of `assign` calls
produces. -/
theorem ordered_table_witness :
    KeysIncreasing ([(1, 5), (4, 5), (6, 0), (8, 0)] : List (Nat × Nat)) ∧
      ∃ s1, assign (⟨0, [(1, 5), (4, 5), (6, 0), (8, 0)]⟩ : RangeMap Nat Nat) 4 7 3 = some s1 ∧
        KeysIncreasing (data s1) ∧ ((data s1).map Prod.fst).Nodup :=
  ⟨by simp [KeysIncreasing],
    ordered_table 0 [(1, 5), (4, 5), (6, 0), (8, 0)] (by simp [KeysIncreasing]) 4 7 3⟩

/-- Claim C22, as stated, fails: I1 and I2 do not make a table fit for `assign`.
The table `1 ↦ 5` with default `0` has increasing keys and satisfies I1 and I2;
`assign 3 5 7` returns the table `1 ↦ 5, 3 ↦ 7, 5 ↦ 0`, and the lookup of `6`,
a key outside `[3, 5)`, changes from `5` to `0`. -/
theorem raw_table_frame_counterexample :
    KeysIncreasing ([(1, 5)] : List (Nat × Nat)) ∧ I1 ([(1, 5)] : List (Nat × Nat)) ∧
      I2 0 ([(1, 5)] : List (Nat × Nat)) ∧ (3 : Nat) < 5 ∧
      ∃ s1, assign (⟨0, [(1, 5)]⟩ : RangeMap Nat Nat) 3 5 7 = some s1 ∧
        data s1 = [(1, 5), (3, 7), (5, 0)] ∧ (5 : Nat) ≤ 6 ∧
        get (⟨0, [(1, 5)]⟩ : RangeMap Nat Nat) 6 = some 5 ∧ get s1 6 = some 0 ∧
        get s1 6 ≠ get (⟨0, [(1, 5)]⟩ : RangeMap Nat Nat) 6 := by
  refine ⟨by simp [KeysIncreasing], by simp [I1], by simp [I2], by decide,
    ⟨0, [(1, 5), (3, 7), (5, 0)]⟩, by rfl, rfl, by decide, by rfl, by rfl, ?_⟩
  intro h
  have h1 : get (⟨0, [(1, 5), (3, 7), (5, 0)]⟩ : RangeMap Nat Nat) 6 = some 0 := by rfl
  have h2 : get (⟨0, [(1, 5)]⟩ : RangeMap Nat Nat) 6 = some 5 := by rfl
  rw [h1, h2] at h
  exact absurd (Option.some.inj h) (by decide)

/-- Claim C22, amended. Invariant-consistent tables set through the raw view:
for every table with strictly increasing keys that satisfies I1 and I2 and whose
last entry, if any, holds the default value (whether or not the table was
produced by `assign`), and for `keyBegin < keyEnd`, `assign keyBegin keyEnd v`
returns and leaves the lookup of every key outside `[keyBegin, keyEnd)`
unchanged. -/
theorem raw_table_frame (d : V) (m : List (K × V)) (hm : KeysIncreasing m)
    (hI : I1 m ∧ I2 d m) (htail : ∀ p ∈ m.getLast?, p.2 = d)
    (keyBegin keyEnd : K) (v : V) (_hlt : keyBegin < keyEnd) :
    ∃ s1, assign ⟨d, m⟩ keyBegin keyEnd v = some s1 ∧
      ∀ k, k < keyBegin ∨ keyEnd ≤ k → get s1 k = get ⟨d, m⟩ k := by
  have ht : lastVal d m = d := by
    by_cases hne : m = []
    · rw [hne]
      rfl
    · rw [lastVal_eq_getLast d m hne]
      exact htail _ (List.getLast?_eq_getLast m hne)
  have hinv : Inv d m := ⟨hm, (canonical_iff d m).mpr hI, ht⟩
  obtain ⟨m1, h1, -, hv⟩ := assign_inv d m keyBegin keyEnd v hinv
  refine ⟨⟨d, m1⟩, h1, ?_⟩
  intro k hk
  have hnot : ¬ (keyBegin ≤ k ∧ k < keyEnd) := by
    rintro ⟨h2, h3⟩
    rcases hk with h | h
    · exact absurd h2 (not_le.mpr h)
    · exact absurd h3 (not_lt.mpr h)
  rw [get_eq_valueFor, get_eq_valueFor, hv k, if_neg hnot]

/-- Claim C22, amended, at a concrete table. -/
theorem raw_table_frame_witness :
    KeysIncreasing ([(1, 5), (4, 0)] : List (Nat × Nat)) ∧
      (I1 ([(1, 5), (4, 0)] : List (Nat × Nat)) ∧ I2 0 ([(1, 5), (4, 0)] : List (Nat × Nat))) ∧
      (∀ p ∈ ([(1, 5), (4, 0)] : List (Nat × Nat)).getLast?, p.2 = 0) ∧ (3 : Nat) < 5 ∧
      ∃ s1, assign (⟨0, [(1, 5), (4, 0)]⟩ : RangeMap Nat Nat) 3 5 7 = some s1 ∧
        ∀ k, k < 3 ∨ 5 ≤ k → get s1 k = get (⟨0, [(1, 5), (4, 0)]⟩ : RangeMap Nat Nat) k :=
  ⟨by simp [KeysIncreasing], ⟨by simp [I1], by simp [I2]⟩, by simp, by decide,
    raw_table_frame 0 [(1, 5), (4, 0)] (by simp [KeysIncreasing]) ⟨by simp [I1], by simp [I2]⟩
      (by simp) 3 5 7 (by decide)⟩

/-- Claim C23. Tail invariant: every finite sequence of `assign` calls applied to
`construct d` returns, and if the resulting table is non-empty then its last
entry holds `d`, so that every key at or beyond the last stored key looks up to
`d`, and the table has at least two entries. -/
theorem tail_invariant (d : V) (calls : List (K × K × V)) :
    ∃ s, assignAll (construct d) calls = some s ∧
      ∀ hne : data s ≠ [], ((data s).getLast hne).2 = d ∧
        (∀ k, ((data s).getLast hne).1 ≤ k → get s k = some d) ∧ 2 ≤ (data s).length := by
  obtain ⟨m1, h1, hinv, -⟩ := assignAll_inv calls d [] (inv_construct d)
  refine ⟨⟨d, m1⟩, h1, ?_⟩
  intro hne
  have hne1 : m1 ≠ [] := hne
  have hlast : (m1.getLast hne1).2 = d := by
    rw [← lastVal_eq_getLast d m1 hne1]
    exact hinv.2.2
  refine ⟨hlast, ?_, ?_⟩
  · intro k hk
    rw [get_eq_valueFor, valueFor_of_le d m1 k, hinv.2.2]
    intro p hp
    exact le_trans (keysIncreasing_le_getLast m1 hinv.1 hne1 p hp) hk
  · match m1, hne1, hinv with
    | [p], _, hinv1 =>
      exfalso
      exact hinv1.2.1.1 hinv1.2.2
    | p :: q :: t, _, _ => simp [data]

/-- Claim C24. Table-level frame: in every reachable state and for
`keyBegin < keyEnd`, the entries with a key strictly less than `keyBegin` or
strictly greater than `keyEnd` are the same before and after
`assign keyBegin keyEnd v`: each stored one is kept with its value and none is
created. -/
theorem table_frame (s : RangeMap K V) (hs : Reachable s) (keyBegin keyEnd : K) (v : V)
    (hlt : keyBegin < keyEnd) :
    ∃ s1, assign s keyBegin keyEnd v = some s1 ∧
      ∀ p : K × V, p.1 < keyBegin ∨ keyEnd < p.1 → (p ∈ data s1 ↔ p ∈ data s) := by
  have hinv := reachable_inv s hs
  obtain ⟨X, Y, Z, hm, hX, hY, hZ, -, h1⟩ :=
    assign_inv_shape s.mDefaultVal s.mMap keyBegin keyEnd v hinv hlt
  refine ⟨_, h1, ?_⟩
  intro p hp
  have hold : p ∈ data s ↔ p ∈ X ∨ p ∈ Z := by
    simp only [data, hm, List.mem_append]
    constructor
    · rintro ((h | h) | h)
      · exact Or.inl h
      · rcases hp with h2 | h2
        · exact absurd h2 (not_lt.mpr (hY p h).1)
        · exact absurd h2 (not_lt.mpr (hY p h).2)
      · exact Or.inr h
    · rintro (h | h)
      · exact Or.inl (Or.inl h)
      · exact Or.inr h
  rw [hold]
  constructor
  · intro h
    rcases mem_result X Z keyBegin keyEnd v _ _ p h with h2 | ⟨h2, -⟩ | ⟨h2, -⟩ | h2
    · exact Or.inl h2
    · rw [h2] at hp
      rcases hp with h3 | h3
      · exact absurd h3 (lt_irrefl _)
      · exact absurd h3 (not_lt.mpr hlt.le)
    · rw [h2] at hp
      rcases hp with h3 | h3
      · exact absurd h3 (not_lt.mpr hlt.le)
      · exact absurd h3 (lt_irrefl _)
    · exact Or.inr h2
  · rintro (h | h)
    · simp [data, h]
    · simp [data, h]

/-- Claim C24 at a concrete reachable state. -/
theorem table_frame_witness :
    Reachable (⟨0, [(1, 3), (2, 0), (5, 2), (9, 0)]⟩ : RangeMap Nat Nat) ∧ (4 : Nat) < 7 ∧
      ∃ s1, assign (⟨0, [(1, 3), (2, 0), (5, 2), (9, 0)]⟩ : RangeMap Nat Nat) 4 7 4 = some s1 ∧
        ∀ p : Nat × Nat, p.1 < 4 ∨ 7 < p.1 →
          (p ∈ data s1 ↔ p ∈ data (⟨0, [(1, 3), (2, 0), (5, 2), (9, 0)]⟩ : RangeMap Nat Nat)) :=
  ⟨⟨[(5, 9, 2), (1, 2, 3)], by rfl⟩, by decide,
    table_frame (⟨0, [(1, 3), (2, 0), (5, 2), (9, 0)]⟩ : RangeMap Nat Nat)
      ⟨[(5, 9, 2), (1, 2, 3)], by rfl⟩ 4 7 4 (by decide)⟩

/-- Claim C25. Disjoint assignments commute: in every reachable state and for
`b1 < e1 ≤ b2 < e2`, `assign b1 e1 v1` followed by `assign b2 e2 v2` returns the
same state, so the same transition table, as `assign b2 e2 v2` followed by
`assign b1 e1 v1`. -/
theorem disjoint_assign_commute (s : RangeMap K V) (hs : Reachable s) (b1 e1 b2 e2 : K)
    (v1 v2 : V) (_h1 : b1 < e1) (h12 : e1 ≤ b2) (_h2 : b2 < e2) :
    ∃ s1 s2 s12, assign s b1 e1 v1 = some s1 ∧ assign s1 b2 e2 v2 = some s12 ∧
      assign s b2 e2 v2 = some s2 ∧ assign s2 b1 e1 v1 = some s12 := by
  have hinv := reachable_inv s hs
  obtain ⟨m1, a1, hinv1, hv1⟩ := assign_inv s.mDefaultVal s.mMap b1 e1 v1 hinv
  obtain ⟨m12, a12, hinv12, hv12⟩ := assign_inv s.mDefaultVal m1 b2 e2 v2 hinv1
  obtain ⟨m2, a2, hinv2, hv2⟩ := assign_inv s.mDefaultVal s.mMap b2 e2 v2 hinv
  obtain ⟨m21, a21, hinv21, hv21⟩ := assign_inv s.mDefaultVal m2 b1 e1 v1 hinv2
  have heq : m21 = m12 := by
    apply canonical_unique s.mDefaultVal m21 m12 hinv21.1 hinv12.1 hinv21.2.1 hinv12.2.1
    intro k
    rw [hv21 k, hv12 k, hv2 k, hv1 k]
    by_cases hk1 : b1 ≤ k ∧ k < e1
    · have hk2 : ¬ (b2 ≤ k ∧ k < e2) := by
        rintro ⟨h3, -⟩
        exact absurd (lt_of_lt_of_le hk1.2 h12) (not_lt.mpr h3)
      rw [if_pos hk1, if_neg hk2, if_pos hk1]
    · rw [if_neg hk1, if_neg hk1]
  rw [heq] at a21
  exact ⟨⟨s.mDefaultVal, m1⟩, ⟨s.mDefaultVal, m2⟩, ⟨s.mDefaultVal, m12⟩, a1, a12, a2, a21⟩

/-- Claim C25 at a concrete reachable state, with adjacent ranges. -/
theorem disjoint_assign_commute_witness :
    Reachable (⟨0, [(5, 2), (9, 0)]⟩ : RangeMap Nat Nat) ∧ (3 : Nat) < 6 ∧ (6 : Nat) ≤ 6 ∧
      (6 : Nat) < 11 ∧
      ∃ s1 s2 s12, assign (⟨0, [(5, 2), (9, 0)]⟩ : RangeMap Nat Nat) 3 6 4 = some s1 ∧
        assign s1 6 11 4 = some s12 ∧
        assign (⟨0, [(5, 2), (9, 0)]⟩ : RangeMap Nat Nat) 6 11 4 = some s2 ∧
        assign s2 3 6 4 = some s12 :=
  ⟨⟨[(5, 9, 2)], by rfl⟩, by decide, by decide, by decide,
    disjoint_assign_commute (⟨0, [(5, 2), (9, 0)]⟩ : RangeMap Nat Nat) ⟨[(5, 9, 2)], by rfl⟩
      3 6 6 11 4 4 (by decide) (by decide) (by decide)⟩

/-- Claim C26. Bounded growth: in every reachable state and for all arguments,
`assign` returns a table with at most two entries more than before the call. -/
theorem bounded_growth (s : RangeMap K V) (hs : Reachable s) (keyBegin keyEnd : K) (v : V) :
    ∃ s1, assign s keyBegin keyEnd v = some s1 ∧
      (data s1).length ≤ (data s).length + 2 := by
  have hinv := reachable_inv s hs
  by_cases hlt : keyBegin < keyEnd
  · obtain ⟨X, Y, Z, hm, -, -, -, -, h1⟩ :=
      assign_inv_shape s.mDefaultVal s.mMap keyBegin keyEnd v hinv hlt
    refine ⟨_, h1, ?_⟩
    have hb : (beginPart (lastVal s.mDefaultVal X) keyBegin v).length ≤ 1 := by
      unfold beginPart
      split <;> simp
    have he : (endPart (lastVal s.mDefaultVal (X ++ Y)) keyEnd v).length ≤ 1 := by
      unfold endPart
      split <;> simp
    simp only [data, hm, List.length_append]
    omega
  · exact ⟨s, by simp [assign, hlt], Nat.le_add_right _ _⟩

/-- Claim C26 at a concrete reachable state, where the table grows by two. -/
theorem bounded_growth_witness :
    Reachable (⟨0, [(5, 2), (9, 0)]⟩ : RangeMap Nat Nat) ∧
      ∃ s1, assign (⟨0, [(5, 2), (9, 0)]⟩ : RangeMap Nat Nat) 6 7 4 = some s1 ∧
        (data s1).length ≤ (data (⟨0, [(5, 2), (9, 0)]⟩ : RangeMap Nat Nat)).length + 2 :=
  ⟨⟨[(5, 9, 2)], by rfl⟩,
    bounded_growth (⟨0, [(5, 2), (9, 0)]⟩ : RangeMap Nat Nat) ⟨[(5, 9, 2)], by rfl⟩ 6 7 4⟩

/-- Claim C27. Scan versus independent search: in a table with strictly
increasing keys and for `keyBegin < keyEnd`, the forward scan that starts at
`upper_bound keyBegin` ends at the position `upper_bound keyEnd`, and `assign`
with the scan replaced by that search returns the same result as `assign`,
which does return. -/
theorem scan_equals_search (d : V) (m : List (K × V)) (hm : KeysIncreasing m)
    (keyBegin keyEnd : K) (v : V) (hlt : keyBegin < keyEnd) :
    scanKeyEnd keyEnd (m.drop (upper_bound m keyBegin)) (upper_bound m keyBegin)
      = upper_bound m keyEnd ∧
    assignSearch ⟨d, m⟩ keyBegin keyEnd v = assign ⟨d, m⟩ keyBegin keyEnd v ∧
    ∃ s1, assign ⟨d, m⟩ keyBegin keyEnd v = some s1 ∧
      assignSearch ⟨d, m⟩ keyBegin keyEnd v = some s1 := by
  have hscan := scanKeyEnd_eq_upper_bound m hm keyBegin keyEnd hlt
  have heq : assignSearch ⟨d, m⟩ keyBegin keyEnd v = assign ⟨d, m⟩ keyBegin keyEnd v := by
    unfold assignSearch assign
    simp only [hscan]
  obtain ⟨m1, h1, -⟩ := assign_keysIncreasing d m hm keyBegin keyEnd v
  exact ⟨hscan, heq, ⟨d, m1⟩, h1, heq.trans h1⟩

/-- Claim C27 at a concrete table, with a stored key equal to `keyEnd`. -/
theorem scan_equals_search_witness :
    KeysIncreasing ([(1, 3), (2, 0), (5, 2), (9, 0)] : List (Nat × Nat)) ∧ (2 : Nat) < 5 ∧
      (scanKeyEnd 5 (([(1, 3), (2, 0), (5, 2), (9, 0)] : List (Nat × Nat)).drop
            (upper_bound ([(1, 3), (2, 0), (5, 2), (9, 0)] : List (Nat × Nat)) 2))
          (upper_bound ([(1, 3), (2, 0), (5, 2), (9, 0)] : List (Nat × Nat)) 2)
        = upper_bound ([(1, 3), (2, 0), (5, 2), (9, 0)] : List (Nat × Nat)) 5 ∧
      assignSearch (⟨0, [(1, 3), (2, 0), (5, 2), (9, 0)]⟩ : RangeMap Nat Nat) 2 5 4
        = assign (⟨0, [(1, 3), (2, 0), (5, 2), (9, 0)]⟩ : RangeMap Nat Nat) 2 5 4 ∧
      ∃ s1, assign (⟨0, [(1, 3), (2, 0), (5, 2), (9, 0)]⟩ : RangeMap Nat Nat) 2 5 4 = some s1 ∧
        assignSearch (⟨0, [(1, 3), (2, 0), (5, 2), (9, 0)]⟩ : RangeMap Nat Nat) 2 5 4
          = some s1) :=
  ⟨by simp [KeysIncreasing], by decide,
    scan_equals_search 0 [(1, 3), (2, 0), (5, 2), (9, 0)] (by simp [KeysIncreasing]) 2 5 4
      (by decide)⟩

/-- Claim C28, as stated, fails: the scan steps over a stored key equal to
`keyEnd`.  In the table `5 ↦ 2, 9 ↦ 0` with `keyBegin = 3` and `keyEnd = 5` the
first stored key that is not less than `5` is the key `5` at position `0`, but
the scan ends at position `1`, the entry with key `9`. -/
theorem end_position_counterexample :
    KeysIncreasing ([(5, 2), (9, 0)] : List (Nat × Nat)) ∧ (3 : Nat) < 5 ∧
      keyAt ([(5, 2), (9, 0)] : List (Nat × Nat)) 0 = some 5 ∧ ¬ ((5 : Nat) < 5) ∧
      scanKeyEnd 5 (([(5, 2), (9, 0)] : List (Nat × Nat)).drop
          (upper_bound ([(5, 2), (9, 0)] : List (Nat × Nat)) 3))
        (upper_bound ([(5, 2), (9, 0)] : List (Nat × Nat)) 3) = 1 ∧
      0 < scanKeyEnd 5 (([(5, 2), (9, 0)] : List (Nat × Nat)).drop
          (upper_bound ([(5, 2), (9, 0)] : List (Nat × Nat)) 3))
        (upper_bound ([(5, 2), (9, 0)] : List (Nat × Nat)) 3) ∧
      keyAt ([(5, 2), (9, 0)] : List (Nat × Nat)) 1 = some 9 := by
  refine ⟨by simp [KeysIncreasing], by decide, by rfl, by decide, by rfl, by decide, by rfl⟩

/-- Claim C28, amended. End position: in a table with strictly increasing keys
and for `keyBegin < keyEnd`, the end position computed by the forward scan from
`beginPos` is the position of the first stored key that is strictly greater than
`keyEnd` (the end of the table if there is none): the entries before it have
keys at most `keyEnd`, the entries from it on have keys greater than `keyEnd`,
and when `keyEnd` itself is a stored key, the end position is the one right
after that entry. -/
theorem end_position (m : List (K × V)) (hm : KeysIncreasing m) (keyBegin keyEnd : K)
    (hlt : keyBegin < keyEnd) :
    ∃ endPos, scanKeyEnd keyEnd (m.drop (upper_bound m keyBegin)) (upper_bound m keyBegin)
        = endPos ∧ endPos ≤ m.length ∧
      (∀ p ∈ m.take endPos, p.1 ≤ keyEnd) ∧ (∀ p ∈ m.drop endPos, keyEnd < p.1) ∧
      ∀ i, keyAt m i = some keyEnd → endPos = i + 1 := by
  refine ⟨upper_bound m keyEnd, scanKeyEnd_eq_upper_bound m hm keyBegin keyEnd hlt,
    upper_bound_le_length m keyEnd, (upper_bound_spec m hm keyEnd).1,
    (upper_bound_spec m hm keyEnd).2, ?_⟩
  intro i hi
  exact upper_bound_of_keyAt m hm keyEnd i hi

/-- Claim C28, amended, at the table of the counterexample. -/
theorem end_position_witness :
    KeysIncreasing ([(5, 2), (9, 0)] : List (Nat × Nat)) ∧ (3 : Nat) < 5 ∧
      ∃ endPos, scanKeyEnd 5 (([(5, 2), (9, 0)] : List (Nat × Nat)).drop
            (upper_bound ([(5, 2), (9, 0)] : List (Nat × Nat)) 3))
          (upper_bound ([(5, 2), (9, 0)] : List (Nat × Nat)) 3) = endPos ∧
        endPos ≤ ([(5, 2), (9, 0)] : List (Nat × Nat)).length ∧
        (∀ p ∈ ([(5, 2), (9, 0)] : List (Nat × Nat)).take endPos, p.1 ≤ 5) ∧
        (∀ p ∈ ([(5, 2), (9, 0)] : List (Nat × Nat)).drop endPos, 5 < p.1) ∧
        ∀ i, keyAt ([(5, 2), (9, 0)] : List (Nat × Nat)) i = some 5 → endPos = i + 1 :=
  ⟨by simp [KeysIncreasing], by decide,
    end_position [(5, 2), (9, 0)] (by simp [KeysIncreasing]) 3 5 (by decide)⟩

/-- Claim C29. Governing value selection: in every reachable state and for every
key `x`, the value `assign` takes as governing `x` at the position
`upper_bound x` (the value of the entry before that position when it is neither
the first position nor the end of the table, the default value otherwise) is the
lookup of `x`; this holds for `keyBegin` at `keyBeginPos` and for `keyEnd` at the
position where the scan of `assign` ends. -/
theorem governing_value_selection (s : RangeMap K V) (hs : Reachable s) (x : K) :
    governingValue s.mDefaultVal s.mMap (upper_bound s.mMap x) = get s x ∧
    ∀ keyBegin : K, keyBegin < x →
      governingValue s.mDefaultVal s.mMap (upper_bound s.mMap keyBegin) = get s keyBegin ∧
      governingValue s.mDefaultVal s.mMap
          (scanKeyEnd x (s.mMap.drop (upper_bound s.mMap keyBegin))
            (upper_bound s.mMap keyBegin)) = get s x := by
  have hinv := reachable_inv s hs
  have hall : ∀ y, governingValue s.mDefaultVal s.mMap (upper_bound s.mMap y) = get s y := by
    intro y
    have h1 : get s y = some (valueFor s.mDefaultVal s.mMap y) :=
      get_eq_valueFor s.mDefaultVal s.mMap y
    rw [h1]
    exact governingValue_upper_bound s.mDefaultVal s.mMap hinv y
  refine ⟨hall x, ?_⟩
  intro keyBegin hlt
  refine ⟨hall keyBegin, ?_⟩
  rw [scanKeyEnd_eq_upper_bound s.mMap hinv.1 keyBegin x hlt]
  exact hall x

/-- Claim C29 at a concrete reachable state and a key beyond the last stored
key. -/
theorem governing_value_selection_witness :
    Reachable (⟨0, [(5, 2), (9, 0)]⟩ : RangeMap Nat Nat) ∧
      (governingValue (⟨0, [(5, 2), (9, 0)]⟩ : RangeMap Nat Nat).mDefaultVal
          (⟨0, [(5, 2), (9, 0)]⟩ : RangeMap Nat Nat).mMap
          (upper_bound (⟨0, [(5, 2), (9, 0)]⟩ : RangeMap Nat Nat).mMap 11)
        = get (⟨0, [(5, 2), (9, 0)]⟩ : RangeMap Nat Nat) 11 ∧
      ∀ keyBegin : Nat, keyBegin < 11 →
        governingValue (⟨0, [(5, 2), (9, 0)]⟩ : RangeMap Nat Nat).mDefaultVal
            (⟨0, [(5, 2), (9, 0)]⟩ : RangeMap Nat Nat).mMap
            (upper_bound (⟨0, [(5, 2), (9, 0)]⟩ : RangeMap Nat Nat).mMap keyBegin)
          = get (⟨0, [(5, 2), (9, 0)]⟩ : RangeMap Nat Nat) keyBegin ∧
        governingValue (⟨0, [(5, 2), (9, 0)]⟩ : RangeMap Nat Nat).mDefaultVal
            (⟨0, [(5, 2), (9, 0)]⟩ : RangeMap Nat Nat).mMap
            (scanKeyEnd 11 ((⟨0, [(5, 2), (9, 0)]⟩ : RangeMap Nat Nat).mMap.drop
                (upper_bound (⟨0, [(5, 2), (9, 0)]⟩ : RangeMap Nat Nat).mMap keyBegin))
              (upper_bound (⟨0, [(5, 2), (9, 0)]⟩ : RangeMap Nat Nat).mMap keyBegin))
          = get (⟨0, [(5, 2), (9, 0)]⟩ : RangeMap Nat Nat) 11) :=
  ⟨⟨[(5, 9, 2)], by rfl⟩,
    governing_value_selection (⟨0, [(5, 2), (9, 0)]⟩ : RangeMap Nat Nat)
      ⟨[(5, 9, 2)], by rfl⟩ 11⟩

end RangeMap
